import Mathlib

/-!
Verification of the QICK pulse compiler (qpc) intermediate representation
and compiler, shallowly embedded from the Python sources.

Primary sources embedded here:
  - src/qpc/type.py   : the value model (QickConstType, QickReg,
    QickExpression), the scope stack, QickCode (fragments) with
    qick_copy, epoch_offset, add, parallel, merge_kvp, update_key.
  - src/qpc/compiler.py : QICKV2.preprocess and QICKV2.load.

Modelling conventions:
  - Python numbers (floats) are modelled as rationals.
  - Mutation of Python objects is modelled by explicit state passing:
    functions return the updated object (and the updated global id
    counter).  Exceptions are modelled with Except.
  - The external qick SoC conversion functions (us2cycles, freq2reg, ...)
    are injected parameters, as in the source.
  - The sympy expression returned by _to_sympy is modelled by its
    canonical linear normal form (a rational constant plus a list of
    coefficient * symbol terms); sympy auto-evaluation of Add collects
    numeric terms and drops zero, which is what the model implements.
    The canonical ordering sympy applies to the arguments of Add is
    abstracted: the model keeps terms in insertion order, which affects
    only the shape of the reconstructed tree, never its classification
    (constant / register / expression), its kind, or its value.
-/

deriving instance DecidableEq for Except

namespace QPC

/-- Python exceptions raised by the qpc sources. -/
inductive Err where
  /-- TypeError raised for incompatible qick types (KindMismatch). -/
  | kindMismatch : Err
  /-- RuntimeError from creating a QickObject outside of a QickScope. -/
  | unscoped : Err
  /-- Other RuntimeError with its message. -/
  | runtime (msg : String) : Err
  /-- ValueError with its message. -/
  | value (msg : String) : Err
  deriving Repr, DecidableEq

/-- The Python classes usable as the type_class of a QickType:
QickInt, QickTime, QickFreq, QickPhase (src/qpc/type.py). -/
inductive TyCls where
  | tInt : TyCls
  | tTime : TyCls
  | tFreq : TyCls
  | tPhase : TyCls
  deriving Repr, DecidableEq

/-- QickType (src/qpc/type.py lines 170-188): a type tag consisting of a
type class (None meaning unbound) and optional generator / readout
channels.  Channels that are QickIO objects are resolved to ports by the
external io map; the model keeps them as resolved numbers. -/
structure QTy where
  cls : Option TyCls
  gen_ch : Option Nat := none
  ro_ch : Option Nat := none
  deriving Repr, DecidableEq

/-- QickBaseType.typecastable (type.py lines 207-219), the default rule:
self unbound casts into anything, nothing casts into unbound, otherwise
the type classes must be equal.  QickTime.typecastable (lines 387-401)
replaces equality by both classes being QickTime subclasses; since
QickTime has no proper subclass in type.py the two rules coincide, and
the model uses this single function for every constant and expression. -/
def baseCastable (self other : QTy) : Bool :=
  match self.cls with
  | none => true
  | some a =>
    match other.cls with
    | none => false
    | some b => a == b

/-- QickReg.typecastable (type.py lines 537-557): registers additionally
require the generator and readout channels to match. -/
def regCastable (self other : QTy) : Bool :=
  match self.cls with
  | none => true
  | some a =>
    match other.cls with
    | none => false
    | some b => a == b && self.gen_ch == other.gen_ch && self.ro_ch == other.ro_ch

/-! ## Scope stack (type.py lines 22-88)

`qpc_scope` is a global stack of QickScope frames; each frame wraps the
QickCode under construction.  The model identifies a frame with the qpc
id of its code.  `QickObject._connect_scope` binds a new object to the
top (last pushed) frame, or fails when the stack is empty and the object
requires a scope. -/

/-- QickObject._connect_scope (type.py lines 80-88). -/
def connectScope (stack : List Nat) (scopeRequired : Bool) :
    Except Err (Option Nat) :=
  match stack.getLast? with
  | some top => .ok (some top)
  | none =>
    if scopeRequired then
      .error .unscoped
    else
      .ok none

/-! ## Compiler model (src/qpc/compiler.py)

`QICKV2.preprocess` (lines 114-246) walks the symbol table (kvp) of a
code block and textually substitutes each key; `QICKV2.load` (lines
286-331) runs preprocess, left-strips every line, and brackets the text
with fixed setup/teardown assembly.  The qick SoC conversion functions
and the board port tables are external collaborators and therefore
injected parameters. -/

/-- The external qick SoC conversion interface (us2cycles, cycles2us,
freq2reg, reg2freq), each taking an optional generator channel. -/
structure Soc where
  us2cycles : Option Nat → ℚ → ℤ
  cycles2us : Option Nat → ℤ → ℚ
  freq2reg : Option Nat → ℚ → ℤ
  reg2freq : Option Nat → ℤ → ℚ

/-- The board description used by preprocess: the number of tproc
registers and the port lookup table (channel type, channel name to
firmware port number; a missing entry is a Python KeyError). -/
structure Board where
  regs : Nat
  portsMapping : String → String → Option Nat

/-- One endpoint (start/stop/step) of a QickSweepArange. -/
inductive SweepEnd where
  | sfreq (f : ℚ) : SweepEnd
  | stime (t : ℚ) : SweepEnd
  | sint (n : ℤ) : SweepEnd
  | sreg : SweepEnd
  deriving Repr, DecidableEq

/-- The values appearing in the kvp of a code block handed to the old
compiler.  `pyid` models the CPython object identity that
`f'*{id(val)}*'` in preprocess (line 125) compares the key against.
The sweep channel is kept in already-resolved form (the source resolves
QickIO / QickIODevice channels through the board table). -/
inductive CVal where
  | cio (pyid : Nat) (channelType channel : String) : CVal
  | ciodev (pyid : Nat) (channelType channel : String) : CVal
  | creg (pyid : Nat) (scratch : Bool) : CVal
  | ctime (pyid : Nat) (t : ℚ) : CVal
  | clabel (pyid : Nat) (pre : String) : CVal
  | cfreq (pyid : Nat) (f : ℚ) : CVal
  | csweep (pyid : Nat) (start stop step : SweepEnd) (sweepCh : Option Nat) : CVal
  | cstr (pyid : Nat) (s : String) : CVal
  deriving Repr, DecidableEq

/-- The Python id() of a CVal. -/
def CVal.pyidOf : CVal → Nat
  | .cio i _ _ => i
  | .ciodev i _ _ => i
  | .creg i _ => i
  | .ctime i _ => i
  | .clabel i _ => i
  | .cfreq i _ => i
  | .csweep i _ _ _ _ => i
  | .cstr i _ => i

/-- A code block as consumed by the old compiler: assembly text plus
symbol table. -/
structure CCode where
  asm : String
  kvp : List (String × CVal)
  deriving Repr, DecidableEq

/-- The placeholder marker string for an id. -/
def marker (i : Nat) : String := "*" ++ toString i ++ "*"

/-! ### Injectivity of the `*id*` marker

Distinct ids yield distinct markers; this underpins every argument
about symbol-table keys.  It reduces to injectivity of the decimal
representation produced by Nat.repr, proved here against a simple
reference rendering. -/

/-- Reference decimal rendering of a natural number (most significant
digit first). -/
def repChars (n : Nat) : List Char :=
  if h : n < 10 then [Nat.digitChar n]
  else repChars (n / 10) ++ [Nat.digitChar (n % 10)]
  termination_by n
  decreasing_by
    have h10 : 10 ≤ n := Nat.le_of_not_lt h
    exact Nat.div_lt_self (by omega) (by omega)

theorem repChars_lt (n : Nat) (h : n < 10) : repChars n = [Nat.digitChar n] := by
  rw [repChars, dif_pos h]

theorem repChars_ge (n : Nat) (h : ¬ n < 10) :
    repChars n = repChars (n / 10) ++ [Nat.digitChar (n % 10)] := by
  rw [repChars, dif_neg h]

theorem repChars_ne_nil (n : Nat) : repChars n ≠ [] := by
  by_cases h : n < 10
  · rw [repChars_lt n h] ; simp
  · rw [repChars_ge n h] ; simp

theorem digitChar_inj_lt (a b : Nat) (ha : a < 10) (hb : b < 10)
    (h : Nat.digitChar a = Nat.digitChar b) : a = b := by
  interval_cases a <;> interval_cases b <;> first | rfl | exact absurd h (by decide)

theorem repChars_inj (m : Nat) : ∀ n, repChars m = repChars n → m = n := by
  induction m using Nat.strong_induction_on with
  | _ m ih =>
    intro n h
    by_cases hm : m < 10 <;> by_cases hn : n < 10
    · rw [repChars_lt m hm, repChars_lt n hn] at h
      exact digitChar_inj_lt m n hm hn (by injection h)
    · exfalso
      rw [repChars_lt m hm, repChars_ge n hn] at h
      have hlen := congrArg List.length h
      simp only [List.length_append, List.length_singleton] at hlen
      cases hrc : repChars (n / 10) with
      | nil => exact repChars_ne_nil (n / 10) hrc
      | cons a l => rw [hrc] at hlen ; simp at hlen
    · exfalso
      rw [repChars_ge m hm, repChars_lt n hn] at h
      have hlen := congrArg List.length h
      simp only [List.length_append, List.length_singleton] at hlen
      cases hrc : repChars (m / 10) with
      | nil => exact repChars_ne_nil (m / 10) hrc
      | cons a l => rw [hrc] at hlen ; simp at hlen
    · rw [repChars_ge m hm, repChars_ge n hn] at h
      have hpair := List.append_inj h (by
        have hlen := congrArg List.length h
        simp only [List.length_append, List.length_singleton] at hlen
        omega)
      obtain ⟨h1, h2⟩ := hpair
      have hdiv : m / 10 = n / 10 :=
        ih (m / 10) (Nat.div_lt_self (by omega) (by omega)) (n / 10) h1
      have hmod : m % 10 = n % 10 :=
        digitChar_inj_lt (m % 10) (n % 10)
          (Nat.mod_lt _ (by omega)) (Nat.mod_lt _ (by omega)) (by injection h2)
      omega

/-- Nat.toDigitsCore agrees with the reference rendering when the fuel
exceeds the number. -/
theorem toDigitsCore_eq_repChars :
    ∀ fuel n ds, n < fuel →
      Nat.toDigitsCore 10 fuel n ds = repChars n ++ ds := by
  intro fuel
  induction fuel with
  | zero => intro n ds h ; omega
  | succ f ih =>
    intro n ds h
    rw [Nat.toDigitsCore]
    by_cases h10 : n < 10
    · have hdiv : n / 10 = 0 := Nat.div_eq_of_lt h10
      simp only [hdiv, if_pos rfl]
      rw [repChars_lt n h10]
      have : n % 10 = n := Nat.mod_eq_of_lt h10
      rw [this]
      rfl
    · have hdiv : n / 10 ≠ 0 := by
        intro hz
        have := Nat.div_eq_of_lt (show n < 10 by omega)
        omega
      simp only [if_neg hdiv]
      rw [ih (n / 10) (Nat.digitChar (n % 10) :: ds)
        (by
          have h1 : 10 ≤ n := Nat.le_of_not_lt h10
          have := Nat.div_lt_self (show 0 < n by omega) (show 1 < 10 by omega)
          omega)]
      rw [repChars_ge n h10]
      simp

/-- toString on naturals is injective. -/
theorem natToString_inj (m n : Nat) (h : toString m = toString n) : m = n := by
  have hm : toString m = (repChars m).asString := by
    show Nat.repr m = _
    rw [Nat.repr, Nat.toDigits, toDigitsCore_eq_repChars (m + 1) m [] (by omega)]
    simp
  have hn : toString n = (repChars n).asString := by
    show Nat.repr n = _
    rw [Nat.repr, Nat.toDigits, toDigitsCore_eq_repChars (n + 1) n [] (by omega)]
    simp
  rw [hm, hn] at h
  apply repChars_inj
  have : (repChars m).asString.data = (repChars n).asString.data := by rw [h]
  simpa [List.asString] using this

/-- The `*id*` markers of distinct ids are distinct. -/
theorem marker_inj (m n : Nat) (h : marker m = marker n) : m = n := by
  apply natToString_inj
  unfold marker at h
  have hd : ("*" ++ toString m ++ "*").data = ("*" ++ toString n ++ "*").data := by
    rw [h]
  simp only [String.data_append] at hd
  have := List.append_inj hd (by
    have hl := congrArg List.length hd
    simpa using hl)
  obtain ⟨h1, _⟩ := this
  have h2 : (toString m).data = (toString n).data := by
    have := h1
    simpa using this
  exact String.ext h2

/-! ### String helpers

Python str.replace and the line handling in load are modelled by
structurally recursive functions on character lists, with the same
semantics (left-to-right, non-overlapping replacement of every
occurrence).  The fuel argument is bounded by the list length, which
makes the recursion structural. -/

/-- Replace every occurrence of `old` (non-empty) in the character list,
left to right and non-overlapping, by `new`. -/
def replaceAux (old new : List Char) : Nat → List Char → List Char
  | _, [] => []
  | 0, l => l
  | fuel + 1, c :: rest =>
    if old.isPrefixOf (c :: rest) then
      new ++ replaceAux old new fuel (rest.drop (old.length - 1))
    else
      c :: replaceAux old new fuel rest

/-- Python s.replace(old, new) for a non-empty pattern (the empty
pattern does not occur in the sources: keys are `*id*` markers). -/
def pyReplace (s old new : String) : String :=
  if old.isEmpty then s
  else ⟨replaceAux old.data new.data s.data.length s.data⟩

/-- True when the non-empty `needle` occurs as a substring of the
character list. -/
def containsAux (needle : List Char) : List Char → Bool
  | [] => needle.isEmpty
  | c :: rest => needle.isPrefixOf (c :: rest) || containsAux needle rest

/-- True when `needle` occurs as a substring of `hay`. -/
def containsStr (needle hay : String) : Bool :=
  containsAux needle.data hay.data

/-- Split a character list at newline characters (Python
split with a single-character separator). -/
def splitNl : List Char → List (List Char)
  | [] => [[]]
  | c :: rest =>
    if c = '\n' then [] :: splitNl rest
    else
      match splitNl rest with
      | [] => [[c]]
      | l :: ls => (c :: l) :: ls

/-- Python str.lstrip: drop leading whitespace characters. -/
def lstrip (l : List Char) : List Char := l.dropWhile Char.isWhitespace

/-- convert_cycles (compiler.py lines 163-199): convert a natural-unit
value into clock cycles and check the rounding error against the 5%
budget.  `isTime` selects the time branch (conversion factor 1e6 into
us2cycles) over the frequency branch (factor 1e-6 into freq2reg).
Python divides by the requested value when computing the relative
error; rational division by zero is total in the model (Python would
raise ZeroDivisionError there). -/
def convertCycles (soc : Soc) (v : ℚ) (isTime : Bool) (genCh : Option Nat) :
    Except Err ℤ :=
  let valCyc : ℤ :=
    if isTime then soc.us2cycles genCh (v * 1000000)
    else soc.freq2reg genCh (v * (1 / 1000000))
  let oneCyc : ℚ :=
    if isTime then soc.cycles2us genCh 1 else soc.reg2freq genCh 1
  let factor : ℚ := if isTime then 1000000 else 1 / 1000000
  let actual : ℚ := (valCyc : ℚ) * oneCyc / factor
  if |actual - v| / v > 5 / 100 then
    .error (.value "After rounding QickSweepArange to the nearest clock cycle, error is > max_error")
  else
    .ok valCyc

/-- Convert one sweep endpoint to clock cycles (the start/stop/step
handling in preprocess, lines 201-238).  A register endpoint yields
None, which Python later renders as the string "None". -/
def sweepEndCycles (soc : Soc) (sweepCh : Option Nat) :
    SweepEnd → Except Err (Option ℤ)
  | .sfreq f => (convertCycles soc f false sweepCh).map some
  | .stime t => (convertCycles soc t true sweepCh).map some
  | .sint n => .ok (some n)
  | .sreg => .ok none

/-- Python str() of an optional integer. -/
def strOptInt : Option ℤ → String
  | some n => toString n
  | none => "None"

/-- Process one kvp entry of preprocess (the body of the loop at
compiler.py lines 124-246).  State: current assembly text and the next
automatic register / label numbers. -/
def preprocessEntry (board : Board) (soc : Soc)
    (st : String × Nat × Nat) (key : String) (val : CVal) :
    Except Err (String × Nat × Nat) := do
  let (asm, reg, label) := st
  if key ≠ marker val.pyidOf then
    throw (.runtime "Internal preprocessor error - key and value do not match")
  match val with
  | .cio _ ct ch =>
    match board.portsMapping ct ch with
    | some p => return (pyReplace asm key (toString p), reg, label)
    | none => throw (.runtime "KeyError")
  | .ciodev _ ct ch =>
    match board.portsMapping ct ch with
    | some p => return (pyReplace asm key (toString p), reg, label)
    | none => throw (.runtime "KeyError")
  | .creg _ scratch =>
    if scratch then
      let scratchReg := board.regs - 1
      return (pyReplace asm key ("r" ++ toString scratchReg), reg, label)
    else
      if reg > board.regs - 2 then
        throw (.value "Ran out of registers.")
      else
        return (pyReplace asm key ("r" ++ toString reg), reg + 1, label)
  | .ctime _ t =>
    return (pyReplace asm key (toString (soc.us2cycles none (t * 1000000))), reg, label)
  | .clabel _ pre =>
    return (pyReplace asm key (pre ++ toString label), reg, label + 1)
  | .cfreq _ f =>
    return (pyReplace asm key (toString (soc.freq2reg none (f * (1 / 1000000)))), reg, label)
  | .csweep _ start stop step sweepCh => do
    let startCyc ← sweepEndCycles soc sweepCh start
    let stopCyc ← sweepEndCycles soc sweepCh stop
    let stepCyc ← sweepEndCycles soc sweepCh step
    let asm := pyReplace asm (key ++ "start") (strOptInt startCyc)
    let asm := pyReplace asm (key ++ "stop") (strOptInt stopCyc)
    let asm := pyReplace asm (key ++ "step") (strOptInt stepCyc)
    return (asm, reg, label)
  | .cstr _ s =>
    return (pyReplace asm key s, reg, label)

/-- QICKV2.preprocess (compiler.py lines 114-246): substitute every kvp
key in the assembly text.  There is no scan for markers that have no
kvp entry. -/
def preprocessC (board : Board) (soc : Soc) (code : CCode) :
    Except Err CCode := do
  let st ← code.kvp.foldlM
    (fun st kv => preprocessEntry board soc st kv.1 kv.2) (code.asm, 0, 0)
  return { code with asm := st.1 }

/-- The per-line left-strip and rejoin in load (compiler.py lines
298-300): split on newlines, left-strip each line, append a newline to
each. -/
def lstripLines (asm : String) : String :=
  ⟨((splitNl asm.data).map (fun l => lstrip l ++ ['\n'])).flatten⟩

/-- The fixed setup assembly prepended by load (lines 303-305). -/
def setupAsm (soc : Soc) : String :=
  "NOP\n" ++ "TIME inc_ref #" ++ toString (soc.us2cycles none 1000) ++ "\n"

/-- QICKV2.load (compiler.py lines 286-331) up to the emitted text:
preprocess, strip indentation, add setup and teardown assembly.  The
downstream assembler consuming the text is external. -/
def loadC (board : Board) (soc : Soc) (code : CCode) : Except Err String := do
  let code ← preprocessC board soc code
  return setupAsm soc ++ lstripLines code.asm ++ "JUMP HERE\n"

/-- A demonstration board: 16 registers, trigger port PMOD0_0 at port 0. -/
def demoBoard : Board where
  regs := 16
  portsMapping := fun ct ch =>
    if ct = "TRIG" ∧ ch = "PMOD0_0" then some 0 else none

/-- A demonstration SoC conversion model with a 2 us clock cycle:
us2cycles rounds us/2 to the nearest integer (half up), cycles2us is
exact.  The frequency conversions use a 1 Hz DDS step. -/
def demoSoc : Soc where
  us2cycles := fun _ us => ⌊us / 2 + 1 / 2⌋
  cycles2us := fun _ c => 2 * c
  freq2reg := fun _ mhz => ⌊mhz * 1000000 + 1 / 2⌋
  reg2freq := fun _ r => (r : ℚ) * (1 / 1000000)

/-! ### Exact numbers

Python float values in the value model are modelled as exact rationals,
represented as unnormalized fractions with a positive denominator so
that every operation is a structural computation (kernel reducible).
Equality and order are the rational ones (cross multiplication);
`toRat` is the semantic bridge. -/

/-- An exact number: an integer numerator over the positive natural
denominator `den1 + 1`, not necessarily reduced (storing the
denominator minus one keeps it positive without carrying proofs). -/
structure PyRat where
  num : ℤ
  den1 : ℕ := 0
  deriving Repr, DecidableEq

namespace PyRat

/-- The denominator as an integer (always positive). -/
def den (a : PyRat) : ℤ := (a.den1 : ℤ) + 1

/-- The rational value represented. -/
def toRat (a : PyRat) : ℚ := (a.num : ℚ) / ((a.den : ℤ) : ℚ)

/-- Addition. -/
def padd (a b : PyRat) : PyRat :=
  ⟨a.num * b.den + b.num * a.den, a.den1 * b.den1 + a.den1 + b.den1⟩

/-- Negation. -/
def pneg (a : PyRat) : PyRat := ⟨-a.num, a.den1⟩

/-- Multiplication. -/
def pmul (a b : PyRat) : PyRat :=
  ⟨a.num * b.num, a.den1 * b.den1 + a.den1 + b.den1⟩

/-- Value equality (cross multiplication). -/
def peq (a b : PyRat) : Bool := a.num * b.den = b.num * a.den

/-- Value order (cross multiplication; denominators are positive). -/
def plt (a b : PyRat) : Bool := a.num * b.den < b.num * a.den

/-- An integer as a PyRat. -/
def ofInt (n : ℤ) : PyRat := ⟨n, 0⟩

theorem den_pos (a : PyRat) : (0 : ℤ) < a.den := by
  unfold den
  omega

theorem den_cast_pos (a : PyRat) : (0 : ℚ) < ((a.den : ℤ) : ℚ) := by
  exact_mod_cast a.den_pos

theorem den_cast_ne (a : PyRat) : (((a.den : ℤ) : ℚ)) ≠ 0 :=
  ne_of_gt a.den_cast_pos

theorem den_padd (a b : PyRat) : (a.padd b).den = a.den * b.den := by
  unfold den padd
  push_cast
  ring

theorem den_pmul (a b : PyRat) : (a.pmul b).den = a.den * b.den := by
  unfold den pmul
  push_cast
  ring

theorem toRat_padd (a b : PyRat) : (a.padd b).toRat = a.toRat + b.toRat := by
  unfold toRat
  rw [den_padd, div_add_div _ _ a.den_cast_ne b.den_cast_ne]
  show ((a.padd b).num : ℚ) / _ = _
  unfold padd
  push_cast
  ring_nf

theorem toRat_pneg (a : PyRat) : a.pneg.toRat = -a.toRat := by
  unfold toRat
  have hd : a.pneg.den = a.den := rfl
  rw [hd]
  show ((-a.num : ℤ) : ℚ) / _ = _
  push_cast
  ring

theorem toRat_pmul (a b : PyRat) : (a.pmul b).toRat = a.toRat * b.toRat := by
  unfold toRat
  rw [den_pmul]
  show ((a.num * b.num : ℤ) : ℚ) / _ = _
  push_cast
  rw [div_mul_div_comm]

theorem peq_iff (a b : PyRat) : a.peq b = true ↔ a.toRat = b.toRat := by
  unfold toRat peq
  rw [div_eq_div_iff a.den_cast_ne b.den_cast_ne]
  constructor
  · intro h
    exact_mod_cast decide_eq_true_iff.mp h
  · intro h
    simp only [decide_eq_true_eq]
    exact_mod_cast h

theorem plt_iff (a b : PyRat) : a.plt b = true ↔ a.toRat < b.toRat := by
  unfold toRat plt
  rw [div_lt_div_iff a.den_cast_pos b.den_cast_pos]
  constructor
  · intro h
    exact_mod_cast decide_eq_true_iff.mp h
  · intro h
    simp only [decide_eq_true_eq]
    exact_mod_cast h

end PyRat

/-! ## Value model (src/qpc/type.py)

QickConstType (constants), QickReg (registers) and QickExpression
(expression trees) from type.py.  Python object mutation is modelled by
returning the updated value; the global qpc id counter is threaded
explicitly; the ambient QickScope stack is an explicit argument.  A qpc
id minted by a typecast that subsequently raises is not modelled: only
freshness and monotonicity of the counter are relied upon. -/

/-- The operators of QickExpression. -/
inductive Op where
  | add : Op
  | sub : Op
  | mul : Op
  deriving Repr, DecidableEq

/-- A value of the type.py value model: a constant (QickConstType
subclass instance: id, scope, type tag, SI value), a register (QickReg:
id, scope, optional fixed hardware register name, held type), or an
expression (QickExpression: id, scope, operands, operator, held type). -/
inductive QVal where
  | vconst (qid : Nat) (scope : Option Nat) (ty : QTy) (v : PyRat) : QVal
  | vreg (qid : Nat) (scope : Option Nat) (regname : Option String) (ty : QTy) : QVal
  | vexpr (qid : Nat) (scope : Option Nat) (left : QVal) (op : Op) (right : QVal) (ty : QTy) : QVal
  deriving Repr, DecidableEq

/-- qick_type() of a value: a constant returns its own type tag, a
register or expression its held type (type.py lines 252-254, 475-476). -/
def qickTypeOf : QVal → QTy
  | .vconst _ _ ty _ => ty
  | .vreg _ _ _ ty => ty
  | .vexpr _ _ _ _ _ ty => ty

/-- typecastable with Python method dispatch: registers use the strict
rule, constants and expressions the base rule (the QickTime override
coincides with the base rule, see baseCastable). -/
def castableV (self other : QVal) : Bool :=
  match self with
  | .vreg _ _ _ ty => regCastable ty (qickTypeOf other)
  | _ => baseCastable (qickTypeOf self) (qickTypeOf other)

/-- Whether a value is a register or an expression (a QickVarType). -/
def isVarB : QVal → Bool
  | .vconst _ _ _ _ => false
  | _ => true

/-- Whether a value is a constant. -/
def isConstB : QVal → Bool
  | .vconst _ _ _ _ => true
  | _ => false

/-- Whether a value is a register. -/
def isRegB : QVal → Bool
  | .vreg _ _ _ _ => true
  | _ => false

/-- Whether a value is an expression node. -/
def isExprB : QVal → Bool
  | .vexpr _ _ _ _ _ _ => true
  | _ => false

/-- Size of a value tree (for fuel bounds). -/
def sizeV : QVal → Nat
  | .vconst _ _ _ _ => 1
  | .vreg _ _ _ _ => 1
  | .vexpr _ _ l _ r _ => sizeV l + sizeV r + 1

/-- Whether the tree contains a register atom. -/
def hasRegV : QVal → Bool
  | .vconst _ _ _ _ => false
  | .vreg _ _ _ _ => true
  | .vexpr _ _ l _ r _ => hasRegV l || hasRegV r

/-- Construction of a constant of a given class (`type_class(val=...)`):
allocate a fresh qpc id and connect to the scope stack; calling a None
class is a Python TypeError at runtime (modelled as a runtime error;
unreachable in the flows proved about). -/
def mkConstF (stack : List Nat) (cls : Option TyCls) (gen ro : Option Nat)
    (v : PyRat) (n : Nat) : Except Err (QVal × Nat) :=
  match cls with
  | none => .error (.runtime "NoneType is not callable")
  | some k => do
    let sc ← connectScope stack true
    return (.vconst n sc ⟨some k, gen, ro⟩ v, n + 1)

/-- The two mutually recursive operations typecast
(QickBaseType.typecast dispatch) and the QickExpression constructor. -/
inductive Job where
  | tc (v other : QVal) : Job
  | mk (l : QVal) (op : Op) (r : QVal) : Job

/-- typecast and the QickExpression constructor (type.py lines 256-266,
559-565, 659-691, 729-745), fuelled to make the mutual recursion
structural (the fuel is ample in every use below; running out is a
model-internal error that the sufficiency lemmas exclude).

tc v other: QickConstType.typecast builds a fresh constant of the
target class carrying the target channels; QickReg.typecast mutates the
held type (returned as the updated register, same id);
QickExpression.typecast typecasts both children and rebuilds via the
constructor.

mk l op r: QickExpression.__init__ allocates an id, connects the scope,
then tries right.typecast(left), falling back to left.typecast(right)
when the first raises the TypeError modelled by kindMismatch; other
exceptions propagate. -/
def runJob : Nat → List Nat → Job → Nat → Except Err (QVal × Nat)
  | 0, _, _, _ => .error (.runtime "model recursion fuel exhausted")
  | fuel + 1, stack, job, n =>
    match job with
    | .tc v other =>
      match v with
      | .vconst _ _ ty c =>
        if baseCastable ty (qickTypeOf other) then
          mkConstF stack (qickTypeOf other).cls (qickTypeOf other).gen_ch
            (qickTypeOf other).ro_ch c n
        else
          .error .kindMismatch
      | .vreg i sc nm ty =>
        if regCastable ty (qickTypeOf other) then
          .ok (.vreg i sc nm (qickTypeOf other), n)
        else
          .error .kindMismatch
      | .vexpr _ _ l op r _ => do
        let (l2, n) ← runJob fuel stack (.tc l other) n
        let (r2, n) ← runJob fuel stack (.tc r other) n
        runJob fuel stack (.mk l2 op r2) n
    | .mk l op r => do
      let sc ← connectScope stack true
      let i := n
      let n := n + 1
      match runJob fuel stack (.tc r l) n with
      | .ok (r2, n2) => .ok (.vexpr i sc l op r2 (qickTypeOf l), n2)
      | .error .kindMismatch =>
        match runJob fuel stack (.tc l r) n with
        | .ok (l2, n2) => .ok (.vexpr i sc l2 op r (qickTypeOf l2), n2)
        | .error .kindMismatch => .error .kindMismatch
        | .error e => .error e
      | .error e => .error e

/-- typecast of self into the type of other. -/
def typecastF (fuel : Nat) (stack : List Nat) (v other : QVal) (n : Nat) :
    Except Err (QVal × Nat) :=
  runJob fuel stack (.tc v other) n

/-- The QickExpression constructor. -/
def mkExprF (fuel : Nat) (stack : List Nat) (l : QVal) (op : Op) (r : QVal)
    (n : Nat) : Except Err (QVal × Nat) :=
  runJob fuel stack (.mk l op r) n

/-! ### The sympy round trip (simplify, type.py lines 831-849)

`simplify` converts the expression to a sympy expression (_to_sympy),
and converts back (_from_sympy).  (The `sym_exp.simplify()` call on
line 842 discards its result and has no effect.)  The sympy expression
built from these values is always a linear combination
`c + sum of q_i * s_i` over pairwise distinct symbols (each register
occurrence gets a fresh symbol name, type.py lines 595-610), modelled
canonically by the constant and the term list. -/

/-- The linear normal form of the sympy expression: constant part plus
coefficient/symbol-name terms (symbols pairwise distinct, coefficients
non-zero thanks to sympy auto-evaluation dropping zero terms). -/
structure Lin where
  c : PyRat
  terms : List (PyRat × String)
  deriving Repr, DecidableEq

/-- The fresh symbol suffix chosen by QickReg._to_sympy: the smallest n
such that key + str(n) is not yet a key of the regs dict. -/
def freshSuffix (base : String) (regs : List (String × QVal)) : String :=
  match (List.range (regs.length + 1)).find?
      (fun m => ¬ (regs.map Prod.fst).contains (base ++ toString m)) with
  | some m => base ++ toString m
  | none => base ++ toString (regs.length + 1)

/-- Pointwise sum of linear forms (sympy Add auto-evaluation; symbols
are pairwise distinct so no like terms combine). -/
def linAdd (a b : Lin) : Lin := ⟨a.c.padd b.c, a.terms ++ b.terms⟩

/-- Negation of a linear form. -/
def linNeg (a : Lin) : Lin := ⟨a.c.pneg, a.terms.map (fun t => (t.1.pneg, t.2))⟩

/-- Scaling of a linear form; sympy drops terms whose coefficient
becomes zero. -/
def linScale (q : PyRat) (a : Lin) : Lin :=
  ⟨q.pmul a.c,
   (a.terms.map (fun t => (q.pmul t.1, t.2))).filter (fun t => ¬ t.1.peq (.ofInt 0))⟩

/-- _to_sympy (type.py lines 371-379, 595-610, 747-772): fold the value
into the linear normal form, collecting the register objects in the
regs dict (list of symbol-name/register pairs).  Products of two
symbol-carrying operands are outside the linear model (none); the
arithmetic operators never build them (QickVarType.__mul__ is
NotImplemented, type.py line 502-504). -/
def toSympy : QVal → List (String × QVal) →
    Option (Lin × List (String × QVal))
  | .vconst _ _ _ v, regs => some (⟨v, []⟩, regs)
  | .vreg i sc nm ty, regs =>
    let key := freshSuffix (marker i) regs
    some (⟨.ofInt 0, [(.ofInt 1, key)]⟩, regs ++ [(key, .vreg i sc nm ty)])
  | .vexpr _ _ l op r _, regs => do
    let (la, regs) ← toSympy l regs
    let (lb, regs) ← toSympy r regs
    match op with
    | .add => some (linAdd la lb, regs)
    | .sub => some (linAdd la (linNeg lb), regs)
    | .mul =>
      if la.terms = [] then some (linScale la.c lb, regs)
      else if lb.terms = [] then some (linScale lb.c la, regs)
      else none

/-- One canonical sympy argument of an Add: a number or a
coefficient * symbol term. -/
inductive SymArg where
  | num (q : PyRat) : SymArg
  | term (q : PyRat) (s : String) : SymArg
  deriving Repr, DecidableEq

/-- The canonical argument list of the sympy expression denoted by a
linear form: the numeric part (when non-zero) followed by the terms.
(sympy orders Add arguments by its canonical sort key; the model keeps
insertion order, which only affects the shape of the reconstructed
tree, not its classification, kind, or value.) -/
def linArgs (lin : Lin) : List SymArg :=
  (if ¬ lin.c.peq (.ofInt 0) then [SymArg.num lin.c] else []) ++
    lin.terms.map (fun t => SymArg.term t.1 t.2)

/-- Python round() (banker's rounding) of half a natural number:
round(m / 2). -/
def pyHalf (m : Nat) : Nat :=
  if m % 2 = 0 then m / 2
  else if (m / 2) % 2 = 0 then m / 2 else m / 2 + 1

/-- _from_sympy (type.py lines 774-829) on one canonical argument:
a Number becomes `qick_type.type_class(val=...)` (a fresh constant of
the expression class with default channels); a Symbol becomes the
register stored in the regs dict (a missing symbol is a Python
KeyError); a coefficient * symbol product becomes the corresponding
two-argument Mul, i.e. an expression `const * reg`. -/
def rebuildArg (fuel : Nat) (stack : List Nat) (regs : List (String × QVal))
    (qt : QTy) (a : SymArg) (n : Nat) : Except Err (QVal × Nat) :=
  match a with
  | .num q => mkConstF stack qt.cls none none q n
  | .term q s =>
    match (regs.find? (fun kv => kv.1 = s)).map Prod.snd with
    | none => .error (.runtime "KeyError")
    | some reg =>
      if q.peq (.ofInt 1) then .ok (reg, n)
      else do
        let (cq, n) ← mkConstF stack qt.cls none none q n
        mkExprF fuel stack cq .mul reg n

/-- _from_sympy on an argument list (an Add with those arguments):
a single argument stands for itself; otherwise the list is split at
round(len/2) and the halves are rebuilt and joined by the
QickExpression constructor with operator +.  The structural fuel is
the list length. -/
def rebuildArgs (rfuel : Nat) (fuel : Nat) (stack : List Nat)
    (regs : List (String × QVal)) (qt : QTy) (args : List SymArg) (n : Nat) :
    Except Err (QVal × Nat) :=
  match rfuel with
  | 0 => .error (.runtime "model recursion fuel exhausted")
  | rfuel + 1 =>
    match args with
    | [] => .error (.runtime "empty sympy Add")
    | [a] => rebuildArg fuel stack regs qt a n
    | args => do
      let i := pyHalf args.length
      let (l, n) ← rebuildArgs rfuel fuel stack regs qt (args.take i) n
      let (r, n) ← rebuildArgs rfuel fuel stack regs qt (args.drop i) n
      mkExprF fuel stack l .add r n

/-- _from_sympy at the top of simplify: classify the linear form as a
Number, a bare Symbol, or an Add/Mul and rebuild accordingly. -/
def fromSympy (fuel : Nat) (stack : List Nat) (regs : List (String × QVal))
    (qt : QTy) (lin : Lin) (n : Nat) : Except Err (QVal × Nat) :=
  match lin.terms with
  | [] => mkConstF stack qt.cls none none lin.c n
  | [(q, s)] =>
    if lin.c.peq (.ofInt 0) then rebuildArg fuel stack regs qt (.term q s) n
    else rebuildArgs (lin.terms.length + 2) fuel stack regs qt (linArgs lin) n
  | _ => rebuildArgs (lin.terms.length + 2) fuel stack regs qt (linArgs lin) n

/-- QickExpression.simplify (type.py lines 831-849): regs := {},
_to_sympy, (discarded sympy simplify call), _from_sympy with the
expression type. -/
def simplifyF (fuel : Nat) (stack : List Nat) (e : QVal) (n : Nat) :
    Except Err (QVal × Nat) :=
  match toSympy e [] with
  | none => .error (.runtime "nonlinear product outside the linear model")
  | some (lin, regs) => fromSympy fuel stack regs (qickTypeOf e) lin n

/-- The ample fuel handed to the constructor/typecast recursion by the
arithmetic operators (cf. the fuel sufficiency lemmas below). -/
def ampleFuel (a b : QVal) : Nat := 2 * (sizeV a + sizeV b) + 4

/-- QickVarType.__add__ (type.py lines 478-483): check typecastable
(with register/base dispatch), build the Expression, and run it through
simplify. -/
def varAdd (stack : List Nat) (self other : QVal) (n : Nat) :
    Except Err (QVal × Nat) :=
  if castableV self other then do
    let (e, n2) ← mkExprF (ampleFuel self other) stack self .add other n
    simplifyF (ampleFuel self other) stack e n2
  else
    .error .kindMismatch

/-- The Python expression a + b for two model values (raw Python
numbers as operands are not modelled).  QickConstType.__add__ (type.py
lines 320-331) folds constants (into a constant of the left class with
default channels) and returns NotImplemented on a register or
expression, so Python dispatches to the right operand's __radd__,
which is its __add__ (line 485-486).  Registers and expressions go
through QickVarType.__add__. -/
def pyAddV (stack : List Nat) (a b : QVal) (n : Nat) :
    Except Err (QVal × Nat) :=
  match a with
  | .vconst _ _ ty v =>
    match b with
    | .vconst _ _ _ w =>
      if baseCastable ty (qickTypeOf b) then
        mkConstF stack ty.cls none none (v.padd w) n
      else
        .error .kindMismatch
    | _ => varAdd stack b a n
  | _ => varAdd stack a b n

/-! ### Register assignment (QickReg._assign, type.py lines 567-581)

`reg.assign(value)`: when reg is typecastable into the type of value,
a QickAssignment object is built around `reg.typecast(value)` (which
fixes the held type) and registered; otherwise TypeError.  The
value-level model returns the updated register and the fresh
QickAssignment id. -/
def regAssignF (stack : List Nat) (r value : QVal) (n : Nat) :
    Except Err (QVal × Nat × Nat) :=
  if castableV r value then do
    let (r2, n2) ← typecastF (ampleFuel r value) stack r value n
    let sc ← connectScope stack true
    let _ := sc
    return (r2, n2, n2 + 1)
  else
    .error .kindMismatch


/-! ## Fragment model (QickCode, src/qpc/type.py lines 908-1328)

A fragment tree: QickCode objects own assembly text, a symbol table
(kvp: insertion-ordered string-keyed dictionary), a length and an
offset; the kvp values are nested codes, register assignments
(QickAssignment), labels, or plain values.  Python object aliasing is
modelled by tree duplication; the identity-remap walk reconciles
duplicates through its lookup table exactly as the source does through
shared references (see qickCopyF). -/

mutual

/-- A qpc object ownable by a symbol table: a code block, a register
assignment, a label, or a plain value (register/constant/expression
registered directly). -/
inductive QObj where
  | qcode (qid : Nat) (scope : Option Nat) (name : Option String) (asm : String)
      (length : QVal) (offset : QVal) (kvp : Kvp) : QObj
  | qassign (qid : Nat) (scope : Option Nat) (reg : QVal) (rhs : QVal) : QObj
  | qlabel (qid : Nat) (scope : Option Nat) (pre : String) : QObj
  | qval (v : QVal) : QObj

/-- An insertion-ordered string-keyed dictionary (Python dict). -/
inductive Kvp where
  | nil : Kvp
  | cons (k : String) (v : QObj) (rest : Kvp) : Kvp

end

/-- The qpc id of a value. -/
def qidOfVal : QVal → Nat
  | .vconst i _ _ _ => i
  | .vreg i _ _ _ => i
  | .vexpr i _ _ _ _ _ => i

/-- The qpc id of an object. -/
def qidOf : QObj → Nat
  | .qcode i _ _ _ _ _ _ => i
  | .qassign i _ _ _ => i
  | .qlabel i _ _ => i
  | .qval v => qidOfVal v

/-- The `*id*` key of an object (QickObject._key). -/
def keyOf (o : QObj) : String := marker (qidOf o)

/-- Dictionary lookup. -/
def kvpLookup : Kvp → String → Option QObj
  | .nil, _ => none
  | .cons k v rest, key => if k = key then some v else kvpLookup rest key

/-- Dictionary key membership. -/
def kvpHasKey (m : Kvp) (key : String) : Bool := (kvpLookup m key).isSome

/-- Python dict assignment: replace in place when the key exists,
append otherwise. -/
def kvpSet : Kvp → String → QObj → Kvp
  | .nil, key, v => .cons key v .nil
  | .cons k w rest, key, v =>
    if k = key then .cons k v rest else .cons k w (kvpSet rest key v)

/-- Python dict deletion (of an existing key). -/
def kvpErase : Kvp → String → Kvp
  | .nil, _ => .nil
  | .cons k v rest, key =>
    if k = key then rest else .cons k v (kvpErase rest key)

mutual

/-- Structural equality of objects (used to model the Python `!=`
comparison in merge_kvp; Python compares object identity there, which
tree duplication models as structural equality). -/
def qeqObj : QObj → QObj → Bool
  | .qcode i sc nm asm len off kvp, .qcode j sc2 nm2 asm2 len2 off2 kvp2 =>
    i == j && sc == sc2 && nm == nm2 && asm == asm2 && len == len2 &&
      off == off2 && qeqKvp kvp kvp2
  | .qassign i sc r rhs, .qassign j sc2 r2 rhs2 =>
    i == j && sc == sc2 && r == r2 && rhs == rhs2
  | .qlabel i sc p, .qlabel j sc2 p2 => i == j && sc == sc2 && p == p2
  | .qval v, .qval w => v == w
  | _, _ => false

/-- Structural equality of dictionaries. -/
def qeqKvp : Kvp → Kvp → Bool
  | .nil, .nil => true
  | .cons k v r, .cons k2 v2 r2 => k == k2 && qeqObj v v2 && qeqKvp r r2
  | _, _ => false

end

/-! ### The identity-remap walk (_qick_copy, type.py lines 90-129,
697-713, 873-888, 1023-1040) -/

/-- The state threaded through the walk: the `scopes` dict keys, the
`new_ids` list, the `new_ids_lut` (old key to new id; the source stores
the renamed object itself, whose id the model records), and the global
id counter. -/
structure WSt where
  scopes : List String
  newIds : List String
  lut : List (String × Nat)
  n : Nat

/-- QickObject._qick_copy (type.py lines 90-129) on the id and scope of
one object: reassign the scope through the lut when its key was
renamed; then, when the (possibly reassigned) scope's key is in the
scopes dict, rename this object: skip if already renamed (new_ids),
adopt the id of a previously renamed object with the same old key
(lut), or allocate a fresh id and record it.  An object whose scope is
None makes the source crash with AttributeError (scope.code on None). -/
def stepIdScope (qid : Nat) (scope : Option Nat) (st : WSt) :
    Except Err (Nat × Option Nat × WSt) :=
  match scope with
  | none => .error (.runtime "AttributeError: NoneType has no attribute code")
  | some scid0 =>
    let scid :=
      match st.lut.find? (fun p => p.1 = marker scid0) with
      | some p => p.2
      | none => scid0
    if st.scopes.contains (marker scid) then
      if st.newIds.contains (marker qid) then
        .ok (qid, some scid, st)
      else
        match st.lut.find? (fun p => p.1 = marker qid) with
        | some p => .ok (p.2, some scid, st)
        | none =>
          .ok (st.n, some scid,
            { scopes := st.scopes,
              newIds := st.newIds ++ [marker st.n],
              lut := st.lut ++ [(marker qid, st.n)],
              n := st.n + 1 })
    else
      .ok (qid, some scid, st)

/-- _qick_copy on a value: QickExpression._qick_copy recurses into both
operands after the generic step; registers and constants only take the
generic step. -/
def walkVal : QVal → WSt → Except Err (QVal × WSt)
  | .vconst i sc ty v, st => do
    let (i2, sc2, st) ← stepIdScope i sc st
    return (.vconst i2 sc2 ty v, st)
  | .vreg i sc nm ty, st => do
    let (i2, sc2, st) ← stepIdScope i sc st
    return (.vreg i2 sc2 nm ty, st)
  | .vexpr i sc l op r ty, st => do
    let (i2, sc2, st) ← stepIdScope i sc st
    let (l2, st) ← walkVal l st
    let (r2, st) ← walkVal r st
    return (.vexpr i2 sc2 l2 op r2 ty, st)

mutual

/-- _qick_copy on an object.  QickCode._qick_copy (lines 1023-1040)
first records its current key in the scopes dict, then takes the
generic step, then walks its kvp values (the keys are not touched by
the walk; the update_key pass fixes them afterwards).
QickAssignment._qick_copy (lines 873-888) walks reg and rhs. -/
def walkObj : QObj → WSt → Except Err (QObj × WSt)
  | .qcode i sc nm asm len off kvp, st => do
    let st := { st with scopes := st.scopes ++ [marker i] }
    let (i2, sc2, st) ← stepIdScope i sc st
    let (kvp2, st) ← walkKvp kvp st
    return (.qcode i2 sc2 nm asm len off kvp2, st)
  | .qassign i sc reg rhs, st => do
    let (i2, sc2, st) ← stepIdScope i sc st
    let (reg2, st) ← walkVal reg st
    let (rhs2, st) ← walkVal rhs st
    return (.qassign i2 sc2 reg2 rhs2, st)
  | .qlabel i sc p, st => do
    let (i2, sc2, st) ← stepIdScope i sc st
    return (.qlabel i2 sc2 p, st)
  | .qval v, st => do
    let (v2, st) ← walkVal v st
    return (.qval v2, st)

/-- _qick_copy over the kvp values, in order. -/
def walkKvp : Kvp → WSt → Except Err (Kvp × WSt)
  | .nil, st => return (.nil, st)
  | .cons k v rest, st => do
    let (v2, st) ← walkObj v st
    let (rest2, st) ← walkKvp rest st
    return (.cons k v2 rest2, st)

end

mutual

/-- QickCode.update_key (type.py lines 996-1021): replace the old key by
the new one in the assembly text, move the kvp entry stored under the
old key to the new key, and recurse into nested codes.  The source
stores the renamed object from the lut as the new entry value; the
model keeps the already-walked entry value, which carries the same id
(the lut id), so the two agree on every observation made here.  The
source moves the entry first and then recurses into the values; the
model recurses first and then moves the entry, which commutes (the move
only rearranges top-level keys, the recursion only rewrites values). -/
def updateKeyObj (old : String) (nid : Nat) : QObj → QObj
  | .qcode i sc nm asm len off kvp =>
    let nk := marker nid
    let asm2 := pyReplace asm old nk
    let kvp2 := updateKeyKvp old nid kvp
    let kvp3 :=
      match kvpLookup kvp2 old with
      | some v => kvpSet (kvpErase kvp2 old) nk v
      | none => kvp2
    .qcode i sc nm asm2 len off kvp3
  | o => o

/-- The recursion of update_key into nested codes. -/
def updateKeyKvp (old : String) (nid : Nat) : Kvp → Kvp
  | .nil => .nil
  | .cons k v rest =>
    match v with
    | .qcode a b c d e f g =>
      .cons k (updateKeyObj old nid (.qcode a b c d e f g)) (updateKeyKvp old nid rest)
    | v => .cons k v (updateKeyKvp old nid rest)

end

/-- QickCode.qick_copy (type.py lines 1042-1064): deepcopy (a
structural copy of the tree), connect the copy to the ambient scope,
give it a fresh id, run the _qick_copy walk with the lut seeded by the
original key mapping to the copy, then run update_key for every lut
entry. -/
def qickCopyF (stack : List Nat) (b : QObj) (n : Nat) :
    Except Err (QObj × Nat) :=
  match b with
  | .qcode i _ nm asm len off kvp => do
    let sc2 ← connectScope stack false
    let root : QObj := .qcode n sc2 nm asm len off kvp
    let (root2, st) ← walkObj root ⟨[], [], [(marker i, n)], n + 1⟩
    return (st.lut.foldl (fun c p => updateKeyObj p.1 p.2 c) root2, st.n)
  | _ => .error (.runtime "qick_copy on a non-code object")

/-! ### epoch_offset, add, parallel, merge_kvp -/

/-- scopecast (type.py lines 203-205, 533-535, 721-727): constants and
expressions reconnect to the given scope (recursively through
expression operands); registers keep their scope. -/
def scopecastVal (scope : Option Nat) : QVal → QVal
  | .vconst i _ ty v => .vconst i scope ty v
  | .vreg i sc nm ty => .vreg i sc nm ty
  | .vexpr i _ l op r ty =>
    .vexpr i scope (scopecastVal scope l) op (scopecastVal scope r) ty

/-- The fixed hardware register name of a value, when it is a register. -/
def regNameOf : QVal → Option String
  | .vreg _ _ nm _ => nm
  | _ => none

mutual

/-- QickCode.epoch_offset (type.py lines 1242-1256): recurse into
nested codes; for every QickAssignment whose register is the fixed
out_usr_time register, set its right-hand side to `rhs + offset`
(the full Python + dispatch) and scopecast the new right-hand side to
this code's scope. -/
def epochOffsetF (offset : QVal) : QObj → Nat → Except Err (QObj × Nat)
  | .qcode i sc nm asm len off kvp, n => do
    let (kvp2, n) ← epochOffsetKvp i offset kvp n
    return (.qcode i sc nm asm len off kvp2, n)
  | o, n => return (o, n)

/-- The kvp traversal of epoch_offset for the code with id `ci`. -/
def epochOffsetKvp (ci : Nat) (offset : QVal) : Kvp → Nat →
    Except Err (Kvp × Nat)
  | .nil, n => return (.nil, n)
  | .cons k v rest, n => do
    match v with
    | .qcode a b c d e f g => do
      let (v2, n) ← epochOffsetF offset (.qcode a b c d e f g) n
      let (rest2, n) ← epochOffsetKvp ci offset rest n
      return (.cons k v2 rest2, n)
    | .qassign i sc reg rhs => do
      if regNameOf reg = some "out_usr_time" then do
        let (rhs2, n) ← pyAddV [ci] rhs offset n
        let (rest2, n) ← epochOffsetKvp ci offset rest n
        return (.cons k (.qassign i sc reg (scopecastVal (some ci) rhs2)) rest2, n)
      else do
        let (rest2, n) ← epochOffsetKvp ci offset rest n
        return (.cons k (.qassign i sc reg rhs) rest2, n)
    | v => do
      let (rest2, n) ← epochOffsetKvp ci offset rest n
      return (.cons k v rest2, n)

end

/-- The length attribute of a code object. -/
def lengthOf : QObj → QVal
  | .qcode _ _ _ _ len _ _ => len
  | _ => .vconst 0 none ⟨none, none, none⟩ (.ofInt 0)

/-- The name attribute of a code object. -/
def nameOf : QObj → Option String
  | .qcode _ _ nm _ _ _ _ => nm
  | _ => none

/-- The name merge of add/parallel (type.py lines 1274-1277 and
1305-1308). -/
def mergeNames (sep : String) : Option String → Option String → Option String
  | none, some b => some b
  | some a, some b => some ("(" ++ a ++ " " ++ sep ++ " " ++ b ++ ")")
  | a, none => a

/-- QickCode.add (type.py lines 1258-1277): within this code's scope,
clone the argument, epoch-offset the clone by this code's length, add
the clone's length to this code's length, append the clone's key to
the assembly text (str(code) both registers the clone in the scope
code's kvp via key() and yields the key), and merge the names. -/
def addH (ambient : List Nat) (a b : QObj) (n : Nat) :
    Except Err (QObj × Nat) :=
  match a with
  | .qcode ai asc anm aasm alen aoff akvp => do
    let stack := ambient ++ [ai]
    let (clone, n) ← qickCopyF stack b n
    let (clone, n) ← epochOffsetF alen clone n
    let (len2, n) ← pyAddV stack alen (lengthOf clone) n
    let ck := keyOf clone
    let akvp2 := if kvpHasKey akvp ck then akvp else kvpSet akvp ck clone
    return (.qcode ai asc (mergeNames "+" anm (nameOf clone)) (aasm ++ ck)
      len2 aoff akvp2, n)
  | _ => .error (.runtime "add on a non-code object")

/-- Reassign the scope of an object (merge_kvp sets
`v.scope.code = self`, type.py line 985). -/
def setScopeObj (sc : Option Nat) : QObj → QObj
  | .qcode i _ nm asm len off kvp => .qcode i sc nm asm len off kvp
  | .qassign i _ reg rhs => .qassign i sc reg rhs
  | .qlabel i _ p => .qlabel i sc p
  | .qval v =>
    match v with
    | .vconst j _ ty c => .qval (.vconst j sc ty c)
    | .vreg j _ nm ty => .qval (.vreg j sc nm ty)
    | .vexpr j _ l op r ty => .qval (.vexpr j sc l op r ty)

/-- QickCode.merge_kvp (type.py lines 971-985): insert every incoming
entry; a key already present with a different value is an internal
RuntimeError; inserted values have their scope redirected to the
merging code. -/
def mergeKvpF (selfQid : Nat) (target : Kvp) : Kvp → Except Err Kvp
  | .nil => return target
  | .cons k v rest => do
    match kvpLookup target k with
    | some w =>
      if qeqObj v w then
        mergeKvpF selfQid (kvpSet target k (setScopeObj (some selfQid) v)) rest
      else
        .error (.runtime "Internal error merging key-value pairs. Key already exists with different value.")
    | none =>
      mergeKvpF selfQid (kvpSet target k (setScopeObj (some selfQid) v)) rest

/-- The kvp of a code object. -/
def kvpOf : QObj → Kvp
  | .qcode _ _ _ _ _ _ kvp => kvp
  | _ => .nil

/-- The assembly text of a code object. -/
def asmOf : QObj → String
  | .qcode _ _ _ asm _ _ _ => asm
  | _ => ""

/-- QickCode.parallel (type.py lines 1279-1308): within this code's
scope, clone the argument; under auto_length, when both lengths are
constants and the clone's value is strictly larger, take the clone's
length (scopecast to the current scope); append the clone's assembly
text; merge the clone's kvp; merge the names. -/
def parallelH (ambient : List Nat) (a b : QObj) (autoLength : Bool)
    (n : Nat) : Except Err (QObj × Nat) :=
  match a with
  | .qcode ai asc anm aasm alen aoff akvp => do
    let stack := ambient ++ [ai]
    let (clone, n) ← qickCopyF stack b n
    let clen := lengthOf clone
    let len2 :=
      if autoLength then
        match alen, clen with
        | .vconst _ _ _ av, .vconst _ _ _ cv =>
          if av.plt cv then scopecastVal (some ai) clen else alen
        | _, _ => alen
      else alen
    let akvp2 ← mergeKvpF ai akvp (kvpOf clone)
    return (.qcode ai asc (mergeNames "|" anm (nameOf clone))
      (aasm ++ asmOf clone) len2 aoff akvp2, n)
  | _ => .error (.runtime "parallel on a non-code object")

/-- The QickTime type tag (class QickTime, no channels). -/
def timeTy : QTy := ⟨some .tTime, none, none⟩

/-- QickCode.__init__ (type.py lines 917-969) with default length and
offset: allocate the code id (scope optional), then, inside the new
code's scope, the length QickTime(0) and offset QickTime(0). -/
def mkCodeF (ambient : List Nat) (nm : Option String) (n : Nat) :
    QObj × Nat :=
  (.qcode n ambient.getLast? nm ""
     (.vconst (n + 1) (some n) timeTy (.ofInt 0))
     (.vconst (n + 2) (some n) timeTy (.ofInt 0)) .nil, n + 3)

/-! ### Anchor and key accounting (for epoch_offset and qick_copy) -/

/-- The anchor contribution of an assignment right-hand side: the held
value when the right-hand side is a constant. -/
def anchorRat : QVal → Multiset PyRat
  | .vconst _ _ _ w => {w}
  | _ => 0

/-- Whether an assignment right-hand side is a Time constant (a
statically known absolute-time anchor). -/
def anchorConst : QVal → Bool
  | .vconst _ _ ty _ => ty.cls == some .tTime
  | _ => false

mutual

/-- The multiset of right-hand-side constants of the out_usr_time
register assignments of a tree (the absolute-time anchors), nested
codes included. -/
def ancMObj : QObj → Multiset PyRat
  | .qcode _ _ _ _ _ _ kvp => ancMKvp kvp
  | _ => 0

/-- The anchors of a symbol table. -/
def ancMKvp : Kvp → Multiset PyRat
  | .nil => 0
  | .cons _ v rest =>
    (match v with
     | .qcode a b c d e f g => ancMObj (.qcode a b c d e f g)
     | .qassign _ _ reg rhs =>
       if regNameOf reg = some "out_usr_time" then anchorRat rhs else 0
     | _ => 0) + ancMKvp rest

end

/-- The anchor contribution of one symbol-table entry. -/
def entryAnc (v : QObj) : Multiset PyRat :=
  match v with
  | .qcode a b c d e f g => ancMObj (.qcode a b c d e f g)
  | .qassign _ _ reg rhs =>
    if regNameOf reg = some "out_usr_time" then anchorRat rhs else 0
  | _ => 0

mutual

/-- Every absolute-time anchor of the tree is a Time constant. -/
def ancOKObj : QObj → Bool
  | .qcode _ _ _ _ _ _ kvp => ancOKKvp kvp
  | _ => true

/-- The anchor well-formedness of a symbol table. -/
def ancOKKvp : Kvp → Bool
  | .nil => true
  | .cons _ v rest =>
    (match v with
     | .qcode a b c d e f g => ancOKObj (.qcode a b c d e f g)
     | .qassign _ _ reg rhs =>
       if regNameOf reg = some "out_usr_time" then anchorConst rhs else true
     | _ => true) && ancOKKvp rest

end

/-- The anchor well-formedness of one symbol-table entry. -/
def entryAncOK (v : QObj) : Bool :=
  match v with
  | .qcode a b c d e f g => ancOKObj (.qcode a b c d e f g)
  | .qassign _ _ reg rhs =>
    if regNameOf reg = some "out_usr_time" then anchorConst rhs else true
  | _ => true

mutual

/-- Every symbol-table key of the tree, nested codes included, belongs
to the allowed list A. -/
def keysInObj (A : List String) : QObj → Bool
  | .qcode _ _ _ _ _ _ kvp => keysInKvp A kvp
  | _ => true

/-- The key membership check of a symbol table. -/
def keysInKvp (A : List String) : Kvp → Bool
  | .nil => true
  | .cons k v rest => A.contains k && keysInObj A v && keysInKvp A rest

end

/-- The top-level keys of a symbol table. -/
def topKeys : Kvp → List String
  | .nil => []
  | .cons k _ rest => k :: topKeys rest

/-- The key strings available before a copy allocates fresh ids: the
markers of the ids below the counter. -/
def markersBelow (n : Nat) : List String := (List.range n).map marker

/-- How one walk step extends the threaded state: the id counter grows
and the lut gains entries whose new ids are fresh and strictly
increasing. -/
def StExt (st st2 : WSt) : Prop :=
  st.n ≤ st2.n ∧ ∃ ext, st2.lut = st.lut ++ ext ∧
    (∀ p ∈ ext, st.n ≤ p.2 ∧ p.2 < st2.n) ∧
    List.Pairwise (fun p q => p.2 < q.2) ext

/-! ## Heap model for qick_copy aliasing (type.py lines 1042-1064)

qick_copy starts from `deepcopy(self)` and then mutates only the copy
(the _qick_copy walk and the update_key passes are invoked on
new_code).  The pure tree model above cannot express the aliasing
question behind the frame claim, so the copy is modelled over an
explicit heap: objects are (payload, children-address) pairs at
addresses, deepcopy is the memoised recursive copy, and a byte
rendering reads an object graph from the heap. -/

/-- A heap: an association list of objects (scalar payload plus
children addresses) and the allocation counter. -/
structure Heap where
  entries : List (Nat × (String × List Nat))
  next : Nat
  deriving Repr, DecidableEq

/-- Address lookup. -/
def lookupH (h : Heap) (a : Nat) : Option (String × List Nat) :=
  (h.entries.find? (fun e => e.1 = a)).map Prod.snd

/-- In-place mutation of the object stored at an address. -/
def writeH (h : Heap) (a : Nat) (obj : String × List Nat) : Heap :=
  ⟨h.entries.map (fun e => if e.1 = a then (a, obj) else e), h.next⟩

/-- A sequence of in-place mutations. -/
def applyWrites (h : Heap) (ws : List (Nat × String × List Nat)) : Heap :=
  ws.foldl (fun h w => writeH h w.1 w.2) h

/-- Every allocated address is below the counter. -/
def heapWF (h : Heap) : Bool := h.entries.all (fun e => e.1 < h.next)

mutual

/-- copy.deepcopy with its memo dict: a memo hit returns the existing
copy; otherwise a fresh address is allocated, registered in the memo
(before the recursion, as deepcopy does to handle cycles), the children
are copied, and the copy is completed in place. -/
def deepcopyH : Nat → Heap → List (Nat × Nat) → Nat →
    Option (Nat × Heap × List (Nat × Nat))
  | 0, _, _, _ => none
  | fuel + 1, h, memo, a =>
    match memo.find? (fun p => p.1 = a) with
    | some p => some (p.2, h, memo)
    | none =>
      match lookupH h a with
      | none => none
      | some (s, kids) =>
        match deepcopyKids fuel
            ⟨h.entries ++ [(h.next, (s, []))], h.next + 1⟩
            (memo ++ [(a, h.next)]) kids with
        | none => none
        | some (kids2, h2, memo2) =>
          some (h.next, writeH h2 h.next (s, kids2), memo2)

/-- deepcopy of a children list, left to right. -/
def deepcopyKids : Nat → Heap → List (Nat × Nat) → List Nat →
    Option (List Nat × Heap × List (Nat × Nat))
  | 0, _, _, _ => none
  | _ + 1, h, memo, [] => some ([], h, memo)
  | fuel + 1, h, memo, b :: rest =>
    match deepcopyH fuel h memo b with
    | none => none
    | some (b2, h2, memo2) =>
      match deepcopyKids fuel h2 memo2 rest with
      | none => none
      | some (rest2, h3, memo3) => some (b2 :: rest2, h3, memo3)

end

mutual

/-- A byte rendering of the object graph reachable from an address
(models str(code): the assembly text together with the rendered symbol
table). -/
def serializeH : Nat → Heap → Nat → Option String
  | 0, _, _ => none
  | fuel + 1, h, a =>
    match lookupH h a with
    | none => none
    | some (s, kids) =>
      match serializeKids fuel h kids with
      | none => none
      | some r => some ("(" ++ s ++ r ++ ")")

/-- The rendering of a children list. -/
def serializeKids : Nat → Heap → List Nat → Option String
  | 0, _, _ => none
  | _ + 1, _, [] => some ""
  | fuel + 1, h, b :: rest =>
    match serializeH fuel h b with
    | none => none
    | some sb =>
      match serializeKids fuel h rest with
      | none => none
      | some sr => some (sb ++ sr)

end

/-- The copy-time invariant: the region at or above `lo` is only what
the copy has allocated, the memo maps into it, and objects inside it
point only into it. -/
def InvH (lo : Nat) (h : Heap) (memo : List (Nat × Nat)) : Prop :=
  lo ≤ h.next ∧ (∀ p ∈ memo, lo ≤ p.2 ∧ p.2 < h.next) ∧
  (∀ x s kids, lookupH h x = some (s, kids) → lo ≤ x → ∀ b ∈ kids, lo ≤ b)

/-- Heap growth below `lo`: lookups of old addresses are unchanged and
the counter does not decrease. -/
def OldPres (lo : Nat) (h h2 : Heap) : Prop :=
  (∀ x o, x < lo → lookupH h x = some o → lookupH h2 x = some o) ∧
  h.next ≤ h2.next

/-! ### Key consistency (QickObject.key, type.py lines 137-157) -/

/-- The ids of the nodes visited by the _qick_copy walk inside a value. -/
def wIdsVal : QVal → List Nat
  | .vconst i _ _ _ => [i]
  | .vreg i _ _ _ => [i]
  | .vexpr i _ l _ r _ => i :: (wIdsVal l ++ wIdsVal r)

mutual

/-- The ids of the nodes visited by the _qick_copy walk (the object and
its symbol table, recursively; length and offset values are not walked
by QickCode._qick_copy). -/
def wIdsObj : QObj → List Nat
  | .qcode i _ _ _ _ _ kvp => i :: wIdsKvp kvp
  | .qassign i _ reg rhs => i :: (wIdsVal reg ++ wIdsVal rhs)
  | .qlabel i _ _ => [i]
  | .qval v => wIdsVal v

/-- The walked ids of a symbol table. -/
def wIdsKvp : Kvp → List Nat
  | .nil => []
  | .cons _ v rest => wIdsObj v ++ wIdsKvp rest

end

mutual

/-- Key consistency: every symbol-table entry maps the key k to an
object whose own placeholder key equals k, recursively. -/
def consObj : QObj → Bool
  | .qcode _ _ _ _ _ _ kvp => consKvp kvp
  | _ => true

/-- Key consistency of a symbol table. -/
def consKvp : Kvp → Bool
  | .nil => true
  | .cons k v rest => (k == keyOf v) && consObj v && consKvp rest

end

mutual

/-- Per-table key uniqueness (Python dicts cannot hold a key twice). -/
def keysNodupObj : QObj → Prop
  | .qcode _ _ _ _ _ _ kvp => keysNodupKvp kvp
  | _ => True

/-- Key uniqueness of a symbol table. -/
def keysNodupKvp : Kvp → Prop
  | .nil => True
  | .cons k v rest => kvpHasKey rest k = false ∧ keysNodupObj v ∧
      keysNodupKvp rest

end

mutual

/-- Mid-copy key consistency relative to the rename table L: every
entry is either already consistent or is registered in L under its key
with its object's new id. -/
def FixedObj (L : List (String × Nat)) : QObj → Prop
  | .qcode _ _ _ _ _ _ kvp => FixedKvp L kvp
  | _ => True

/-- Mid-copy key consistency of a symbol table. -/
def FixedKvp (L : List (String × Nat)) : Kvp → Prop
  | .nil => True
  | .cons k v rest =>
    (k = keyOf v ∨ (k, qidOf v) ∈ L) ∧ FixedObj L v ∧ FixedKvp L rest

end

/-! ## Support lemmas for the fragment operations -/

/-- Mutual induction for objects and symbol tables. -/
theorem objKvpInd {P : QObj → Prop} {Q : Kvp → Prop}
    (hcode : ∀ i sc nm asm len off kvp, Q kvp → P (.qcode i sc nm asm len off kvp))
    (hassign : ∀ i sc reg rhs, P (.qassign i sc reg rhs))
    (hlabel : ∀ i sc p, P (.qlabel i sc p))
    (hval : ∀ v, P (.qval v))
    (hnil : Q .nil)
    (hcons : ∀ k v rest, P v → Q rest → Q (.cons k v rest)) :
    (∀ o, P o) ∧ (∀ m, Q m) :=
  ⟨fun o => QObj.rec hcode hassign hlabel hval hnil hcons o,
   fun m => Kvp.rec hcode hassign hlabel hval hnil hcons m⟩

/-- Plain induction for symbol tables alone. -/
theorem kvpInd {Q : Kvp → Prop} (hnil : Q .nil)
    (hcons : ∀ k v rest, Q rest → Q (.cons k v rest)) : ∀ m, Q m :=
  (@objKvpInd (fun _ => True) Q
    (fun _ _ _ _ _ _ _ _ => trivial) (fun _ _ _ _ => trivial)
    (fun _ _ _ => trivial) (fun _ => trivial) hnil
    (fun k v rest _ h => hcons k v rest h)).2

/-- Ok-elimination for Except bind. -/
theorem exceptBind_ok {α β : Type} {x : Except Err α} {f : α → Except Err β}
    {b : β} (h : (x >>= f) = .ok b) : ∃ a, x = .ok a ∧ f a = .ok b := by
  cases x with
  | error e => simp [bind, Except.bind] at h
  | ok a =>
    refine ⟨a, rfl, ?_⟩
    simpa [bind, Except.bind] using h

/-- connect_scope with scope_required False never fails. -/
theorem connectScope_false (stack : List Nat) :
    connectScope stack false = .ok stack.getLast? := by
  unfold connectScope
  cases stack.getLast? <;> simp

/-- connect_scope inside `with QickScope(code=self)` binds to self. -/
theorem connectScope_inScope (ambient : List Nat) (ai : Nat) (req : Bool) :
    connectScope (ambient ++ [ai]) req = .ok (some ai) := by
  unfold connectScope
  rw [List.getLast?_concat]

/-- update_key does not change the id, name, length, or offset of an
object. -/
theorem updateKeyObj_fields (old : String) (nid : Nat) (c : QObj) :
    lengthOf (updateKeyObj old nid c) = lengthOf c ∧
    nameOf (updateKeyObj old nid c) = nameOf c ∧
    qidOf (updateKeyObj old nid c) = qidOf c := by
  cases c <;> simp [updateKeyObj, lengthOf, nameOf, qidOf]

/-- The update_key pass over the lut does not change the id, name, or
length of the copy. -/
theorem foldl_updateKey_fields (lut : List (String × Nat)) (c : QObj) :
    lengthOf (lut.foldl (fun c p => updateKeyObj p.1 p.2 c) c) = lengthOf c ∧
    nameOf (lut.foldl (fun c p => updateKeyObj p.1 p.2 c) c) = nameOf c ∧
    qidOf (lut.foldl (fun c p => updateKeyObj p.1 p.2 c) c) = qidOf c := by
  induction lut generalizing c with
  | nil => exact ⟨rfl, rfl, rfl⟩
  | cons p rest ih =>
    have h := updateKeyObj_fields p.1 p.2 c
    have h2 := ih (updateKeyObj p.1 p.2 c)
    exact ⟨h2.1.trans h.1, h2.2.1.trans h.2.1, h2.2.2.trans h.2.2⟩

/-- The shape of a successful walk of a code object: name, text,
length, and offset are untouched. -/
theorem walkObj_qcode_ok {i : Nat} {sc : Option Nat} {nm : Option String}
    {asm : String} {len off : QVal} {kvp : Kvp} {st st2 : WSt} {o : QObj}
    (h : walkObj (.qcode i sc nm asm len off kvp) st = .ok (o, st2)) :
    ∃ i2 sc2 kvp2, o = .qcode i2 sc2 nm asm len off kvp2 := by
  rw [walkObj] at h
  obtain ⟨⟨i2, sc2, st3⟩, h1, h2⟩ := exceptBind_ok h
  obtain ⟨⟨kvp2, st4⟩, h3, h4⟩ := exceptBind_ok h2
  simp only [pure, Except.pure, Except.ok.injEq, Prod.mk.injEq] at h4
  exact ⟨i2, sc2, kvp2, h4.1.symm⟩

/-- A successful qick_copy preserves the length, name, and the
qcode shape of the original. -/
theorem qickCopyF_fields {stack : List Nat} {b c : QObj} {n n2 : Nat}
    (h : qickCopyF stack b n = .ok (c, n2)) :
    lengthOf c = lengthOf b ∧ nameOf c = nameOf b := by
  cases b with
  | qcode i sc nm asm len off kvp =>
    rw [qickCopyF] at h
    rw [connectScope_false] at h
    obtain ⟨sc2, h1, h2⟩ := exceptBind_ok h
    obtain ⟨⟨root2, st⟩, h3, h4⟩ := exceptBind_ok h2
    obtain ⟨i2, sc3, kvp2, rfl⟩ := walkObj_qcode_ok h3
    simp only [pure, Except.pure, Except.ok.injEq, Prod.mk.injEq] at h4
    obtain ⟨rfl, _⟩ := h4
    have hf := foldl_updateKey_fields st.lut (.qcode i2 sc3 nm asm len off kvp2)
    exact ⟨hf.1, hf.2.1⟩
  | qassign i sc reg rhs => simp [qickCopyF] at h
  | qlabel i sc p => simp [qickCopyF] at h
  | qval v => simp [qickCopyF] at h

/-- A successful epoch_offset preserves the code shape, text, length,
offset, and name. -/
theorem epochOffsetF_qcode_ok {off0 : QVal} {i : Nat} {sc : Option Nat}
    {nm : Option String} {asm : String} {len off : QVal} {kvp : Kvp}
    {n n2 : Nat} {c2 : QObj}
    (h : epochOffsetF off0 (.qcode i sc nm asm len off kvp) n = .ok (c2, n2)) :
    ∃ kvp2, c2 = .qcode i sc nm asm len off kvp2 := by
  rw [epochOffsetF] at h
  obtain ⟨⟨kvp2, n3⟩, h1, h2⟩ := exceptBind_ok h
  simp only [pure, Except.pure, Except.ok.injEq, Prod.mk.injEq] at h2
  exact ⟨kvp2, h2.1.symm⟩

/-- The constant folding branch of Python + on two constants whose type
classes are equal and bound: a fresh constant of the left class with
default channels and the summed value. -/
theorem pyAddV_const_const {stack : List Nat} {top : Nat}
    (hstack : stack.getLast? = some top) (i1 i2 : Nat) (sc1 sc2 : Option Nat)
    {ty1 ty2 : QTy} {k : TyCls} (h1 : ty1.cls = some k) (h2 : ty2.cls = some k)
    (v1 v2 : PyRat) (n : Nat) :
    pyAddV stack (.vconst i1 sc1 ty1 v1) (.vconst i2 sc2 ty2 v2) n =
      .ok (.vconst n (some top) ⟨some k, none, none⟩ (v1.padd v2), n + 1) := by
  have hc : baseCastable ty1 (qickTypeOf (.vconst i2 sc2 ty2 v2)) = true := by
    simp [baseCastable, qickTypeOf, h1, h2]
  simp only [pyAddV, hc, if_true, mkConstF, h1, connectScope, hstack, bind,
    Except.bind, pure, Except.pure]

/-- update_key maps a code object to a code object, preserving id,
scope, name, length, and offset. -/
theorem updateKeyObj_qcode_eq (old : String) (nid i : Nat) (sc : Option Nat)
    (nm : Option String) (asm : String) (len off : QVal) (kvp : Kvp) :
    ∃ asm2 kvp2, updateKeyObj old nid (.qcode i sc nm asm len off kvp) =
      .qcode i sc nm asm2 len off kvp2 :=
  ⟨_, _, rfl⟩

/-- The update_key pass maps a code object to a code object, preserving
id, scope, name, length, and offset. -/
theorem foldl_updateKey_qcode (lut : List (String × Nat)) (i : Nat)
    (sc : Option Nat) (nm : Option String) (asm : String) (len off : QVal)
    (kvp : Kvp) :
    ∃ asm2 kvp2, lut.foldl (fun c p => updateKeyObj p.1 p.2 c)
        (.qcode i sc nm asm len off kvp) = .qcode i sc nm asm2 len off kvp2 := by
  induction lut generalizing asm kvp with
  | nil => exact ⟨asm, kvp, rfl⟩
  | cons p rest ih =>
    obtain ⟨asm2, kvp2, heq⟩ := updateKeyObj_qcode_eq p.1 p.2 i sc nm asm len off kvp
    simp only [List.foldl_cons, heq]
    exact ih asm2 kvp2

/-- A successful qick_copy of a code object is a code object with the
same name, length, and offset. -/
theorem qickCopyF_code_shape {stack : List Nat} {c : QObj} {n n2 : Nat}
    {i : Nat} {sc : Option Nat} {nm : Option String} {asm : String}
    {len off : QVal} {kvp : Kvp}
    (h : qickCopyF stack (.qcode i sc nm asm len off kvp) n = .ok (c, n2)) :
    ∃ ci csc casm ckvp, c = .qcode ci csc nm casm len off ckvp := by
  rw [qickCopyF, connectScope_false] at h
  obtain ⟨sc0, h0, h⟩ := exceptBind_ok h
  obtain ⟨⟨root2, st⟩, h3, h4⟩ := exceptBind_ok h
  obtain ⟨i2, sc3, kvp2, rfl⟩ := walkObj_qcode_ok h3
  simp only [pure, Except.pure, Except.ok.injEq, Prod.mk.injEq] at h4
  obtain ⟨rfl, _⟩ := h4
  obtain ⟨asm2, kvp3, heq⟩ := foldl_updateKey_qcode st.lut i2 sc3 nm asm len off kvp2
  exact ⟨i2, sc3, asm2, kvp3, heq⟩

/-- Unfolding ancMKvp on a cons cell through the entry contribution. -/
theorem ancMKvp_cons (k : String) (v : QObj) (rest : Kvp) :
    ancMKvp (.cons k v rest) = entryAnc v + ancMKvp rest := by
  cases v <;> rfl

/-- Unfolding ancOKKvp on a cons cell through the entry check. -/
theorem ancOKKvp_cons (k : String) (v : QObj) (rest : Kvp) :
    ancOKKvp (.cons k v rest) = (entryAncOK v && ancOKKvp rest) := by
  cases v <;> rfl

/-- Removing a present entry splits the anchor multiset. -/
theorem ancM_erase {kvp : Kvp} {old : String} {e : QObj}
    (h : kvpLookup kvp old = some e) :
    ancMKvp kvp = entryAnc e + ancMKvp (kvpErase kvp old) := by
  induction kvp using kvpInd with
  | hnil => simp [kvpLookup] at h
  | hcons k v rest ih =>
    rw [kvpLookup] at h
    by_cases hk : k = old
    · rw [if_pos hk] at h
      obtain rfl : v = e := by injection h
      rw [kvpErase, if_pos hk, ancMKvp_cons]
    · rw [if_neg hk] at h
      rw [kvpErase, if_neg hk, ancMKvp_cons, ancMKvp_cons, ih h, add_left_comm]

/-- Appending a fresh entry adds its anchors. -/
theorem ancM_set_fresh {kvp : Kvp} {nk : String} (e : QObj)
    (h : kvpHasKey kvp nk = false) :
    ancMKvp (kvpSet kvp nk e) = ancMKvp kvp + entryAnc e := by
  induction kvp using kvpInd with
  | hnil =>
    rw [kvpSet, ancMKvp_cons]
    simp [ancMKvp]
  | hcons k v rest ih =>
    by_cases hk : k = nk
    · rw [kvpHasKey, kvpLookup, if_pos hk] at h
      simp at h
    · rw [kvpHasKey, kvpLookup, if_neg hk] at h
      rw [kvpSet, if_neg hk, ancMKvp_cons, ancMKvp_cons, ih h, add_assoc]

/-- Removing a present entry splits the anchor well-formedness check. -/
theorem ancOK_erase {kvp : Kvp} {old : String} {e : QObj}
    (h : kvpLookup kvp old = some e) :
    ancOKKvp kvp = (entryAncOK e && ancOKKvp (kvpErase kvp old)) := by
  induction kvp using kvpInd with
  | hnil => simp [kvpLookup] at h
  | hcons k v rest ih =>
    rw [kvpLookup] at h
    by_cases hk : k = old
    · rw [if_pos hk] at h
      obtain rfl : v = e := by injection h
      rw [kvpErase, if_pos hk, ancOKKvp_cons]
    · rw [if_neg hk] at h
      rw [kvpErase, if_neg hk, ancOKKvp_cons, ancOKKvp_cons, ih h,
        Bool.and_left_comm]

/-- Appending a fresh entry conjoins its anchor check. -/
theorem ancOK_set_fresh {kvp : Kvp} {nk : String} (e : QObj)
    (h : kvpHasKey kvp nk = false) :
    ancOKKvp (kvpSet kvp nk e) = (ancOKKvp kvp && entryAncOK e) := by
  induction kvp using kvpInd with
  | hnil =>
    rw [kvpSet, ancOKKvp_cons]
    simp [ancOKKvp, Bool.and_comm]
  | hcons k v rest ih =>
    by_cases hk : k = nk
    · rw [kvpHasKey, kvpLookup, if_pos hk] at h
      simp at h
    · rw [kvpHasKey, kvpLookup, if_neg hk] at h
      rw [kvpSet, if_neg hk, ancOKKvp_cons, ancOKKvp_cons, ih h, Bool.and_assoc]

/-- Key membership on a cons cell. -/
theorem kvpHasKey_cons (k : String) (v : QObj) (rest : Kvp) (nk : String) :
    kvpHasKey (.cons k v rest) nk = (k == nk || kvpHasKey rest nk) := by
  rw [kvpHasKey, kvpLookup]
  by_cases hk : k = nk
  · simp [hk]
  · simp [hk, kvpHasKey]

/-- A key outside the allowed list is absent from a table whose keys
all lie in the list. -/
theorem hasKey_false_of_keysIn {A : List String} {kvp : Kvp} {nk : String}
    (h : keysInKvp A kvp = true) (hn : A.contains nk = false) :
    kvpHasKey kvp nk = false := by
  induction kvp using kvpInd with
  | hnil => rfl
  | hcons k v rest ih =>
    rw [keysInKvp] at h
    simp only [Bool.and_eq_true] at h
    rw [kvpHasKey_cons, ih h.2, Bool.or_false]
    exact beq_eq_false_iff_ne.mpr fun hk => by
      subst hk
      have hmem := h.1.1
      simp at hmem
      simp [hmem] at hn

/-- Erasing cannot introduce a key. -/
theorem hasKey_erase_false {kvp : Kvp} {old nk : String}
    (h : kvpHasKey kvp nk = false) :
    kvpHasKey (kvpErase kvp old) nk = false := by
  induction kvp using kvpInd with
  | hnil => rfl
  | hcons k v rest ih =>
    rw [kvpHasKey_cons] at h
    simp only [Bool.or_eq_false_iff] at h
    rw [kvpErase]
    by_cases hk : k = old
    · rw [if_pos hk]
      exact h.2
    · rw [if_neg hk, kvpHasKey_cons, h.1, ih h.2]
      rfl

/-- Looking up a freshly appended entry finds it. -/
theorem kvpLookup_set_self {kvp : Kvp} {nk : String} (e : QObj)
    (h : kvpHasKey kvp nk = false) :
    kvpLookup (kvpSet kvp nk e) nk = some e := by
  induction kvp using kvpInd with
  | hnil => rw [kvpSet, kvpLookup, if_pos rfl]
  | hcons k v rest ih =>
    rw [kvpHasKey_cons] at h
    simp only [Bool.or_eq_false_iff] at h
    have hk : k ≠ nk := ne_of_beq_false h.1
    rw [kvpSet, if_neg hk, kvpLookup, if_neg hk]
    exact ih h.2

/-- Erasing preserves the key membership check. -/
theorem keysInKvp_erase {A : List String} {kvp : Kvp} {old : String}
    (h : keysInKvp A kvp = true) : keysInKvp A (kvpErase kvp old) = true := by
  induction kvp using kvpInd with
  | hnil => rfl
  | hcons k v rest ih =>
    rw [keysInKvp] at h
    simp only [Bool.and_eq_true] at h
    rw [kvpErase]
    by_cases hk : k = old
    · rw [if_pos hk]
      exact h.2
    · rw [if_neg hk, keysInKvp]
      simp only [Bool.and_eq_true]
      exact ⟨⟨h.1.1, h.1.2⟩, ih h.2⟩

/-- A value looked up in a checked table is itself checked. -/
theorem keysInObj_of_lookup {A : List String} {kvp : Kvp} {old : String}
    {e : QObj} (h : keysInKvp A kvp = true) (hl : kvpLookup kvp old = some e) :
    keysInObj A e = true := by
  induction kvp using kvpInd with
  | hnil => simp [kvpLookup] at hl
  | hcons k v rest ih =>
    rw [keysInKvp] at h
    simp only [Bool.and_eq_true] at h
    rw [kvpLookup] at hl
    by_cases hk : k = old
    · rw [if_pos hk] at hl
      obtain rfl : v = e := by injection hl
      exact h.1.2
    · rw [if_neg hk] at hl
      exact ih h.2 hl

/-- Appending an allowed entry preserves the key membership check. -/
theorem keysInKvp_set {A : List String} {kvp : Kvp} {nk : String} {e : QObj}
    (h : keysInKvp A kvp = true) (he : keysInObj A e = true)
    (hk : A.contains nk = true) : keysInKvp A (kvpSet kvp nk e) = true := by
  induction kvp using kvpInd with
  | hnil =>
    rw [kvpSet, keysInKvp, keysInKvp]
    simp [he]
    simpa using hk
  | hcons k v rest ih =>
    rw [keysInKvp] at h
    simp only [Bool.and_eq_true] at h
    by_cases hkk : k = nk
    · rw [kvpSet, if_pos hkk, keysInKvp]
      simp only [Bool.and_eq_true]
      exact ⟨⟨h.1.1, he⟩, h.2⟩
    · rw [kvpSet, if_neg hkk, keysInKvp]
      simp only [Bool.and_eq_true]
      exact ⟨h.1, ih h.2⟩

/-- Enlarging the allowed key list preserves the key membership check. -/
theorem keysIn_mono {A A2 : List String}
    (hsub : ∀ s, A.contains s = true → A2.contains s = true) :
    (∀ o, keysInObj A o = true → keysInObj A2 o = true) ∧
    (∀ m, keysInKvp A m = true → keysInKvp A2 m = true) := by
  apply objKvpInd
  · intro i sc nm asm len off kvp hq h
    exact hq h
  · intro i sc reg rhs h
    rfl
  · intro i sc p h
    rfl
  · intro v h
    rfl
  · intro h
    rfl
  · intro k v rest hv hrest h
    rw [keysInKvp] at h ⊢
    simp only [Bool.and_eq_true] at h ⊢
    exact ⟨⟨hsub k h.1.1, hv h.1.2⟩, hrest h.2⟩

/-- The degenerate state extension. -/
theorem StExt_refl (st : WSt) : StExt st st :=
  ⟨le_refl _, [], (List.append_nil _).symm,
    fun p hp => absurd hp (List.not_mem_nil p), List.Pairwise.nil⟩

/-- Changing only the scopes dict is a degenerate state extension. -/
theorem StExt_scopes (st : WSt) (sc : List String) :
    StExt st { st with scopes := sc } :=
  ⟨le_refl _, [], (List.append_nil _).symm,
    fun p hp => absurd hp (List.not_mem_nil p), List.Pairwise.nil⟩

/-- State extensions compose. -/
theorem StExt_trans {s1 s2 s3 : WSt} (h1 : StExt s1 s2) (h2 : StExt s2 s3) :
    StExt s1 s3 := by
  obtain ⟨hn1, e1, he1, hb1, hp1⟩ := h1
  obtain ⟨hn2, e2, he2, hb2, hp2⟩ := h2
  refine ⟨le_trans hn1 hn2, e1 ++ e2, ?_, ?_, ?_⟩
  · rw [he2, he1, List.append_assoc]
  · intro p hp
    rcases List.mem_append.mp hp with hm | hm
    · exact ⟨(hb1 p hm).1, lt_of_lt_of_le (hb1 p hm).2 hn2⟩
    · exact ⟨le_trans hn1 (hb2 p hm).1, (hb2 p hm).2⟩
  · rw [List.pairwise_append]
    exact ⟨hp1, hp2, fun p hp q hq =>
      lt_of_lt_of_le (hb1 p hp).2 (hb2 q hq).1⟩

/-- One id/scope step is a state extension. -/
theorem stepIdScope_stExt {qid : Nat} {sc : Option Nat} {st : WSt}
    {i2 : Nat} {sc2 : Option Nat} {st2 : WSt}
    (h : stepIdScope qid sc st = .ok (i2, sc2, st2)) : StExt st st2 := by
  cases sc with
  | none => exact absurd h (by simp [stepIdScope])
  | some scid0 =>
    simp only [stepIdScope] at h
    split at h
    · split at h
      · simp only [Except.ok.injEq, Prod.mk.injEq] at h
        obtain ⟨-, -, rfl⟩ := h
        exact StExt_refl st
      · split at h
        · simp only [Except.ok.injEq, Prod.mk.injEq] at h
          obtain ⟨-, -, rfl⟩ := h
          exact StExt_refl st
        · simp only [Except.ok.injEq, Prod.mk.injEq] at h
          obtain ⟨-, -, rfl⟩ := h
          refine ⟨Nat.le_succ _, [(marker qid, st.n)], rfl, ?_, by simp⟩
          intro p hp
          rw [List.mem_singleton] at hp
          subst hp
          exact ⟨le_refl _, Nat.lt_succ_self _⟩
    · simp only [Except.ok.injEq, Prod.mk.injEq] at h
      obtain ⟨-, -, rfl⟩ := h
      exact StExt_refl st

/-- The walk of a value only extends the state. -/
theorem walkVal_stExt {v : QVal} : ∀ {st v2 st2},
    walkVal v st = .ok (v2, st2) → StExt st st2 := by
  induction v with
  | vconst i sc ty w =>
    intro st v2 st2 h
    rw [walkVal] at h
    obtain ⟨⟨i2, sc2, st3⟩, h1, h2⟩ := exceptBind_ok h
    simp only [pure, Except.pure, Except.ok.injEq, Prod.mk.injEq] at h2
    obtain ⟨-, rfl⟩ := h2
    exact stepIdScope_stExt h1
  | vreg i sc nm ty =>
    intro st v2 st2 h
    rw [walkVal] at h
    obtain ⟨⟨i2, sc2, st3⟩, h1, h2⟩ := exceptBind_ok h
    simp only [pure, Except.pure, Except.ok.injEq, Prod.mk.injEq] at h2
    obtain ⟨-, rfl⟩ := h2
    exact stepIdScope_stExt h1
  | vexpr i sc l op r ty ihl ihr =>
    intro st v2 st2 h
    rw [walkVal] at h
    obtain ⟨⟨i2, sc2, st3⟩, h1, h2⟩ := exceptBind_ok h
    obtain ⟨⟨l2, st4⟩, h3, h4⟩ := exceptBind_ok h2
    obtain ⟨⟨r2, st5⟩, h5, h6⟩ := exceptBind_ok h4
    simp only [pure, Except.pure, Except.ok.injEq, Prod.mk.injEq] at h6
    obtain ⟨-, rfl⟩ := h6
    exact StExt_trans (stepIdScope_stExt h1) (StExt_trans (ihl h3) (ihr h5))

/-- The walk of a value preserves the register name and the anchor
observations. -/
theorem walkVal_fields {v v2 : QVal} {st st2 : WSt}
    (h : walkVal v st = .ok (v2, st2)) :
    regNameOf v2 = regNameOf v ∧ anchorRat v2 = anchorRat v ∧
      anchorConst v2 = anchorConst v := by
  cases v with
  | vconst i sc ty w =>
    rw [walkVal] at h
    obtain ⟨⟨i2, sc2, st3⟩, h1, h2⟩ := exceptBind_ok h
    simp only [pure, Except.pure, Except.ok.injEq, Prod.mk.injEq] at h2
    obtain ⟨rfl, -⟩ := h2
    exact ⟨rfl, rfl, rfl⟩
  | vreg i sc nm ty =>
    rw [walkVal] at h
    obtain ⟨⟨i2, sc2, st3⟩, h1, h2⟩ := exceptBind_ok h
    simp only [pure, Except.pure, Except.ok.injEq, Prod.mk.injEq] at h2
    obtain ⟨rfl, -⟩ := h2
    exact ⟨rfl, rfl, rfl⟩
  | vexpr i sc l op r ty =>
    rw [walkVal] at h
    obtain ⟨⟨i2, sc2, st3⟩, h1, h2⟩ := exceptBind_ok h
    obtain ⟨⟨l2, st4⟩, h3, h4⟩ := exceptBind_ok h2
    obtain ⟨⟨r2, st5⟩, h5, h6⟩ := exceptBind_ok h4
    simp only [pure, Except.pure, Except.ok.injEq, Prod.mk.injEq] at h6
    obtain ⟨rfl, -⟩ := h6
    exact ⟨rfl, rfl, rfl⟩

/-- Key membership of a table through its top-level key list. -/
theorem kvpHasKey_topKeys : ∀ (m : Kvp) (k : String),
    kvpHasKey m k = (topKeys m).contains k := by
  intro m
  induction m using kvpInd with
  | hnil => intro k; rfl
  | hcons k0 v rest ih =>
    intro k
    rw [kvpHasKey_cons, topKeys, ih]
    by_cases hk : k0 = k
    · subst hk
      simp
    · simp [hk, Ne.symm hk]

/-- Appending one string keeps previously allowed strings allowed. -/
theorem contains_append_one {A : List String} {x s : String}
    (h : A.contains s = true) : (A ++ [x]).contains s = true := by
  have h2 : s ∈ A := by simpa using h
  simpa using List.mem_append_left [x] h2

/-- The appended string itself is allowed. -/
theorem contains_append_self (A : List String) (x : String) :
    (A ++ [x]).contains x = true := by
  simpa using List.mem_append_right A (List.mem_singleton_self x)

/-- A string distinct from the appended one and not previously allowed
stays disallowed. -/
theorem contains_append_one_false {A : List String} {x s : String}
    (h1 : A.contains s = false) (h2 : s ≠ x) :
    (A ++ [x]).contains s = false := by
  cases hc : (A ++ [x]).contains s with
  | false => rfl
  | true =>
    exfalso
    have hm : s ∈ A ++ [x] := by simpa using hc
    rcases List.mem_append.mp hm with hm2 | hm2
    · have : A.contains s = true := by simpa using hm2
      rw [this] at h1
      cases h1
    · exact h2 (List.mem_singleton.mp hm2)

/-- A marker of an id at or above the bound is not a marker below the
bound. -/
theorem markersBelow_not_contains {n j : Nat} (h : n ≤ j) :
    (markersBelow n).contains (marker j) = false := by
  cases hq : (markersBelow n).contains (marker j) with
  | false => rfl
  | true =>
    exfalso
    have hm : marker j ∈ (List.range n).map marker := by
      simpa [markersBelow] using hq
    obtain ⟨i, hi, he⟩ := List.mem_map.mp hm
    have hij := marker_inj i j he
    subst hij
    exact absurd (List.mem_range.mp hi) (not_lt.mpr h)

/-- The walk only extends the threaded state. -/
theorem walk_stExt :
    (∀ o, ∀ st o2 st2, walkObj o st = .ok (o2, st2) → StExt st st2) ∧
    (∀ m, ∀ st m2 st2, walkKvp m st = .ok (m2, st2) → StExt st st2) := by
  apply objKvpInd
  · intro i sc nm asm len off kvp hq st o2 st2 h
    rw [walkObj] at h
    obtain ⟨⟨i2, sc2, st3⟩, h1, h2⟩ := exceptBind_ok h
    obtain ⟨⟨kvp2, st4⟩, h3, h4⟩ := exceptBind_ok h2
    simp only [pure, Except.pure, Except.ok.injEq, Prod.mk.injEq] at h4
    obtain ⟨-, rfl⟩ := h4
    exact StExt_trans (StExt_scopes st _)
      (StExt_trans (stepIdScope_stExt h1) (hq _ _ _ h3))
  · intro i sc reg rhs st o2 st2 h
    rw [walkObj] at h
    obtain ⟨⟨i2, sc2, st3⟩, h1, h2⟩ := exceptBind_ok h
    obtain ⟨⟨reg2, st4⟩, h3, h4⟩ := exceptBind_ok h2
    obtain ⟨⟨rhs2, st5⟩, h5, h6⟩ := exceptBind_ok h4
    simp only [pure, Except.pure, Except.ok.injEq, Prod.mk.injEq] at h6
    obtain ⟨-, rfl⟩ := h6
    exact StExt_trans (stepIdScope_stExt h1)
      (StExt_trans (walkVal_stExt h3) (walkVal_stExt h5))
  · intro i sc p st o2 st2 h
    rw [walkObj] at h
    obtain ⟨⟨i2, sc2, st3⟩, h1, h2⟩ := exceptBind_ok h
    simp only [pure, Except.pure, Except.ok.injEq, Prod.mk.injEq] at h2
    obtain ⟨-, rfl⟩ := h2
    exact stepIdScope_stExt h1
  · intro v st o2 st2 h
    rw [walkObj] at h
    obtain ⟨⟨v2, st3⟩, h1, h2⟩ := exceptBind_ok h
    simp only [pure, Except.pure, Except.ok.injEq, Prod.mk.injEq] at h2
    obtain ⟨-, rfl⟩ := h2
    exact walkVal_stExt h1
  · intro st m2 st2 h
    rw [walkKvp] at h
    simp only [pure, Except.pure, Except.ok.injEq, Prod.mk.injEq] at h
    obtain ⟨-, rfl⟩ := h
    exact StExt_refl st
  · intro k v rest hv hrest st m2 st2 h
    rw [walkKvp] at h
    obtain ⟨⟨v2, st3⟩, h1, h2⟩ := exceptBind_ok h
    obtain ⟨⟨rest2, st4⟩, h3, h4⟩ := exceptBind_ok h2
    simp only [pure, Except.pure, Except.ok.injEq, Prod.mk.injEq] at h4
    obtain ⟨-, rfl⟩ := h4
    exact StExt_trans (hv _ _ _ h1) (hrest _ _ _ h3)

/-- The walk preserves the anchors, the anchor well-formedness, and the
key membership check of the tree. -/
theorem walk_anchors :
    (∀ o, ∀ st o2 st2, walkObj o st = .ok (o2, st2) →
      ancMObj o2 = ancMObj o ∧ ancOKObj o2 = ancOKObj o ∧
      ∀ A, keysInObj A o = true → keysInObj A o2 = true) ∧
    (∀ m, ∀ st m2 st2, walkKvp m st = .ok (m2, st2) →
      ancMKvp m2 = ancMKvp m ∧ ancOKKvp m2 = ancOKKvp m ∧
      ∀ A, keysInKvp A m = true → keysInKvp A m2 = true) := by
  apply objKvpInd
  · intro i sc nm asm len off kvp hq st o2 st2 h
    rw [walkObj] at h
    obtain ⟨⟨i2, sc2, st3⟩, h1, h2⟩ := exceptBind_ok h
    obtain ⟨⟨kvp2, st4⟩, h3, h4⟩ := exceptBind_ok h2
    simp only [pure, Except.pure, Except.ok.injEq, Prod.mk.injEq] at h4
    obtain ⟨rfl, -⟩ := h4
    obtain ⟨ha, hok, hkeys⟩ := hq _ _ _ h3
    exact ⟨ha, hok, fun A hA => hkeys A hA⟩
  · intro i sc reg rhs st o2 st2 h
    rw [walkObj] at h
    obtain ⟨⟨i2, sc2, st3⟩, h1, h2⟩ := exceptBind_ok h
    obtain ⟨⟨reg2, st4⟩, h3, h4⟩ := exceptBind_ok h2
    obtain ⟨⟨rhs2, st5⟩, h5, h6⟩ := exceptBind_ok h4
    simp only [pure, Except.pure, Except.ok.injEq, Prod.mk.injEq] at h6
    obtain ⟨rfl, -⟩ := h6
    exact ⟨rfl, rfl, fun A h => rfl⟩
  · intro i sc p st o2 st2 h
    rw [walkObj] at h
    obtain ⟨⟨i2, sc2, st3⟩, h1, h2⟩ := exceptBind_ok h
    simp only [pure, Except.pure, Except.ok.injEq, Prod.mk.injEq] at h2
    obtain ⟨rfl, -⟩ := h2
    exact ⟨rfl, rfl, fun A h => rfl⟩
  · intro v st o2 st2 h
    rw [walkObj] at h
    obtain ⟨⟨v2, st3⟩, h1, h2⟩ := exceptBind_ok h
    simp only [pure, Except.pure, Except.ok.injEq, Prod.mk.injEq] at h2
    obtain ⟨rfl, -⟩ := h2
    exact ⟨rfl, rfl, fun A h => rfl⟩
  · intro st m2 st2 h
    rw [walkKvp] at h
    simp only [pure, Except.pure, Except.ok.injEq, Prod.mk.injEq] at h
    obtain ⟨rfl, -⟩ := h
    exact ⟨rfl, rfl, fun A h => h⟩
  · intro k v rest hv hrest st m2 st2 h
    rw [walkKvp] at h
    obtain ⟨⟨v2, st3⟩, h1, h2⟩ := exceptBind_ok h
    obtain ⟨⟨rest2, st4⟩, h3, h4⟩ := exceptBind_ok h2
    simp only [pure, Except.pure, Except.ok.injEq, Prod.mk.injEq] at h4
    obtain ⟨rfl, -⟩ := h4
    obtain ⟨hva, hvok, hvkeys⟩ := hv _ _ _ h1
    obtain ⟨hra, hrok, hrkeys⟩ := hrest _ _ _ h3
    have hent : entryAnc v2 = entryAnc v ∧ entryAncOK v2 = entryAncOK v := by
      cases v with
      | qcode a b c d e f g =>
        obtain ⟨i2, sc2, kvp2, rfl⟩ := walkObj_qcode_ok h1
        exact ⟨hva, hvok⟩
      | qassign i sc reg rhs =>
        rw [walkObj] at h1
        obtain ⟨⟨i2, sc2, st5⟩, h5, h6⟩ := exceptBind_ok h1
        obtain ⟨⟨reg2, st6⟩, h7, h8⟩ := exceptBind_ok h6
        obtain ⟨⟨rhs2, st7⟩, h9, h10⟩ := exceptBind_ok h8
        simp only [pure, Except.pure, Except.ok.injEq, Prod.mk.injEq] at h10
        obtain ⟨rfl, -⟩ := h10
        obtain ⟨hr, -, -⟩ := walkVal_fields h7
        obtain ⟨-, ha, hc⟩ := walkVal_fields h9
        rw [entryAnc, entryAnc, entryAncOK, entryAncOK, hr, ha, hc]
        exact ⟨rfl, rfl⟩
      | qlabel i sc p =>
        rw [walkObj] at h1
        obtain ⟨⟨i2, sc2, st5⟩, h5, h6⟩ := exceptBind_ok h1
        simp only [pure, Except.pure, Except.ok.injEq, Prod.mk.injEq] at h6
        obtain ⟨rfl, -⟩ := h6
        exact ⟨rfl, rfl⟩
      | qval w =>
        rw [walkObj] at h1
        obtain ⟨⟨w2, st5⟩, h5, h6⟩ := exceptBind_ok h1
        simp only [pure, Except.pure, Except.ok.injEq, Prod.mk.injEq] at h6
        obtain ⟨rfl, -⟩ := h6
        exact ⟨rfl, rfl⟩
    refine ⟨?_, ?_, ?_⟩
    · rw [ancMKvp_cons, ancMKvp_cons, hent.1, hra]
    · rw [ancOKKvp_cons, ancOKKvp_cons, hent.2, hrok]
    · intro A hA
      rw [keysInKvp] at hA
      simp only [Bool.and_eq_true] at hA
      rw [keysInKvp]
      simp only [Bool.and_eq_true]
      exact ⟨⟨hA.1.1, hvkeys A hA.1.2⟩, hrkeys A hA.2⟩

/-- epoch_offset with a Time-constant offset shifts every anchor of the
tree by that offset, provided every anchor is a Time constant. -/
theorem epoch_anchors {li : Nat} {lsc : Option Nat} {lty : QTy} {da : PyRat}
    (hlty : lty.cls = some .tTime) :
    (∀ o, ∀ n o2 n2, ancOKObj o = true →
      epochOffsetF (.vconst li lsc lty da) o n = .ok (o2, n2) →
      ancMObj o2 = (ancMObj o).map (fun t => t.padd da)) ∧
    (∀ m, ∀ ci n m2 n2, ancOKKvp m = true →
      epochOffsetKvp ci (.vconst li lsc lty da) m n = .ok (m2, n2) →
      ancMKvp m2 = (ancMKvp m).map (fun t => t.padd da)) := by
  apply objKvpInd
  · intro i sc nm asm len off kvp hq n o2 n2 hok h
    rw [epochOffsetF] at h
    obtain ⟨⟨kvp2, n3⟩, h1, h2⟩ := exceptBind_ok h
    simp only [pure, Except.pure, Except.ok.injEq, Prod.mk.injEq] at h2
    obtain ⟨rfl, -⟩ := h2
    exact hq i n kvp2 n3 hok h1
  · intro i sc reg rhs n o2 n2 hok h
    simp only [epochOffsetF, pure, Except.pure, Except.ok.injEq,
      Prod.mk.injEq] at h
    obtain ⟨rfl, -⟩ := h
    exact (Multiset.map_zero _).symm
  · intro i sc p n o2 n2 hok h
    simp only [epochOffsetF, pure, Except.pure, Except.ok.injEq,
      Prod.mk.injEq] at h
    obtain ⟨rfl, -⟩ := h
    exact (Multiset.map_zero _).symm
  · intro v n o2 n2 hok h
    simp only [epochOffsetF, pure, Except.pure, Except.ok.injEq,
      Prod.mk.injEq] at h
    obtain ⟨rfl, -⟩ := h
    exact (Multiset.map_zero _).symm
  · intro ci n m2 n2 hok h
    simp only [epochOffsetKvp, pure, Except.pure, Except.ok.injEq,
      Prod.mk.injEq] at h
    obtain ⟨rfl, -⟩ := h
    exact (Multiset.map_zero _).symm
  · intro k v rest hv hrest ci n m2 n2 hok h
    rw [ancOKKvp_cons] at hok
    simp only [Bool.and_eq_true] at hok
    cases v with
    | qcode a b c d e f g =>
      simp only [epochOffsetKvp] at h
      obtain ⟨⟨v2, n3⟩, h1, h2⟩ := exceptBind_ok h
      obtain ⟨⟨rest2, n4⟩, h3, h4⟩ := exceptBind_ok h2
      simp only [pure, Except.pure, Except.ok.injEq, Prod.mk.injEq] at h4
      obtain ⟨rfl, -⟩ := h4
      obtain ⟨kvp2, rfl⟩ := epochOffsetF_qcode_ok h1
      rw [ancMKvp_cons, ancMKvp_cons, Multiset.map_add]
      rw [show entryAnc (QObj.qcode a b c d e f kvp2) =
        ancMObj (QObj.qcode a b c d e f kvp2) from rfl]
      rw [hv n (QObj.qcode a b c d e f kvp2) n3 hok.1 h1]
      rw [hrest ci n3 rest2 n4 hok.2 h3]
      rfl
    | qassign i sc reg rhs =>
      simp only [epochOffsetKvp] at h
      by_cases hreg : regNameOf reg = some "out_usr_time"
      · rw [if_pos hreg] at h
        have hconst : anchorConst rhs = true := by
          have := hok.1
          rw [entryAncOK, if_pos hreg] at this
          exact this
        cases rhs with
        | vconst ri rsc rty w =>
          have hrty : rty.cls = some TyCls.tTime := by
            rw [anchorConst] at hconst
            exact beq_iff_eq.mp hconst
          rw [pyAddV_const_const (show [ci].getLast? = some ci from rfl)
            ri li rsc lsc hrty hlty w da n] at h
          obtain ⟨⟨rhs2, n3⟩, h1, h2⟩ := exceptBind_ok h
          simp only [Except.ok.injEq, Prod.mk.injEq] at h1
          obtain ⟨rfl, rfl⟩ := h1.symm
          obtain ⟨⟨rest2, n4⟩, h3, h4⟩ := exceptBind_ok h2
          simp only [pure, Except.pure, Except.ok.injEq, Prod.mk.injEq] at h4
          obtain ⟨rfl, -⟩ := h4
          rw [ancMKvp_cons, ancMKvp_cons, Multiset.map_add]
          rw [hrest ci (n + 1) rest2 n4 hok.2 h3]
          rw [show entryAnc (QObj.qassign i sc reg
            (scopecastVal (some ci)
              (QVal.vconst n (some ci) ⟨some TyCls.tTime, none, none⟩
                (w.padd da)))) =
            (if regNameOf reg = some "out_usr_time" then
              anchorRat (QVal.vconst n (some ci)
                ⟨some TyCls.tTime, none, none⟩ (w.padd da)) else 0) from rfl]
          rw [if_pos hreg]
          rw [show entryAnc (QObj.qassign i sc reg
              (QVal.vconst ri rsc rty w)) =
            (if regNameOf reg = some "out_usr_time" then
              anchorRat (QVal.vconst ri rsc rty w) else 0) from rfl]
          rw [if_pos hreg, anchorRat, anchorRat, Multiset.map_singleton]
        | vreg ri rsc rnm rty => simp [anchorConst] at hconst
        | vexpr ri rsc l op r rty => simp [anchorConst] at hconst
      · rw [if_neg hreg] at h
        obtain ⟨⟨rest2, n4⟩, h3, h4⟩ := exceptBind_ok h
        simp only [pure, Except.pure, Except.ok.injEq, Prod.mk.injEq] at h4
        obtain ⟨rfl, -⟩ := h4
        rw [ancMKvp_cons, ancMKvp_cons, Multiset.map_add]
        rw [hrest ci n rest2 n4 hok.2 h3]
        rw [show entryAnc (QObj.qassign i sc reg rhs) =
          (if regNameOf reg = some "out_usr_time" then anchorRat rhs
            else 0) from rfl]
        rw [if_neg hreg]
        simp
    | qlabel i sc p =>
      simp only [epochOffsetKvp] at h
      obtain ⟨⟨rest2, n4⟩, h3, h4⟩ := exceptBind_ok h
      simp only [pure, Except.pure, Except.ok.injEq, Prod.mk.injEq] at h4
      obtain ⟨rfl, -⟩ := h4
      rw [ancMKvp_cons, ancMKvp_cons, Multiset.map_add]
      rw [hrest ci n rest2 n4 hok.2 h3]
      simp [entryAnc]
    | qval w =>
      simp only [epochOffsetKvp] at h
      obtain ⟨⟨rest2, n4⟩, h3, h4⟩ := exceptBind_ok h
      simp only [pure, Except.pure, Except.ok.injEq, Prod.mk.injEq] at h4
      obtain ⟨rfl, -⟩ := h4
      rw [ancMKvp_cons, ancMKvp_cons, Multiset.map_add]
      rw [hrest ci n rest2 n4 hok.2 h3]
      simp [entryAnc]

/-- One update_key pass preserves the anchors, the anchor check, and
the key membership (now also allowing the new marker), provided the new
marker is fresh for the allowed key list. -/
theorem updateKey_pres (old : String) (nid : Nat) (A : List String)
    (hfresh : A.contains (marker nid) = false) :
    (∀ o, keysInObj A o = true →
      ancMObj (updateKeyObj old nid o) = ancMObj o ∧
      ancOKObj (updateKeyObj old nid o) = ancOKObj o ∧
      keysInObj (A ++ [marker nid]) (updateKeyObj old nid o) = true) ∧
    (∀ m, keysInKvp A m = true →
      ancMKvp (updateKeyKvp old nid m) = ancMKvp m ∧
      ancOKKvp (updateKeyKvp old nid m) = ancOKKvp m ∧
      keysInKvp (A ++ [marker nid]) (updateKeyKvp old nid m) = true ∧
      topKeys (updateKeyKvp old nid m) = topKeys m) := by
  apply objKvpInd
  · intro i sc nm asm len off kvp hq hk
    obtain ⟨ha, hok, hkeys, htop⟩ := hq hk
    have hhk : kvpHasKey (updateKeyKvp old nid kvp) (marker nid) = false := by
      rw [kvpHasKey_topKeys, htop, ← kvpHasKey_topKeys]
      exact hasKey_false_of_keysIn hk hfresh
    cases hl : kvpLookup (updateKeyKvp old nid kvp) old with
    | none =>
      have heq : updateKeyObj old nid (.qcode i sc nm asm len off kvp) =
          .qcode i sc nm (pyReplace asm old (marker nid)) len off
            (updateKeyKvp old nid kvp) := by
        simp only [updateKeyObj, hl]
      rw [heq]
      exact ⟨ha, hok, hkeys⟩
    | some e =>
      have heq : updateKeyObj old nid (.qcode i sc nm asm len off kvp) =
          .qcode i sc nm (pyReplace asm old (marker nid)) len off
            (kvpSet (kvpErase (updateKeyKvp old nid kvp) old) (marker nid)
              e) := by
        simp only [updateKeyObj, hl]
      rw [heq]
      have her : kvpHasKey (kvpErase (updateKeyKvp old nid kvp) old)
          (marker nid) = false := hasKey_erase_false hhk
      refine ⟨?_, ?_, ?_⟩
      · show ancMKvp _ = ancMKvp kvp
        rw [ancM_set_fresh e her, add_comm, ← ancM_erase hl]
        exact ha
      · show ancOKKvp _ = ancOKKvp kvp
        rw [ancOK_set_fresh e her, Bool.and_comm, ← ancOK_erase hl]
        exact hok
      · exact keysInKvp_set (keysInKvp_erase hkeys)
          (keysInObj_of_lookup hkeys hl) (contains_append_self A _)
  · intro i sc reg rhs h
    exact ⟨rfl, rfl, rfl⟩
  · intro i sc p h
    exact ⟨rfl, rfl, rfl⟩
  · intro v h
    exact ⟨rfl, rfl, rfl⟩
  · intro h
    exact ⟨rfl, rfl, rfl, rfl⟩
  · intro k v rest hv hrest h
    rw [keysInKvp] at h
    simp only [Bool.and_eq_true] at h
    obtain ⟨⟨hk1, hk2⟩, hk3⟩ := h
    obtain ⟨hra, hrok, hrkeys, hrtop⟩ := hrest hk3
    cases v with
    | qcode a b c d e f g =>
      obtain ⟨hva, hvok, hvkeys⟩ := hv hk2
      have heq : updateKeyKvp old nid (.cons k (.qcode a b c d e f g) rest) =
          .cons k (updateKeyObj old nid (.qcode a b c d e f g))
            (updateKeyKvp old nid rest) := rfl
      rw [heq]
      obtain ⟨asm2, kvp2, hsh⟩ := updateKeyObj_qcode_eq old nid a b c d e f g
      refine ⟨?_, ?_, ?_, ?_⟩
      · rw [ancMKvp_cons, ancMKvp_cons, hra, hsh]
        have h2 : ancMObj (QObj.qcode a b c asm2 e f kvp2) =
            ancMObj (QObj.qcode a b c d e f g) := hsh ▸ hva
        exact congrArg (fun z => z + ancMKvp rest) h2
      · rw [ancOKKvp_cons, ancOKKvp_cons, hrok, hsh]
        have h2 : ancOKObj (QObj.qcode a b c asm2 e f kvp2) =
            ancOKObj (QObj.qcode a b c d e f g) := hsh ▸ hvok
        exact congrArg (fun z => z && ancOKKvp rest) h2
      · rw [keysInKvp]
        simp only [Bool.and_eq_true]
        exact ⟨⟨contains_append_one hk1, hvkeys⟩, hrkeys⟩
      · rw [topKeys, topKeys, hrtop]
    | qassign i2 sc2 reg rhs =>
      have heq : updateKeyKvp old nid
            (.cons k (.qassign i2 sc2 reg rhs) rest) =
          .cons k (.qassign i2 sc2 reg rhs) (updateKeyKvp old nid rest) :=
        rfl
      rw [heq]
      refine ⟨?_, ?_, ?_, ?_⟩
      · rw [ancMKvp_cons, ancMKvp_cons, hra]
      · rw [ancOKKvp_cons, ancOKKvp_cons, hrok]
      · rw [keysInKvp]
        simp only [Bool.and_eq_true]
        exact ⟨⟨contains_append_one hk1, rfl⟩, hrkeys⟩
      · rw [topKeys, topKeys, hrtop]
    | qlabel i2 sc2 p =>
      have heq : updateKeyKvp old nid (.cons k (.qlabel i2 sc2 p) rest) =
          .cons k (.qlabel i2 sc2 p) (updateKeyKvp old nid rest) := rfl
      rw [heq]
      refine ⟨?_, ?_, ?_, ?_⟩
      · rw [ancMKvp_cons, ancMKvp_cons, hra]
      · rw [ancOKKvp_cons, ancOKKvp_cons, hrok]
      · rw [keysInKvp]
        simp only [Bool.and_eq_true]
        exact ⟨⟨contains_append_one hk1, rfl⟩, hrkeys⟩
      · rw [topKeys, topKeys, hrtop]
    | qval w =>
      have heq : updateKeyKvp old nid (.cons k (.qval w) rest) =
          .cons k (.qval w) (updateKeyKvp old nid rest) := rfl
      rw [heq]
      refine ⟨?_, ?_, ?_, ?_⟩
      · rw [ancMKvp_cons, ancMKvp_cons, hra]
      · rw [ancOKKvp_cons, ancOKKvp_cons, hrok]
      · rw [keysInKvp]
        simp only [Bool.and_eq_true]
        exact ⟨⟨contains_append_one hk1, rfl⟩, hrkeys⟩
      · rw [topKeys, topKeys, hrtop]

/-- The update_key pass over a lut of pairwise distinct fresh new ids
preserves the anchors and the anchor check. -/
theorem foldl_update_anchors :
    ∀ (lut : List (String × Nat)) (A : List String) (o : QObj),
      keysInObj A o = true →
      (∀ p ∈ lut, A.contains (marker p.2) = false) →
      List.Pairwise (fun p q => p.2 ≠ q.2) lut →
      ancMObj (lut.foldl (fun c p => updateKeyObj p.1 p.2 c) o) = ancMObj o ∧
      ancOKObj (lut.foldl (fun c p => updateKeyObj p.1 p.2 c) o) =
        ancOKObj o := by
  intro lut
  induction lut with
  | nil =>
    intro A o h _ _
    exact ⟨rfl, rfl⟩
  | cons p rest ih =>
    intro A o h hf hp
    rw [List.foldl_cons]
    obtain ⟨ha, hok, hkeys⟩ :=
      (updateKey_pres p.1 p.2 A (hf p (List.mem_cons_self _ _))).1 o h
    rw [List.pairwise_cons] at hp
    have hf2 : ∀ q ∈ rest, (A ++ [marker p.2]).contains (marker q.2) =
        false := by
      intro q hq
      exact contains_append_one_false (hf q (List.mem_cons_of_mem _ hq))
        fun he => (hp.1 q hq) (marker_inj _ _ he).symm
    obtain ⟨ha2, hok2⟩ := ih (A ++ [marker p.2]) (updateKeyObj p.1 p.2 o)
      hkeys hf2 hp.2
    exact ⟨ha2.trans ha, hok2.trans hok⟩

/-- The id/scope step when the (unrenamed) scope is not in the scopes
dict: nothing changes. -/
theorem stepIdScope_skip {qid : Nat} {scid0 : Nat} {st : WSt}
    (hf : st.lut.find? (fun p => p.1 = marker scid0) = none)
    (hc : st.scopes.contains (marker scid0) = false) :
    stepIdScope qid (some scid0) st = .ok (qid, some scid0, st) := by
  rw [stepIdScope, hf]
  have hmem : marker scid0 ∉ st.scopes := by simpa using hc
  simp [hmem]

/-- A successful qick_copy of a code fragment whose keys are markers
below the id counter keeps its root id at the counter value and
preserves the anchors and the anchor check, provided the ambient scope
is neither the fragment id nor the counter value. -/
theorem qickCopyF_anchors {stack : List Nat} {top : Nat}
    {bi : Nat} {bsc : Option Nat} {bnm : Option String} {basm : String}
    {blen boff : QVal} {bkvp : Kvp} {c : QObj} {n n2 : Nat}
    (hstack : stack.getLast? = some top)
    (hbi : bi ≠ top) (htn : top ≠ n)
    (hkeys : keysInKvp (markersBelow n) bkvp = true)
    (h : qickCopyF stack (.qcode bi bsc bnm basm blen boff bkvp) n =
      .ok (c, n2)) :
    qidOf c = n ∧ ancMObj c = ancMKvp bkvp ∧ ancOKObj c = ancOKKvp bkvp := by
  rw [qickCopyF, connectScope_false, hstack] at h
  obtain ⟨sc0, h0, h⟩ := exceptBind_ok h
  obtain rfl : some top = sc0 := by injection h0
  obtain ⟨⟨root2, st⟩, h3, h4⟩ := exceptBind_ok h
  simp only [pure, Except.pure, Except.ok.injEq, Prod.mk.injEq] at h4
  obtain ⟨rfl, -⟩ := h4
  -- dissect the walk of the root code object
  rw [walkObj] at h3
  obtain ⟨⟨i2, sc2, st3⟩, h5, h6⟩ := exceptBind_ok h3
  have hfind : (⟨[marker n], [], [(marker bi, n)], n + 1⟩ :
      WSt).lut.find? (fun p => p.1 = marker top) = none := by
    have hne : marker bi ≠ marker top := fun he => hbi (marker_inj _ _ he)
    simp [List.find?, hne]
  have hcont : (⟨[marker n], [], [(marker bi, n)], n + 1⟩ :
      WSt).scopes.contains (marker top) = false := by
    have hne : marker top ≠ marker n := fun he => htn (marker_inj _ _ he)
    simp [hne]
  have hstep : stepIdScope n (some top)
      (⟨[marker n], [], [(marker bi, n)], n + 1⟩ : WSt) =
      .ok (n, some top, ⟨[marker n], [], [(marker bi, n)], n + 1⟩) :=
    stepIdScope_skip hfind hcont
  have h5x : (Except.ok (n, some top,
      (⟨[marker n], [], [(marker bi, n)], n + 1⟩ : WSt)) :
      Except Err (Nat × Option Nat × WSt)) = .ok (i2, sc2, st3) :=
    hstep.symm.trans h5
  obtain ⟨rfl, rfl, rfl⟩ : n = i2 ∧ some top = sc2 ∧
      (⟨[marker n], [], [(marker bi, n)], n + 1⟩ : WSt) = st3 := by
    simp only [Except.ok.injEq, Prod.mk.injEq] at h5x
    exact ⟨h5x.1, h5x.2.1, h5x.2.2⟩
  obtain ⟨⟨kvp2, st4⟩, h7, h8⟩ := exceptBind_ok h6
  simp only [pure, Except.pure, Except.ok.injEq, Prod.mk.injEq] at h8
  obtain ⟨rfl, rfl⟩ := h8
  obtain ⟨hwa, hwok, hwkeys⟩ := walk_anchors.2 bkvp _ _ _ h7
  obtain ⟨hn4, ext, hlut, hbound, hpair⟩ := walk_stExt.2 bkvp _ _ _ h7
  -- the update_key fold over the final lut
  have hfl : ∀ p ∈ st4.lut, (markersBelow n).contains (marker p.2) =
      false := by
    intro p hp
    rw [hlut] at hp
    rcases List.mem_append.mp hp with hm | hm
    · obtain rfl : p = (marker bi, n) := List.mem_singleton.mp hm
      exact markersBelow_not_contains (le_refl n)
    · exact markersBelow_not_contains
        (le_trans (Nat.le_succ n) (hbound p hm).1)
  have hpl : List.Pairwise (fun p q => p.2 ≠ q.2)
      ((st4.lut : List (String × Nat))) := by
    rw [hlut, List.pairwise_append]
    refine ⟨by simp, List.Pairwise.imp (fun hlt => Nat.ne_of_lt hlt) hpair,
      ?_⟩
    intro p hp q hq
    obtain rfl : p = (marker bi, n) := List.mem_singleton.mp hp
    exact Nat.ne_of_lt (lt_of_lt_of_le (Nat.lt_succ_self n) (hbound q hq).1)
  obtain ⟨hfa, hfok⟩ := foldl_update_anchors st4.lut (markersBelow n)
    (.qcode n (some top) bnm basm blen boff kvp2)
    (hwkeys (markersBelow n) hkeys) hfl hpl
  refine ⟨?_, ?_, ?_⟩
  · rw [(foldl_updateKey_fields st4.lut _).2.2]
    rfl
  · rw [hfa]
    exact hwa
  · rw [hfok]
    exact hwok


/-- connect_scope with a non-empty stack binds to the top frame. -/
theorem connectScope_some {stack : List Nat} {top : Nat}
    (h : stack.getLast? = some top) (req : Bool) :
    connectScope stack req = .ok (some top) := by
  unfold connectScope
  rw [h]

/-- sympy equality of 0 + w with 0 is equality of w with 0. -/
theorem peq_zero_ofInt_padd (w : PyRat) :
    ((PyRat.ofInt 0).padd w).peq (.ofInt 0) = w.peq (.ofInt 0) := by
  have h0 : (PyRat.ofInt 0).toRat = 0 := by
    norm_num [PyRat.toRat, PyRat.ofInt, PyRat.den]
  cases hq : w.peq (.ofInt 0) with
  | true =>
    refine (PyRat.peq_iff _ _).mpr ?_
    rw [PyRat.toRat_padd, h0, zero_add, (PyRat.peq_iff _ _).mp hq]
    exact h0
  | false =>
    cases hp : ((PyRat.ofInt 0).padd w).peq (.ofInt 0) with
    | false => rfl
    | true =>
      exfalso
      have h2 := (PyRat.peq_iff _ _).mp hp
      rw [PyRat.toRat_padd, h0, zero_add] at h2
      rw [(PyRat.peq_iff w (.ofInt 0)).mpr (h2.trans h0.symm)] at hq
      simp at hq


end QPC

open QPC

/-! ### Heap lemmas for the qick_copy frame claim -/

/-- A hit in the first part of an appended association list is a hit in
the whole list. -/
theorem find_append_of_found {α : Type} {p : α → Bool} {l1 l2 : List α}
    {e : α} (h : l1.find? p = some e) : (l1 ++ l2).find? p = some e := by
  induction l1 with
  | nil => simp [List.find?] at h
  | cons x rest ih =>
    rw [List.cons_append]
    cases hx : p x with
    | true =>
      rw [List.find?_cons_of_pos _ hx] at h ⊢
      exact h
    | false =>
      rw [List.find?_cons_of_neg _ (by simp [hx])] at h ⊢
      exact ih h

/-- Appending entries preserves successful lookups. -/
theorem lookupH_mono_append {h : Heap} {x : Nat} {o : String × List Nat}
    (hx : lookupH h x = some o) (tail : List (Nat × (String × List Nat)))
    (m : Nat) : lookupH ⟨h.entries ++ tail, m⟩ x = some o := by
  rw [lookupH] at hx ⊢
  cases hf : h.entries.find? (fun e => e.1 = x) with
  | none => rw [hf] at hx; cases hx
  | some e =>
    rw [hf] at hx
    rw [show (⟨h.entries ++ tail, m⟩ : Heap).entries =
      h.entries ++ tail from rfl, find_append_of_found hf]
    exact hx

/-- A successful lookup in a heap extended by one entry is either an
old hit or the new entry. -/
theorem lookupH_append_elim {l1 : List (Nat × (String × List Nat))}
    {b : Nat} {obj o : String × List Nat} {m m2 x : Nat}
    (h : lookupH ⟨l1 ++ [(b, obj)], m⟩ x = some o) :
    lookupH ⟨l1, m2⟩ x = some o ∨ (x = b ∧ o = obj) := by
  induction l1 with
  | nil =>
    rw [lookupH] at h
    by_cases hb : b = x
    · rw [show (⟨[] ++ [(b, obj)], m⟩ : Heap).entries = [(b, obj)]
        from rfl, List.find?_cons_of_pos _ (by simp [hb])] at h
      refine Or.inr ⟨hb.symm, ?_⟩
      simpa using h.symm
    · rw [show (⟨[] ++ [(b, obj)], m⟩ : Heap).entries = [(b, obj)]
        from rfl, List.find?_cons_of_neg _ (by simp [hb])] at h
      simp at h
  | cons e rest ih =>
    rw [lookupH] at h
    by_cases he : e.1 = x
    · rw [show (⟨(e :: rest) ++ [(b, obj)], m⟩ : Heap).entries =
        e :: (rest ++ [(b, obj)]) from rfl,
        List.find?_cons_of_pos _ (by simp [he])] at h
      left
      rw [lookupH, List.find?_cons_of_pos _ (by simp [he])]
      exact h
    · rw [show (⟨(e :: rest) ++ [(b, obj)], m⟩ : Heap).entries =
        e :: (rest ++ [(b, obj)]) from rfl,
        List.find?_cons_of_neg _ (by simp [he])] at h
      have h2 : lookupH ⟨rest ++ [(b, obj)], m⟩ x = some o := by
        rw [lookupH]
        exact h
      rcases ih h2 with hold | hnew
      · left
        rw [lookupH, List.find?_cons_of_neg _ (by simp [he])]
        rw [lookupH] at hold
        exact hold
      · exact Or.inr hnew

/-- Mutating one address leaves lookups of other addresses unchanged. -/
theorem lookupH_write_ne {h : Heap} {a x : Nat} {obj : String × List Nat}
    (hne : x ≠ a) : lookupH (writeH h a obj) x = lookupH h x := by
  rw [lookupH, lookupH, writeH]
  induction h.entries with
  | nil => rfl
  | cons e rest ih =>
    rw [List.map_cons]
    by_cases he : e.1 = a
    · rw [if_pos he, List.find?_cons_of_neg _ (by simp [Ne.symm hne]),
        List.find?_cons_of_neg _ (by simp [he ▸ (Ne.symm hne)])]
      exact ih
    · rw [if_neg he]
      by_cases hx : e.1 = x
      · rw [List.find?_cons_of_pos _ (by simp [hx]),
          List.find?_cons_of_pos _ (by simp [hx])]
      · rw [List.find?_cons_of_neg _ (by simp [hx]),
          List.find?_cons_of_neg _ (by simp [hx])]
        exact ih

/-- A find on the list with one address rewritten, keyed by that
address, returns the rewritten entry. -/
theorem find_map_write_self {l : List (Nat × (String × List Nat))}
    {x : Nat} {obj : String × List Nat} {e : Nat × (String × List Nat)}
    (h : (l.map (fun q => if q.1 = x then (x, obj) else q)).find?
        (fun q => q.1 = x) = some e) : e = (x, obj) := by
  induction l with
  | nil => simp [List.find?] at h
  | cons q rest ih =>
    rw [List.map_cons] at h
    by_cases hq : q.1 = x
    · rw [if_pos hq, List.find?_cons_of_pos _ (by simp)] at h
      injection h with h
      exact h.symm
    · rw [if_neg hq, List.find?_cons_of_neg _ (by simp [hq])] at h
      exact ih h

/-- A successful lookup after a mutation is the mutation or an old
binding. -/
theorem lookupH_write_elim {h : Heap} {a x : Nat}
    {obj o : String × List Nat}
    (hl : lookupH (writeH h a obj) x = some o) :
    lookupH h x = some o ∨ (x = a ∧ o = obj) := by
  by_cases hne : x = a
  · subst hne
    rw [lookupH, writeH] at hl
    cases hf : ((h.entries.map (fun q => if q.1 = x then (x, obj)
        else q)).find? (fun q => q.1 = x)) with
    | none =>
      rw [show (⟨h.entries.map (fun q => if q.1 = x then (x, obj) else q),
        h.next⟩ : Heap).entries = h.entries.map (fun q =>
          if q.1 = x then (x, obj) else q) from rfl, hf] at hl
      cases hl
    | some e =>
      rw [show (⟨h.entries.map (fun q => if q.1 = x then (x, obj) else q),
        h.next⟩ : Heap).entries = h.entries.map (fun q =>
          if q.1 = x then (x, obj) else q) from rfl, hf] at hl
      have he := find_map_write_self hf
      refine Or.inr ⟨rfl, ?_⟩
      injection hl with hl
      rw [← hl, he]
  · rw [lookupH_write_ne hne] at hl
    exact Or.inl hl

/-- Writes at addresses at or above `lo` leave lookups below `lo`
unchanged. -/
theorem lookupH_applyWrites {lo : Nat}
    {ws : List (Nat × String × List Nat)}
    (hws : ∀ w ∈ ws, lo ≤ w.1) :
    ∀ {h : Heap} {x : Nat} {o : String × List Nat}, x < lo →
      lookupH h x = some o → lookupH (applyWrites h ws) x = some o := by
  induction ws with
  | nil =>
    intro h x o hx hl
    exact hl
  | cons w rest ih =>
    intro h x o hx hl
    have hxw : x ≠ w.1 := Nat.ne_of_lt (lt_of_lt_of_le hx
      (hws w (List.mem_cons_self _ _)))
    rw [show applyWrites h (w :: rest) =
      applyWrites (writeH h w.1 w.2) rest from rfl]
    refine ih (fun q hq => hws q (List.mem_cons_of_mem _ hq)) hx ?_
    rw [lookupH_write_ne hxw]
    exact hl

/-- With a well-formed heap, every binding is below the counter. -/
theorem lookupH_lt {h : Heap} {x : Nat} {o : String × List Nat}
    (hwf : heapWF h = true) (hl : lookupH h x = some o) : x < h.next := by
  rw [lookupH] at hl
  cases hf : h.entries.find? (fun e => e.1 = x) with
  | none => rw [hf] at hl; cases hl
  | some e =>
    have hmem := List.mem_of_find?_eq_some hf
    have hpred := List.find?_some hf
    have hx : e.1 = x := by simpa using hpred
    rw [heapWF, List.all_eq_true] at hwf
    have h2 := hwf e hmem
    simp at h2
    rw [← hx]
    exact h2

/-- The rendering reads only through successful lookups, so a heap that
preserves them preserves the rendering. -/
theorem serialize_frame : ∀ (fuel : Nat) (h h2 : Heap),
    (∀ x o, lookupH h x = some o → lookupH h2 x = some o) →
    (∀ a t, serializeH fuel h a = some t → serializeH fuel h2 a = some t) ∧
    (∀ ks t, serializeKids fuel h ks = some t →
      serializeKids fuel h2 ks = some t) := by
  intro fuel
  induction fuel with
  | zero =>
    intro h h2 hag
    exact ⟨fun a t ht => by simp [serializeH] at ht,
      fun ks t ht => by simp [serializeKids] at ht⟩
  | succ fuel ih =>
    intro h h2 hag
    constructor
    · intro a t ht
      rw [serializeH] at ht
      split at ht
      · exact Option.noConfusion ht
      next s kids hl =>
        split at ht
        · exact Option.noConfusion ht
        next r hk =>
          rw [serializeH, hag a (s, kids) hl]
          show (match serializeKids fuel h2 kids with
            | none => none
            | some r => some ("(" ++ s ++ r ++ ")")) = some t
          rw [(ih h h2 hag).2 kids r hk]
          exact ht
    · intro ks t ht
      cases ks with
      | nil => exact ht
      | cons b rest =>
        rw [serializeKids] at ht
        split at ht
        · exact Option.noConfusion ht
        next sb hb =>
          split at ht
          · exact Option.noConfusion ht
          next sr hr =>
            rw [serializeKids, (ih h h2 hag).1 b sb hb]
            show (match serializeKids fuel h2 rest with
              | none => none
              | some sr => some (sb ++ sr)) = some t
            rw [(ih h h2 hag).2 rest sr hr]
            exact ht

/-- OldPres composes. -/
theorem OldPres_trans {lo : Nat} {h1 h2 h3 : Heap}
    (a : OldPres lo h1 h2) (b : OldPres lo h2 h3) : OldPres lo h1 h3 :=
  ⟨fun x o hx hl => b.1 x o hx (a.1 x o hx hl), le_trans a.2 b.2⟩

/-- The deepcopy recursion keeps the old region intact, allocates only
at or above `lo`, and keeps the fresh region closed under children
pointers. -/
theorem deepcopy_inv (lo : Nat) : ∀ (fuel : Nat),
    (∀ h memo a a2 h2 memo2,
      deepcopyH fuel h memo a = some (a2, h2, memo2) →
      InvH lo h memo →
      InvH lo h2 memo2 ∧ OldPres lo h h2 ∧ lo ≤ a2 ∧ a2 < h2.next) ∧
    (∀ h memo ks ks2 h2 memo2,
      deepcopyKids fuel h memo ks = some (ks2, h2, memo2) →
      InvH lo h memo →
      InvH lo h2 memo2 ∧ OldPres lo h h2 ∧
        ∀ b ∈ ks2, lo ≤ b ∧ b < h2.next) := by
  intro fuel
  induction fuel with
  | zero =>
    exact ⟨fun h memo a a2 h2 memo2 hc => by simp [deepcopyH] at hc,
      fun h memo ks ks2 h2 memo2 hc => by simp [deepcopyKids] at hc⟩
  | succ fuel ih =>
    constructor
    · intro h memo a a2 h2 memo2 hc hinv
      rw [deepcopyH] at hc
      split at hc
      next p hm =>
        simp only [Option.some.injEq, Prod.mk.injEq] at hc
        obtain ⟨rfl, rfl, rfl⟩ := hc
        have hp := hinv.2.1 p (List.mem_of_find?_eq_some hm)
        exact ⟨hinv, ⟨fun x o _ hl => hl, le_refl _⟩, hp.1, hp.2⟩
      next hm =>
        split at hc
        · exact Option.noConfusion hc
        next s kids hl =>
          split at hc
          · exact Option.noConfusion hc
          next kids2 h3 memo3 hk =>
            simp only [Option.some.injEq, Prod.mk.injEq] at hc
            obtain ⟨rfl, rfl, rfl⟩ := hc
            have hinv1 : InvH lo
                ⟨h.entries ++ [(h.next, (s, []))], h.next + 1⟩
                (memo ++ [(a, h.next)]) := by
              refine ⟨le_trans hinv.1 (Nat.le_succ _), ?_, ?_⟩
              · intro p hp
                rcases List.mem_append.mp hp with hp1 | hp1
                · have h4 := hinv.2.1 p hp1
                  exact ⟨h4.1, lt_trans h4.2 (Nat.lt_succ_self _)⟩
                · obtain rfl := List.mem_singleton.mp hp1
                  exact ⟨hinv.1, Nat.lt_succ_self _⟩
              · intro x s2 kids2b hx hlox b hb
                rcases @lookupH_append_elim _ _ _ _ _ h.next _ hx
                  with hold | hnew
                · exact hinv.2.2 x s2 kids2b hold hlox b hb
                · have hkb : kids2b = [] := congrArg Prod.snd hnew.2
                  rw [hkb] at hb
                  exact absurd hb (List.not_mem_nil b)
            obtain ⟨hinv3, hop3, hbnds⟩ := (ih).2 _ _ kids kids2 h3 memo3
              hk hinv1
            refine ⟨?_, ?_, hinv.1, ?_⟩
            · refine ⟨hinv3.1, fun p hp => hinv3.2.1 p hp, ?_⟩
              intro x s2 kids2b hx hlox b hb
              rcases lookupH_write_elim hx with hold | hnew
              · exact hinv3.2.2 x s2 kids2b hold hlox b hb
              · have hkb : kids2b = kids2 := congrArg Prod.snd hnew.2
                rw [hkb] at hb
                exact (hbnds b hb).1
            · refine OldPres_trans (OldPres_trans
                (⟨fun x o hx hl => lookupH_mono_append hl _ _,
                  Nat.le_succ _⟩ : OldPres lo h
                  ⟨h.entries ++ [(h.next, (s, []))], h.next + 1⟩) hop3)
                ⟨fun x o hx hl => ?_, le_refl _⟩
              rw [lookupH_write_ne (Nat.ne_of_lt (lt_of_lt_of_le hx
                hinv.1))]
              exact hl
            · exact lt_of_lt_of_le (Nat.lt_succ_self _) hop3.2
    · intro h memo ks ks2 h2 memo2 hc hinv
      cases ks with
      | nil =>
        rw [deepcopyKids] at hc
        simp only [Option.some.injEq, Prod.mk.injEq] at hc
        obtain ⟨rfl, rfl, rfl⟩ := hc
        exact ⟨hinv, ⟨fun x o _ hl => hl, le_refl _⟩,
          fun b hb => absurd hb (List.not_mem_nil b)⟩
      | cons b rest =>
        rw [deepcopyKids] at hc
        split at hc
        · exact Option.noConfusion hc
        next b2 hb2 memob hb =>
          split at hc
          · exact Option.noConfusion hc
          next rest2 h3 memo3 hr =>
            simp only [Option.some.injEq, Prod.mk.injEq] at hc
            obtain ⟨rfl, rfl, rfl⟩ := hc
            obtain ⟨hinvb, hopb, hlob, hltb⟩ := (ih).1 _ _ b b2 hb2 memob
              hb hinv
            obtain ⟨hinvr, hopr, hbnds⟩ := (ih).2 _ _ rest rest2 h3 memo3
              hr hinvb
            refine ⟨hinvr, OldPres_trans hopb hopr, ?_⟩
            intro c hcm
            rcases List.mem_cons.mp hcm with rfl | hcm2
            · exact ⟨hlob, lt_of_lt_of_le hltb hopr.2⟩
            · exact hbnds c hcm2

/-! ### Walk lemmas for key consistency -/

/-- The id/scope step either keeps the state and the id, adopts a
previously assigned id from the lut, or allocates a fresh id. -/
theorem stepIdScope_cases {qid : Nat} {sc : Option Nat} {st : WSt}
    {i2 : Nat} {sc2 : Option Nat} {st2 : WSt}
    (h : stepIdScope qid sc st = .ok (i2, sc2, st2)) :
    (st2 = st ∧ (i2 = qid ∨ (marker qid, i2) ∈ st.lut)) ∨
    (i2 = st.n ∧ st2 = ⟨st.scopes, st.newIds ++ [marker st.n],
      st.lut ++ [(marker qid, st.n)], st.n + 1⟩) := by
  cases sc with
  | none => exact absurd h (by simp [stepIdScope])
  | some scid0 =>
    simp only [stepIdScope] at h
    split at h
    · split at h
      · simp only [Except.ok.injEq, Prod.mk.injEq] at h
        obtain ⟨rfl, -, rfl⟩ := h
        exact Or.inl ⟨rfl, Or.inl rfl⟩
      · split at h
        next p hp =>
          simp only [Except.ok.injEq, Prod.mk.injEq] at h
          obtain ⟨rfl, -, rfl⟩ := h
          have hm := List.mem_of_find?_eq_some hp
          have hk : p.1 = marker qid := by
            simpa using List.find?_some hp
          left
          refine ⟨rfl, Or.inr ?_⟩
          rw [show ((marker qid : String), p.2) = p from by
            rw [← hk]]
          exact hm
        next hp =>
          simp only [Except.ok.injEq, Prod.mk.injEq] at h
          obtain ⟨rfl, -, rfl⟩ := h
          exact Or.inr ⟨rfl, rfl⟩
    · simp only [Except.ok.injEq, Prod.mk.injEq] at h
      obtain ⟨rfl, -, rfl⟩ := h
      exact Or.inl ⟨rfl, Or.inl rfl⟩

/-- Mid-copy consistency is monotone in the rename table. -/
theorem Fixed_mono {L L2 : List (String × Nat)}
    (hsub : ∀ p ∈ L, p ∈ L2) :
    (∀ o, FixedObj L o → FixedObj L2 o) ∧
    (∀ m, FixedKvp L m → FixedKvp L2 m) := by
  apply objKvpInd
  · intro i sc nm asm len off kvp hq h
    exact hq h
  · intro i sc reg rhs h
    trivial
  · intro i sc p h
    trivial
  · intro v h
    trivial
  · intro h
    trivial
  · intro k v rest hv hrest h
    obtain ⟨h1, h2, h3⟩ := h
    exact ⟨h1.imp id (fun hm => hsub _ hm), hv h2, hrest h3⟩

/-- The id bookkeeping of one walk step over a set of visited nodes:
the lut grows by markers of visited ids that are no longer present, the
surviving ids are old or fresh, and the ids stay distinct and below the
counter. -/
def WSpec (pre : List Nat) (st : WSt) (post : List Nat) (st2 : WSt) :
    Prop :=
  st.n ≤ st2.n ∧
  ∃ ext, st2.lut = st.lut ++ ext ∧
    (∀ p ∈ ext, ∃ j ∈ pre, p.1 = marker j ∧ j ∉ post) ∧
    (∀ j ∈ post, j ∈ pre ∨ (st.n ≤ j ∧ j < st2.n)) ∧
    post.Nodup ∧ (∀ j ∈ post, j < st2.n) ∧
    ((st.lut.map Prod.fst).Nodup → (st2.lut.map Prod.fst).Nodup)

/-- WSpec over no nodes. -/
theorem WSpec_nil (st : WSt) : WSpec [] st [] st :=
  ⟨le_refl _, [], (List.append_nil _).symm,
    fun p hp => absurd hp (List.not_mem_nil p),
    fun j hj => absurd hj (List.not_mem_nil j), List.nodup_nil,
    fun j hj => absurd hj (List.not_mem_nil j), fun hk => hk⟩

/-- WSpec for one id/scope step whose id is not yet in the lut. -/
theorem WSpec_single {qid : Nat} {sc : Option Nat} {st : WSt} {i2 : Nat}
    {sc2 : Option Nat} {st2 : WSt}
    (h : stepIdScope qid sc st = .ok (i2, sc2, st2))
    (hdisj : ∀ p ∈ st.lut, p.1 ≠ marker qid) (hb : qid < st.n) :
    WSpec [qid] st [i2] st2 ∧
      (i2 = qid ∨ (marker qid, i2) ∈ st2.lut) := by
  rcases stepIdScope_cases h with ⟨rfl, hid | hid⟩ | ⟨rfl, rfl⟩
  · subst hid
    exact ⟨⟨le_refl _, [], (List.append_nil _).symm,
      fun p hp => absurd hp (List.not_mem_nil p),
      fun j hj => Or.inl hj, List.nodup_singleton _,
      fun j hj => by rw [List.mem_singleton.mp hj]; exact hb,
      fun hk => hk⟩,
      Or.inl rfl⟩
  · exact absurd rfl (hdisj _ hid)
  · refine ⟨⟨Nat.le_succ _, [(marker qid, st.n)], rfl, ?_, ?_, ?_, ?_,
      ?_⟩, Or.inr ?_⟩
    · intro p hp
      rw [List.mem_singleton.mp hp]
      refine ⟨qid, List.mem_singleton_self _, rfl, ?_⟩
      intro hmem
      rw [List.mem_singleton.mp hmem] at hb
      exact lt_irrefl _ hb
    · intro j hj
      rw [List.mem_singleton.mp hj]
      exact Or.inr ⟨le_refl _, Nat.lt_succ_self _⟩
    · exact List.nodup_singleton _
    · intro j hj
      rw [List.mem_singleton.mp hj]
      exact Nat.lt_succ_self _
    · intro hk
      rw [show ((⟨st.scopes, st.newIds ++ [marker st.n],
        st.lut ++ [(marker qid, st.n)], st.n + 1⟩ : WSt)).lut =
        st.lut ++ [(marker qid, st.n)] from rfl, List.map_append,
        List.nodup_append]
      refine ⟨hk, by simp, ?_⟩
      intro s hs hs2
      simp only [List.map_cons, List.map_nil, List.mem_singleton] at hs2
      obtain ⟨p, hp, hps⟩ := List.mem_map.mp hs
      rw [hs2] at hps
      exact hdisj p hp hps
    · exact List.mem_append_right _ (List.mem_singleton_self _)

/-- WSpec composes over disjoint node sets. -/
theorem WSpec_comp {pre1 pre2 post1 post2 : List Nat} {st st1 st2 : WSt}
    (h1 : WSpec pre1 st post1 st1) (h2 : WSpec pre2 st1 post2 st2)
    (hnd : ∀ j ∈ pre2, j ∉ pre1)
    (hb1 : ∀ j ∈ pre1, j < st.n) (hb2 : ∀ j ∈ pre2, j < st.n) :
    WSpec (pre1 ++ pre2) st (post1 ++ post2) st2 := by
  obtain ⟨hn1, e1, he1, hc1, hs1, hd1, hl1, hk1⟩ := h1
  obtain ⟨hn2, e2, he2, hc2, hs2, hd2, hl2, hk2⟩ := h2
  refine ⟨le_trans hn1 hn2, e1 ++ e2,
    by rw [he2, he1, List.append_assoc], ?_, ?_, ?_, ?_, fun hk =>
      hk2 (hk1 hk)⟩
  · intro p hp
    rcases List.mem_append.mp hp with hm | hm
    · obtain ⟨j, hj, hpj, hjn⟩ := hc1 p hm
      refine ⟨j, List.mem_append_left _ hj, hpj, ?_⟩
      intro hmem
      rcases List.mem_append.mp hmem with hm2 | hm2
      · exact hjn hm2
      · rcases hs2 j hm2 with hjp | hjp
        · exact hnd j hjp hj
        · exact absurd (hb1 j hj) (not_lt.mpr (le_trans hn1 hjp.1))
    · obtain ⟨j, hj, hpj, hjn⟩ := hc2 p hm
      refine ⟨j, List.mem_append_right _ hj, hpj, ?_⟩
      intro hmem
      rcases List.mem_append.mp hmem with hm2 | hm2
      · rcases hs1 j hm2 with hjp | hjp
        · exact hnd j hj hjp
        · exact absurd (hb2 j hj) (not_lt.mpr hjp.1)
      · exact hjn hm2
  · intro j hj
    rcases List.mem_append.mp hj with hm | hm
    · rcases hs1 j hm with hjp | hjp
      · exact Or.inl (List.mem_append_left _ hjp)
      · exact Or.inr ⟨hjp.1, lt_of_lt_of_le hjp.2 hn2⟩
    · rcases hs2 j hm with hjp | hjp
      · exact Or.inl (List.mem_append_right _ hjp)
      · exact Or.inr ⟨le_trans hn1 hjp.1, hjp.2⟩
  · rw [List.nodup_append]
    refine ⟨hd1, hd2, ?_⟩
    intro j hj1 hj2
    rcases hs1 j hj1 with hp1 | hp1 <;> rcases hs2 j hj2 with hp2 | hp2
    · exact hnd j hp2 hp1
    · exact absurd (hb1 j hp1) (not_lt.mpr (le_trans hn1 hp2.1))
    · exact absurd (hb2 j hp2) (not_lt.mpr hp1.1)
    · exact absurd hp1.2 (not_lt.mpr hp2.1)
  · intro j hj
    rcases List.mem_append.mp hj with hm | hm
    · exact lt_of_lt_of_le (hl1 j hm) hn2
    · exact hl2 j hm

/-- Ids whose markers avoid a lut still avoid it after an extension by
markers of other ids. -/
theorem hdisj_extend {pre1 pre2 : List Nat} {st st1 : WSt}
    {e1 : List (String × Nat)} (he1 : st1.lut = st.lut ++ e1)
    (hc1 : ∀ p ∈ e1, ∃ j ∈ pre1, p.1 = marker j)
    (hd : ∀ j ∈ pre2, ∀ p ∈ st.lut, p.1 ≠ marker j)
    (hnd : ∀ j ∈ pre2, j ∉ pre1) :
    ∀ j ∈ pre2, ∀ p ∈ st1.lut, p.1 ≠ marker j := by
  intro j hj p hp
  rw [he1] at hp
  rcases List.mem_append.mp hp with hm | hm
  · exact hd j hj p hm
  · obtain ⟨j2, hj2, hpj⟩ := hc1 p hm
    rw [hpj]
    intro he
    exact hnd j hj ((marker_inj j2 j he) ▸ hj2)

/-- The lut only grows along a WSpec step. -/
theorem WSpec_lut_mono {pre post : List Nat} {st st2 : WSt}
    (h : WSpec pre st post st2) : ∀ p ∈ st.lut, p ∈ st2.lut := by
  obtain ⟨-, e, he, -⟩ := h
  intro p hp
  rw [he]
  exact List.mem_append_left _ hp

/-- The walk of a value satisfies the id bookkeeping, and the value's
root id is either kept or registered in the lut. -/
theorem walkVal_wspec : ∀ (v : QVal), ∀ {st : WSt} {v2 : QVal} {st2 : WSt},
    walkVal v st = .ok (v2, st2) →
    (wIdsVal v).Nodup →
    (∀ j ∈ wIdsVal v, ∀ p ∈ st.lut, p.1 ≠ marker j) →
    (∀ j ∈ wIdsVal v, j < st.n) →
    WSpec (wIdsVal v) st (wIdsVal v2) st2 ∧
      (qidOfVal v2 = qidOfVal v ∨
        (marker (qidOfVal v), qidOfVal v2) ∈ st2.lut) := by
  intro v
  induction v with
  | vconst i sc ty w =>
    intro st v2 st2 h hnd hdisj hb
    rw [walkVal] at h
    obtain ⟨⟨i2, sc2, st3⟩, h1, h2⟩ := exceptBind_ok h
    simp only [pure, Except.pure, Except.ok.injEq, Prod.mk.injEq] at h2
    obtain ⟨rfl, rfl⟩ := h2
    have hs := WSpec_single h1
      (fun p hp => hdisj i (List.mem_singleton_self _) p hp)
      (hb i (List.mem_singleton_self _))
    exact ⟨hs.1, hs.2⟩
  | vreg i sc nm ty =>
    intro st v2 st2 h hnd hdisj hb
    rw [walkVal] at h
    obtain ⟨⟨i2, sc2, st3⟩, h1, h2⟩ := exceptBind_ok h
    simp only [pure, Except.pure, Except.ok.injEq, Prod.mk.injEq] at h2
    obtain ⟨rfl, rfl⟩ := h2
    have hs := WSpec_single h1
      (fun p hp => hdisj i (List.mem_singleton_self _) p hp)
      (hb i (List.mem_singleton_self _))
    exact ⟨hs.1, hs.2⟩
  | vexpr i sc l op r ty ihl ihr =>
    intro st v2 st2 h hnd hdisj hb
    rw [walkVal] at h
    obtain ⟨⟨i2, sc2, st3⟩, h1, h2⟩ := exceptBind_ok h
    obtain ⟨⟨l2, st4⟩, h3, h4⟩ := exceptBind_ok h2
    obtain ⟨⟨r2, st5⟩, h5, h6⟩ := exceptBind_ok h4
    simp only [pure, Except.pure, Except.ok.injEq, Prod.mk.injEq] at h6
    obtain ⟨rfl, rfl⟩ := h6
    rw [show wIdsVal (.vexpr i sc l op r ty) = i :: (wIdsVal l ++ wIdsVal r)
      from rfl] at hnd hdisj hb
    rw [List.nodup_cons] at hnd
    obtain ⟨hni, hnd2⟩ := hnd
    rw [List.nodup_append] at hnd2
    obtain ⟨ndl, ndr, dlr⟩ := hnd2
    have hbi : i < st.n := hb i (List.mem_cons_self _ _)
    have hbl : ∀ j ∈ wIdsVal l, j < st.n := fun j hj =>
      hb j (List.mem_cons_of_mem _ (List.mem_append_left _ hj))
    have hbr : ∀ j ∈ wIdsVal r, j < st.n := fun j hj =>
      hb j (List.mem_cons_of_mem _ (List.mem_append_right _ hj))
    have hs := WSpec_single h1 (fun p hp =>
      hdisj i (List.mem_cons_self _ _) p hp) hbi
    obtain ⟨hn1, e1, he1, hc1, -⟩ := hs.1
    have hdl : ∀ j ∈ wIdsVal l, ∀ p ∈ st3.lut, p.1 ≠ marker j := by
      refine hdisj_extend he1 (fun p hp => ?_) (fun j hj p hp =>
        hdisj j (List.mem_cons_of_mem _ (List.mem_append_left _ hj)) p hp)
        (fun j hj hji => by
          rw [List.mem_singleton.mp hji] at hj
          exact hni (List.mem_append_left _ hj))
      obtain ⟨j, hj, hpj, -⟩ := hc1 p hp
      exact ⟨j, hj, hpj⟩
    have sl := ihl h3 ndl hdl (fun j hj => lt_of_lt_of_le (hbl j hj) hn1)
    obtain ⟨hn2, e2, he2, hc2, -⟩ := sl.1
    have hdr : ∀ j ∈ wIdsVal r, ∀ p ∈ st4.lut, p.1 ≠ marker j := by
      refine hdisj_extend he2 (fun p hp => ?_) ?_
        (fun j hj hjl => dlr hjl hj)
      · obtain ⟨j, hj, hpj, -⟩ := hc2 p hp
        exact ⟨j, hj, hpj⟩
      · refine hdisj_extend he1 (fun p hp => ?_) (fun j hj p hp =>
          hdisj j (List.mem_cons_of_mem _ (List.mem_append_right _ hj))
          p hp) (fun j hj hji => by
            rw [List.mem_singleton.mp hji] at hj
            exact hni (List.mem_append_right _ hj))
        obtain ⟨j, hj, hpj, -⟩ := hc1 p hp
        exact ⟨j, hj, hpj⟩
    have sr := ihr h5 ndr hdr (fun j hj =>
      lt_of_lt_of_le (hbr j hj) (le_trans hn1 hn2))
    have comp1 := WSpec_comp hs.1 sl.1
      (fun j hj hji => by
        rw [List.mem_singleton.mp hji] at hj
        exact hni (List.mem_append_left _ hj))
      (fun j hj => by rw [List.mem_singleton.mp hj]; exact hbi) hbl
    have comp2 := WSpec_comp comp1 sr.1
      (fun j hj hjm => by
        rcases List.mem_append.mp hjm with hm | hm
        · rw [List.mem_singleton.mp hm] at hj
          exact hni (List.mem_append_right _ hj)
        · exact dlr hm hj)
      (fun j hj => by
        rcases List.mem_append.mp hj with hm | hm
        · rw [List.mem_singleton.mp hm]
          exact hbi
        · exact hbl j hm) hbr
    refine ⟨comp2, ?_⟩
    rcases hs.2 with hid | hid
    · exact Or.inl hid
    · exact Or.inr (WSpec_lut_mono sr.1 _ (WSpec_lut_mono sl.1 _ hid))

/-- The walk of an object satisfies the id bookkeeping, keeps or
registers every object id in the lut, turns key consistency into
mid-copy consistency relative to the final lut, and preserves key
uniqueness and the top-level key lists. -/
theorem walk_wspec :
    (∀ o, ∀ st o2 st2, walkObj o st = .ok (o2, st2) →
      (wIdsObj o).Nodup →
      (∀ j ∈ wIdsObj o, ∀ p ∈ st.lut, p.1 ≠ marker j) →
      (∀ j ∈ wIdsObj o, j < st.n) →
      WSpec (wIdsObj o) st (wIdsObj o2) st2 ∧
      (qidOf o2 = qidOf o ∨ (marker (qidOf o), qidOf o2) ∈ st2.lut) ∧
      (consObj o = true → FixedObj st2.lut o2) ∧
      (keysNodupObj o → keysNodupObj o2)) ∧
    (∀ m, ∀ st m2 st2, walkKvp m st = .ok (m2, st2) →
      (wIdsKvp m).Nodup →
      (∀ j ∈ wIdsKvp m, ∀ p ∈ st.lut, p.1 ≠ marker j) →
      (∀ j ∈ wIdsKvp m, j < st.n) →
      WSpec (wIdsKvp m) st (wIdsKvp m2) st2 ∧
      (consKvp m = true → FixedKvp st2.lut m2) ∧
      (keysNodupKvp m → keysNodupKvp m2) ∧
      topKeys m2 = topKeys m) := by
  apply objKvpInd
  · intro i sc nm asm len off kvp hq st o2 st2 h hnd hdisj hb
    rw [walkObj] at h
    obtain ⟨⟨i2, sc2, st3⟩, h1, h2⟩ := exceptBind_ok h
    obtain ⟨⟨kvp2, st4⟩, h3, h4⟩ := exceptBind_ok h2
    simp only [pure, Except.pure, Except.ok.injEq, Prod.mk.injEq] at h4
    obtain ⟨rfl, rfl⟩ := h4
    rw [show wIdsObj (.qcode i sc nm asm len off kvp) = i :: wIdsKvp kvp
      from rfl] at hnd hdisj hb
    rw [List.nodup_cons] at hnd
    obtain ⟨hni, ndk⟩ := hnd
    have hbi : i < st.n := hb i (List.mem_cons_self _ _)
    have hbk : ∀ j ∈ wIdsKvp kvp, j < st.n := fun j hj =>
      hb j (List.mem_cons_of_mem _ hj)
    have hs0 := WSpec_single h1
      (fun p hp => hdisj i (List.mem_cons_self _ _) p hp) hbi
    have hs : (WSpec [i] st [i2] st3 ∧
        (i2 = i ∨ (marker i, i2) ∈ st3.lut)) := hs0
    obtain ⟨hn1, e1, he1, hc1, -⟩ := hs.1
    have hdk : ∀ j ∈ wIdsKvp kvp, ∀ p ∈ st3.lut, p.1 ≠ marker j := by
      refine hdisj_extend he1 (fun p hp => ?_) (fun j hj p hp =>
        hdisj j (List.mem_cons_of_mem _ hj) p hp)
        (fun j hj hji => by
          rw [List.mem_singleton.mp hji] at hj
          exact hni hj)
      obtain ⟨j, hj, hpj, -⟩ := hc1 p hp
      exact ⟨j, hj, hpj⟩
    obtain ⟨sk, fk, nk, tk⟩ := hq st3 kvp2 st4 h3 ndk hdk
      (fun j hj => lt_of_lt_of_le (hbk j hj) hn1)
    have comp := WSpec_comp hs.1 sk
      (fun j hj hji => by
        rw [List.mem_singleton.mp hji] at hj
        exact hni hj)
      (fun j hj => by rw [List.mem_singleton.mp hj]; exact hbi) hbk
    refine ⟨comp, ?_, ?_, ?_⟩
    · rcases hs.2 with hid | hid
      · exact Or.inl hid
      · exact Or.inr (WSpec_lut_mono sk _ hid)
    · intro hc
      exact fk hc
    · intro hk
      exact nk hk
  · intro i sc reg rhs st o2 st2 h hnd hdisj hb
    rw [walkObj] at h
    obtain ⟨⟨i2, sc2, st3⟩, h1, h2⟩ := exceptBind_ok h
    obtain ⟨⟨reg2, st4⟩, h3, h4⟩ := exceptBind_ok h2
    obtain ⟨⟨rhs2, st5⟩, h5, h6⟩ := exceptBind_ok h4
    simp only [pure, Except.pure, Except.ok.injEq, Prod.mk.injEq] at h6
    obtain ⟨rfl, rfl⟩ := h6
    rw [show wIdsObj (.qassign i sc reg rhs) =
      i :: (wIdsVal reg ++ wIdsVal rhs) from rfl] at hnd hdisj hb
    rw [List.nodup_cons] at hnd
    obtain ⟨hni, hnd2⟩ := hnd
    rw [List.nodup_append] at hnd2
    obtain ⟨ndl, ndr, dlr⟩ := hnd2
    have hbi : i < st.n := hb i (List.mem_cons_self _ _)
    have hbl : ∀ j ∈ wIdsVal reg, j < st.n := fun j hj =>
      hb j (List.mem_cons_of_mem _ (List.mem_append_left _ hj))
    have hbr : ∀ j ∈ wIdsVal rhs, j < st.n := fun j hj =>
      hb j (List.mem_cons_of_mem _ (List.mem_append_right _ hj))
    have hs := WSpec_single h1 (fun p hp =>
      hdisj i (List.mem_cons_self _ _) p hp) hbi
    obtain ⟨hn1, e1, he1, hc1, -⟩ := hs.1
    have hdl : ∀ j ∈ wIdsVal reg, ∀ p ∈ st3.lut, p.1 ≠ marker j := by
      refine hdisj_extend he1 (fun p hp => ?_) (fun j hj p hp =>
        hdisj j (List.mem_cons_of_mem _ (List.mem_append_left _ hj)) p hp)
        (fun j hj hji => by
          rw [List.mem_singleton.mp hji] at hj
          exact hni (List.mem_append_left _ hj))
      obtain ⟨j, hj, hpj, -⟩ := hc1 p hp
      exact ⟨j, hj, hpj⟩
    have sl := walkVal_wspec reg h3 ndl hdl
      (fun j hj => lt_of_lt_of_le (hbl j hj) hn1)
    obtain ⟨hn2, e2, he2, hc2, -⟩ := sl.1
    have hdr : ∀ j ∈ wIdsVal rhs, ∀ p ∈ st4.lut, p.1 ≠ marker j := by
      refine hdisj_extend he2 (fun p hp => ?_) ?_
        (fun j hj hjl => dlr hjl hj)
      · obtain ⟨j, hj, hpj, -⟩ := hc2 p hp
        exact ⟨j, hj, hpj⟩
      · refine hdisj_extend he1 (fun p hp => ?_) (fun j hj p hp =>
          hdisj j (List.mem_cons_of_mem _ (List.mem_append_right _ hj))
          p hp) (fun j hj hji => by
            rw [List.mem_singleton.mp hji] at hj
            exact hni (List.mem_append_right _ hj))
        obtain ⟨j, hj, hpj, -⟩ := hc1 p hp
        exact ⟨j, hj, hpj⟩
    have sr := walkVal_wspec rhs h5 ndr hdr (fun j hj =>
      lt_of_lt_of_le (hbr j hj) (le_trans hn1 hn2))
    have comp1 := WSpec_comp hs.1 sl.1
      (fun j hj hji => by
        rw [List.mem_singleton.mp hji] at hj
        exact hni (List.mem_append_left _ hj))
      (fun j hj => by rw [List.mem_singleton.mp hj]; exact hbi) hbl
    have comp2 := WSpec_comp comp1 sr.1
      (fun j hj hjm => by
        rcases List.mem_append.mp hjm with hm | hm
        · rw [List.mem_singleton.mp hm] at hj
          exact hni (List.mem_append_right _ hj)
        · exact dlr hm hj)
      (fun j hj => by
        rcases List.mem_append.mp hj with hm | hm
        · rw [List.mem_singleton.mp hm]
          exact hbi
        · exact hbl j hm) hbr
    refine ⟨comp2, ?_, fun hc => trivial, fun hk => trivial⟩
    rcases hs.2 with hid | hid
    · exact Or.inl hid
    · exact Or.inr (WSpec_lut_mono sr.1 _ (WSpec_lut_mono sl.1 _ hid))
  · intro i sc p st o2 st2 h hnd hdisj hb
    rw [walkObj] at h
    obtain ⟨⟨i2, sc2, st3⟩, h1, h2⟩ := exceptBind_ok h
    simp only [pure, Except.pure, Except.ok.injEq, Prod.mk.injEq] at h2
    obtain ⟨rfl, rfl⟩ := h2
    have hs := WSpec_single h1
      (fun q hq => hdisj i (List.mem_singleton_self _) q hq)
      (hb i (List.mem_singleton_self _))
    exact ⟨hs.1, hs.2, fun hc => trivial, fun hk => trivial⟩
  · intro v st o2 st2 h hnd hdisj hb
    rw [walkObj] at h
    obtain ⟨⟨v2, st3⟩, h1, h2⟩ := exceptBind_ok h
    simp only [pure, Except.pure, Except.ok.injEq, Prod.mk.injEq] at h2
    obtain ⟨rfl, rfl⟩ := h2
    have hs := walkVal_wspec v h1 hnd hdisj hb
    exact ⟨hs.1, hs.2, fun hc => trivial, fun hk => trivial⟩
  · intro st m2 st2 h hnd hdisj hb
    rw [walkKvp] at h
    simp only [pure, Except.pure, Except.ok.injEq, Prod.mk.injEq] at h
    obtain ⟨rfl, rfl⟩ := h
    exact ⟨WSpec_nil st, fun hc => trivial, fun hk => hk, rfl⟩
  · intro k v rest hv hrest st m2 st2 h hnd hdisj hb
    rw [walkKvp] at h
    obtain ⟨⟨v2, st3⟩, h1, h2⟩ := exceptBind_ok h
    obtain ⟨⟨rest2, st4⟩, h3, h4⟩ := exceptBind_ok h2
    simp only [pure, Except.pure, Except.ok.injEq, Prod.mk.injEq] at h4
    obtain ⟨rfl, rfl⟩ := h4
    rw [show wIdsKvp (.cons k v rest) = wIdsObj v ++ wIdsKvp rest
      from rfl] at hnd hdisj hb
    rw [List.nodup_append] at hnd
    obtain ⟨ndv, ndr, dvr⟩ := hnd
    have hbv : ∀ j ∈ wIdsObj v, j < st.n := fun j hj =>
      hb j (List.mem_append_left _ hj)
    have hbr : ∀ j ∈ wIdsKvp rest, j < st.n := fun j hj =>
      hb j (List.mem_append_right _ hj)
    obtain ⟨sv, idv, fv, nv⟩ := hv st v2 st3 h1 ndv
      (fun j hj q hq => hdisj j (List.mem_append_left _ hj) q hq) hbv
    obtain ⟨ev, hev, hcv, -⟩ := sv.2
    have hdr : ∀ j ∈ wIdsKvp rest, ∀ p ∈ st3.lut, p.1 ≠ marker j := by
      refine hdisj_extend hev (fun p hp => ?_) (fun j hj q hq =>
        hdisj j (List.mem_append_right _ hj) q hq)
        (fun j hj hjv => dvr hjv hj)
      obtain ⟨j, hj, hpj, -⟩ := hcv p hp
      exact ⟨j, hj, hpj⟩
    obtain ⟨sr, fr, nr, tr⟩ := hrest st3 rest2 st4 h3 ndr hdr
      (fun j hj => lt_of_lt_of_le (hbr j hj) sv.1)
    have comp := WSpec_comp sv sr (fun j hj hjv => dvr hjv hj) hbv hbr
    refine ⟨comp, ?_, ?_, ?_⟩
    · intro hc
      rw [show consKvp (.cons k v rest) =
        ((k == keyOf v) && consObj v && consKvp rest) from rfl] at hc
      simp only [Bool.and_eq_true, beq_iff_eq] at hc
      obtain ⟨⟨hk, hcv2⟩, hcr⟩ := hc
      refine ⟨?_, ?_, fr hcr⟩
      · rcases idv with hid | hid
        · left
          rw [hk, keyOf, keyOf, hid]
        · right
          rw [hk, keyOf]
          exact WSpec_lut_mono sr _ hid
      · exact (Fixed_mono (WSpec_lut_mono sr)).1 v2 (fv hcv2)
    · intro hk
      obtain ⟨hk1, hk2, hk3⟩ := hk
      refine ⟨?_, nv hk2, nr hk3⟩
      rw [kvpHasKey_topKeys, tr, ← kvpHasKey_topKeys]
      exact hk1
    · rw [topKeys, topKeys, tr]

/-! ### Key consistency through the update_key pass -/

/-- The id of a value is among its walked ids. -/
theorem qidOfVal_mem_wIds (v : QVal) : qidOfVal v ∈ wIdsVal v := by
  cases v with
  | vconst i a b c => exact List.mem_singleton_self _
  | vreg i a b c => exact List.mem_singleton_self _
  | vexpr i a l b r c => exact List.mem_cons_self _ _

/-- The id of an object is among its walked ids. -/
theorem qid_mem_wIds (o : QObj) : qidOf o ∈ wIdsObj o := by
  cases o with
  | qcode i sc nm asm len off kvp => exact List.mem_cons_self _ _
  | qassign i sc reg rhs => exact List.mem_cons_self _ _
  | qlabel i sc p => exact List.mem_singleton_self _
  | qval v => exact qidOfVal_mem_wIds v

mutual

/-- Key consistency relative to the remaining rename table R: every
entry either already carries a consistent key that no pending rename
targets, or is still registered in R under its key and id. -/
def ArrObj (R : List (String × Nat)) : QObj → Prop
  | .qcode _ _ _ _ _ _ kvp => ArrKvp R kvp
  | _ => True

/-- The symbol-table form of the invariant. -/
def ArrKvp (R : List (String × Nat)) : Kvp → Prop
  | .nil => True
  | .cons k v rest =>
    ((k = keyOf v ∧ ∀ p ∈ R, p.1 ≠ k) ∨ (k, qidOf v) ∈ R) ∧
    ArrObj R v ∧ ArrKvp R rest

end

/-- The mid-step invariant after the value recursion of one update_key
pass but before the entry move at this level: entry statuses still
refer to the full table (head included), entry values are already
arranged for the tail. -/
def ArrKvp01 (o1 : String) (nid1 : Nat) (R : List (String × Nat)) :
    Kvp → Prop
  | .nil => True
  | .cons k v rest =>
    ((k = keyOf v ∧ ∀ p ∈ ((o1, nid1) :: R), p.1 ≠ k) ∨
      (k, qidOf v) ∈ ((o1, nid1) :: R)) ∧
    ArrObj R v ∧ ArrKvp01 o1 nid1 R rest

/-- With no renames pending the invariant is key consistency. -/
theorem Arr_nil :
    (∀ o, ArrObj [] o → consObj o = true) ∧
    (∀ m, ArrKvp [] m → consKvp m = true) := by
  apply objKvpInd
  · intro i sc nm asm len off kvp hq h
    exact hq h
  · intro i sc reg rhs h; rfl
  · intro i sc p h; rfl
  · intro v h; rfl
  · intro h; rfl
  · intro k v rest hv hrest h
    obtain ⟨hs, h2, h3⟩ := h
    rw [show consKvp (.cons k v rest) =
      ((k == keyOf v) && consObj v && consKvp rest) from rfl]
    simp only [Bool.and_eq_true, beq_iff_eq]
    rcases hs with ⟨hk, -⟩ | hm
    · exact ⟨⟨hk, hv h2⟩, hrest h3⟩
    · exact absurd hm (List.not_mem_nil _)

/-- Conversion of the mid-copy invariant into the post-walk one: when
every rename-table key is the marker of an id outside the tree and the
tree's ids all lie in `post`, consistent keys cannot be targeted by a
pending rename. -/
theorem Fixed_to_Arr (L : List (String × Nat)) (post : List Nat)
    (hL : ∀ p ∈ L, ∃ j, p.1 = marker j ∧ j ∉ post) :
    (∀ o, FixedObj L o → (∀ j ∈ wIdsObj o, j ∈ post) → ArrObj L o) ∧
    (∀ m, FixedKvp L m → (∀ j ∈ wIdsKvp m, j ∈ post) → ArrKvp L m) := by
  apply objKvpInd
  · intro i sc nm asm len off kvp hq h hin
    exact hq h (fun j hj => hin j (List.mem_cons_of_mem _ hj))
  · intro i sc reg rhs h hin; trivial
  · intro i sc p h hin; trivial
  · intro v h hin; trivial
  · intro h hin; trivial
  · intro k v rest hv hrest h hin
    obtain ⟨hs, h2, h3⟩ := h
    have hinv : ∀ j ∈ wIdsObj v, j ∈ post := fun j hj =>
      hin j (List.mem_append_left _ hj)
    have hinr : ∀ j ∈ wIdsKvp rest, j ∈ post := fun j hj =>
      hin j (List.mem_append_right _ hj)
    refine ⟨?_, hv h2 hinv, hrest h3 hinr⟩
    rcases hs with hk | hm
    · left
      refine ⟨hk, fun p hp he => ?_⟩
      obtain ⟨j, hpj, hjn⟩ := hL p hp
      rw [hk, keyOf] at he
      rw [hpj] at he
      have hj2 : j = qidOf v := marker_inj _ _ he
      exact hjn (by rw [hj2]; exact hinv _ (qid_mem_wIds v))
    · right; exact hm

/-- The id multiset of a cons cell. -/
theorem idsM_cons (k : String) (v : QObj) (rest : Kvp) :
    (↑(wIdsKvp (.cons k v rest)) : Multiset Nat) =
      ↑(wIdsObj v) + ↑(wIdsKvp rest) := by
  rw [show wIdsKvp (.cons k v rest) = wIdsObj v ++ wIdsKvp rest from rfl]
  rw [← Multiset.coe_add]

/-- Removing a present entry splits the id multiset. -/
theorem idsM_erase {kvp : Kvp} {old : String} {e : QObj}
    (h : kvpLookup kvp old = some e) :
    (↑(wIdsKvp kvp) : Multiset Nat) =
      ↑(wIdsObj e) + ↑(wIdsKvp (kvpErase kvp old)) := by
  induction kvp using kvpInd with
  | hnil => simp [kvpLookup] at h
  | hcons k v rest ih =>
    rw [kvpLookup] at h
    by_cases hk : k = old
    · rw [if_pos hk] at h
      obtain rfl : v = e := by injection h
      rw [kvpErase, if_pos hk, idsM_cons]
    · rw [if_neg hk] at h
      rw [kvpErase, if_neg hk, idsM_cons, idsM_cons, ih h, add_left_comm]

/-- Appending a fresh entry adds its ids. -/
theorem idsM_set_fresh {kvp : Kvp} {nk : String} (e : QObj)
    (h : kvpHasKey kvp nk = false) :
    (↑(wIdsKvp (kvpSet kvp nk e)) : Multiset Nat) =
      ↑(wIdsKvp kvp) + ↑(wIdsObj e) := by
  induction kvp using kvpInd with
  | hnil =>
    rw [kvpSet, idsM_cons]
    simp [wIdsKvp]
  | hcons k v rest ih =>
    by_cases hk : k = nk
    · rw [kvpHasKey, kvpLookup, if_pos hk] at h
      simp at h
    · rw [kvpHasKey, kvpLookup, if_neg hk] at h
      rw [kvpSet, if_neg hk, idsM_cons, idsM_cons, ih h, add_assoc]

/-- The value found under a key in a key-unique table is itself
key-unique. -/
theorem keysNodup_of_lookup {k : String} :
    ∀ {m : Kvp} {e : QObj}, keysNodupKvp m → kvpLookup m k = some e →
      keysNodupObj e := by
  intro m
  induction m using kvpInd with
  | hnil => intro e h hl; exact Option.noConfusion hl
  | hcons k0 v rest ih =>
    intro e h hl
    rw [kvpLookup] at hl
    by_cases hk : k0 = k
    · rw [if_pos hk] at hl
      obtain rfl : v = e := by injection hl
      exact h.2.1
    · rw [if_neg hk] at hl
      exact ih h.2.2 hl

/-- Appending under a different key keeps an absent key absent. -/
theorem hasKey_set_false {nk x : String} {e : QObj} (hx : x ≠ nk) :
    ∀ {m : Kvp}, kvpHasKey m x = false →
      kvpHasKey (kvpSet m nk e) x = false := by
  intro m
  induction m using kvpInd with
  | hnil =>
    intro h
    rw [kvpSet, kvpHasKey_cons]
    have : (nk == x) = false := by
      simp only [beq_eq_false_iff_ne]
      exact fun he => hx he.symm
    rw [this]
    simp [kvpHasKey, kvpLookup]
  | hcons k v rest ih =>
    intro h
    rw [kvpHasKey_cons] at h
    simp only [Bool.or_eq_false_iff] at h
    rw [kvpSet]
    by_cases hk : k = nk
    · rw [if_pos hk, kvpHasKey_cons, h.1, h.2]
      rfl
    · rw [if_neg hk, kvpHasKey_cons, h.1, ih h.2]
      rfl

/-- Erasing preserves key uniqueness. -/
theorem keysNodup_erase {old : String} :
    ∀ {m : Kvp}, keysNodupKvp m → keysNodupKvp (kvpErase m old) := by
  intro m
  induction m using kvpInd with
  | hnil => intro h; trivial
  | hcons k v rest ih =>
    intro h
    rw [kvpErase]
    by_cases hk : k = old
    · rw [if_pos hk]
      exact h.2.2
    · rw [if_neg hk]
      exact ⟨hasKey_erase_false h.1, h.2.1, ih h.2.2⟩

/-- Appending a fresh key-unique entry preserves key uniqueness. -/
theorem keysNodup_set_fresh {nk : String} {e : QObj}
    (he : keysNodupObj e) :
    ∀ {m : Kvp}, keysNodupKvp m → kvpHasKey m nk = false →
      keysNodupKvp (kvpSet m nk e) := by
  intro m
  induction m using kvpInd with
  | hnil =>
    intro h hf
    exact ⟨rfl, he, trivial⟩
  | hcons k v rest ih =>
    intro h hf
    rw [kvpHasKey_cons] at hf
    simp only [Bool.or_eq_false_iff, beq_eq_false_iff_ne] at hf
    rw [kvpSet, if_neg hf.1]
    exact ⟨hasKey_set_false hf.1 h.1, h.2.1, ih h.2.2 hf.2⟩

/-- When no entry of the table keeps the old key, the mid invariant
collapses to the tail invariant. -/
theorem arr01_none {o1 : String} {nid1 : Nat} {R : List (String × Nat)}
    (hdn : ∀ p ∈ R, p.1 ≠ o1) :
    ∀ {m : Kvp}, ArrKvp01 o1 nid1 R m → kvpLookup m o1 = none →
      ArrKvp R m := by
  intro m
  induction m using kvpInd with
  | hnil => intro h hl; trivial
  | hcons k v rest ih =>
    intro h hl
    obtain ⟨hs, h2, h3⟩ := h
    rw [kvpLookup] at hl
    by_cases hk : k = o1
    · rw [if_pos hk] at hl
      exact Option.noConfusion hl
    · rw [if_neg hk] at hl
      refine ⟨?_, h2, ih h3 hl⟩
      rcases hs with ⟨hkey, hall⟩ | hm
      · left
        exact ⟨hkey, fun p hp => hall p (List.mem_cons_of_mem _ hp)⟩
      · rcases List.mem_cons.mp hm with he | hm2
        · exact absurd (congrArg Prod.fst he) hk
        · right; exact hm2

/-- Erasing the unique old-keyed entry from the mid invariant leaves
the tail invariant and identifies the moved entry's new id. -/
theorem arr01_erase {o1 : String} {nid1 : Nat} {R : List (String × Nat)}
    (hdn : ∀ p ∈ R, p.1 ≠ o1) :
    ∀ {m : Kvp} {e : QObj}, ArrKvp01 o1 nid1 R m → keysNodupKvp m →
      kvpLookup m o1 = some e →
      ArrKvp R (kvpErase m o1) ∧ qidOf e = nid1 ∧ ArrObj R e := by
  intro m
  induction m using kvpInd with
  | hnil => intro e h hnd hl; exact Option.noConfusion hl
  | hcons k v rest ih =>
    intro e h hnd hl
    obtain ⟨hs, h2, h3⟩ := h
    obtain ⟨hnk, hndv, hndr⟩ := hnd
    rw [kvpLookup] at hl
    by_cases hk : k = o1
    · rw [if_pos hk] at hl
      obtain rfl : v = e := by injection hl
      rw [kvpErase, if_pos hk]
      subst hk
      rcases hs with ⟨-, hall⟩ | hm
      · exact absurd rfl (hall _ (List.mem_cons_self _ _))
      · rcases List.mem_cons.mp hm with he2 | hm2
        · have hq : qidOf v = nid1 := congrArg Prod.snd he2
          have hln : kvpLookup rest k = none := by
            rw [kvpHasKey] at hnk
            cases hx : kvpLookup rest k with
            | none => rfl
            | some w => rw [hx] at hnk; simp at hnk
          exact ⟨arr01_none hdn h3 hln, hq, h2⟩
        · exact absurd rfl (hdn _ hm2)
    · rw [if_neg hk] at hl
      rw [kvpErase, if_neg hk]
      obtain ⟨ha, hq, he2⟩ := ih h3 hndr hl
      refine ⟨⟨?_, h2, ha⟩, hq, he2⟩
      rcases hs with ⟨hkey, hall⟩ | hm
      · left
        exact ⟨hkey, fun p hp => hall p (List.mem_cons_of_mem _ hp)⟩
      · rcases List.mem_cons.mp hm with he3 | hm2
        · exact absurd (congrArg Prod.fst he3) hk
        · right; exact hm2

/-- Appending a fresh, already-arranged entry preserves the
invariant. -/
theorem arr_set_fresh {R : List (String × Nat)} {nk : String} {e : QObj}
    (hst : (nk = keyOf e ∧ ∀ p ∈ R, p.1 ≠ nk) ∨ (nk, qidOf e) ∈ R)
    (he : ArrObj R e) :
    ∀ {m : Kvp}, ArrKvp R m → kvpHasKey m nk = false →
      ArrKvp R (kvpSet m nk e) := by
  intro m
  induction m using kvpInd with
  | hnil =>
    intro h hf
    exact ⟨hst, he, trivial⟩
  | hcons k v rest ih =>
    intro h hf
    obtain ⟨hs, h2, h3⟩ := h
    rw [kvpHasKey_cons] at hf
    simp only [Bool.or_eq_false_iff, beq_eq_false_iff_ne] at hf
    rw [kvpSet, if_neg hf.1]
    exact ⟨hs, h2, ih h3 hf.2⟩

/-- One update_key pass arranges its own entry and leaves the others
for the remaining passes, preserving key uniqueness.  The hypotheses
say the new marker is outside the allowed key list A, no remaining
pass targets the same old key, and no remaining pass's old key equals
this pass's new marker. -/
theorem updateKey_arr (o1 : String) (nid1 : Nat) (R : List (String × Nat))
    (A : List String) (hfresh : A.contains (marker nid1) = false)
    (hdn : ∀ p ∈ R, p.1 ≠ o1)
    (hmk : ∀ p ∈ R, p.1 ≠ marker nid1) :
    (∀ o, ArrObj ((o1, nid1) :: R) o → keysNodupObj o →
      keysInObj A o = true →
      ArrObj R (updateKeyObj o1 nid1 o) ∧
      keysNodupObj (updateKeyObj o1 nid1 o)) ∧
    (∀ m, ArrKvp ((o1, nid1) :: R) m → keysNodupKvp m →
      keysInKvp A m = true →
      ArrKvp01 o1 nid1 R (updateKeyKvp o1 nid1 m) ∧
      keysNodupKvp (updateKeyKvp o1 nid1 m)) := by
  apply objKvpInd
  · intro i sc nm asm len off kvp hq ha hnd hk
    obtain ⟨h01, hnd2⟩ := hq ha hnd hk
    have htop := ((updateKey_pres o1 nid1 A hfresh).2 kvp hk).2.2.2
    have hhk : kvpHasKey (updateKeyKvp o1 nid1 kvp) (marker nid1) =
        false := by
      rw [kvpHasKey_topKeys, htop, ← kvpHasKey_topKeys]
      exact hasKey_false_of_keysIn hk hfresh
    cases hl : kvpLookup (updateKeyKvp o1 nid1 kvp) o1 with
    | none =>
      have heq : updateKeyObj o1 nid1 (.qcode i sc nm asm len off kvp) =
          .qcode i sc nm (pyReplace asm o1 (marker nid1)) len off
            (updateKeyKvp o1 nid1 kvp) := by
        simp only [updateKeyObj, hl]
      rw [heq]
      exact ⟨arr01_none hdn h01 hl, hnd2⟩
    | some e =>
      have heq : updateKeyObj o1 nid1 (.qcode i sc nm asm len off kvp) =
          .qcode i sc nm (pyReplace asm o1 (marker nid1)) len off
            (kvpSet (kvpErase (updateKeyKvp o1 nid1 kvp) o1) (marker nid1)
              e) := by
        simp only [updateKeyObj, hl]
      rw [heq]
      obtain ⟨har, hqe, hae⟩ := arr01_erase hdn h01 hnd2 hl
      have her : kvpHasKey (kvpErase (updateKeyKvp o1 nid1 kvp) o1)
          (marker nid1) = false := hasKey_erase_false hhk
      constructor
      · show ArrKvp R _
        refine arr_set_fresh ?_ hae har her
        left
        refine ⟨?_, hmk⟩
        rw [keyOf, hqe]
      · show keysNodupKvp _
        exact keysNodup_set_fresh (keysNodup_of_lookup hnd2 hl)
          (keysNodup_erase hnd2) her
  · intro i sc reg rhs ha hnd hk
    exact ⟨trivial, trivial⟩
  · intro i sc p ha hnd hk
    exact ⟨trivial, trivial⟩
  · intro v ha hnd hk
    exact ⟨trivial, trivial⟩
  · intro ha hnd hk
    exact ⟨trivial, trivial⟩
  · intro k v rest hv hrest ha hnd hk
    obtain ⟨hs, h2, h3⟩ := ha
    obtain ⟨hnk, hndv, hndr⟩ := hnd
    rw [keysInKvp] at hk
    simp only [Bool.and_eq_true] at hk
    obtain ⟨⟨hk1, hk2⟩, hk3⟩ := hk
    obtain ⟨hr01, hrnd⟩ := hrest h3 hndr hk3
    have htopr := ((updateKey_pres o1 nid1 A hfresh).2 rest hk3).2.2.2
    have hnk2 : kvpHasKey (updateKeyKvp o1 nid1 rest) k = false := by
      rw [kvpHasKey_topKeys, htopr, ← kvpHasKey_topKeys]
      exact hnk
    cases v with
    | qcode a b c d e f g =>
      obtain ⟨hva, hvnd⟩ := hv h2 hndv hk2
      have heq : updateKeyKvp o1 nid1 (.cons k (.qcode a b c d e f g)
            rest) =
          .cons k (updateKeyObj o1 nid1 (.qcode a b c d e f g))
            (updateKeyKvp o1 nid1 rest) := rfl
      rw [heq]
      have hqid : qidOf (updateKeyObj o1 nid1 (.qcode a b c d e f g)) =
          qidOf (.qcode a b c d e f g) :=
        (updateKeyObj_fields o1 nid1 _).2.2
      refine ⟨⟨?_, hva, hr01⟩, hnk2, hvnd, hrnd⟩
      rcases hs with ⟨hkey, hall⟩ | hm
      · left
        rw [keyOf, hqid, ← keyOf]
        exact ⟨hkey, hall⟩
      · right
        rw [hqid]
        exact hm
    | qassign i2 sc2 reg rhs =>
      have heq : updateKeyKvp o1 nid1 (.cons k (.qassign i2 sc2 reg rhs)
            rest) =
          .cons k (.qassign i2 sc2 reg rhs)
            (updateKeyKvp o1 nid1 rest) := rfl
      rw [heq]
      exact ⟨⟨hs, trivial, hr01⟩, hnk2, trivial, hrnd⟩
    | qlabel i2 sc2 p =>
      have heq : updateKeyKvp o1 nid1 (.cons k (.qlabel i2 sc2 p) rest) =
          .cons k (.qlabel i2 sc2 p) (updateKeyKvp o1 nid1 rest) := rfl
      rw [heq]
      exact ⟨⟨hs, trivial, hr01⟩, hnk2, trivial, hrnd⟩
    | qval w =>
      have heq : updateKeyKvp o1 nid1 (.cons k (.qval w) rest) =
          .cons k (.qval w) (updateKeyKvp o1 nid1 rest) := rfl
      rw [heq]
      exact ⟨⟨hs, trivial, hr01⟩, hnk2, trivial, hrnd⟩

/-- One update_key pass permutes but never loses or duplicates the
walked ids. -/
theorem updateKey_idsM (o1 : String) (nid1 : Nat) (A : List String)
    (hfresh : A.contains (marker nid1) = false) :
    (∀ o, keysInObj A o = true →
      (↑(wIdsObj (updateKeyObj o1 nid1 o)) : Multiset Nat) =
        ↑(wIdsObj o)) ∧
    (∀ m, keysInKvp A m = true →
      (↑(wIdsKvp (updateKeyKvp o1 nid1 m)) : Multiset Nat) =
        ↑(wIdsKvp m)) := by
  apply objKvpInd
  · intro i sc nm asm len off kvp hq hk
    have hmid := hq hk
    have htop := ((updateKey_pres o1 nid1 A hfresh).2 kvp hk).2.2.2
    have hhk : kvpHasKey (updateKeyKvp o1 nid1 kvp) (marker nid1) =
        false := by
      rw [kvpHasKey_topKeys, htop, ← kvpHasKey_topKeys]
      exact hasKey_false_of_keysIn hk hfresh
    cases hl : kvpLookup (updateKeyKvp o1 nid1 kvp) o1 with
    | none =>
      have heq : updateKeyObj o1 nid1 (.qcode i sc nm asm len off kvp) =
          .qcode i sc nm (pyReplace asm o1 (marker nid1)) len off
            (updateKeyKvp o1 nid1 kvp) := by
        simp only [updateKeyObj, hl]
      rw [heq]
      rw [show wIdsObj (QObj.qcode i sc nm
          (pyReplace asm o1 (marker nid1)) len off
          (updateKeyKvp o1 nid1 kvp)) =
        i :: wIdsKvp (updateKeyKvp o1 nid1 kvp) from rfl,
        show wIdsObj (QObj.qcode i sc nm asm len off kvp) =
          i :: wIdsKvp kvp from rfl,
        ← Multiset.cons_coe, ← Multiset.cons_coe, hmid]
    | some e =>
      have heq : updateKeyObj o1 nid1 (.qcode i sc nm asm len off kvp) =
          .qcode i sc nm (pyReplace asm o1 (marker nid1)) len off
            (kvpSet (kvpErase (updateKeyKvp o1 nid1 kvp) o1) (marker nid1)
              e) := by
        simp only [updateKeyObj, hl]
      rw [heq]
      have her : kvpHasKey (kvpErase (updateKeyKvp o1 nid1 kvp) o1)
          (marker nid1) = false := hasKey_erase_false hhk
      rw [show wIdsObj (QObj.qcode i sc nm
          (pyReplace asm o1 (marker nid1)) len off
          (kvpSet (kvpErase (updateKeyKvp o1 nid1 kvp) o1) (marker nid1)
            e)) =
        i :: wIdsKvp (kvpSet (kvpErase (updateKeyKvp o1 nid1 kvp) o1)
          (marker nid1) e) from rfl,
        show wIdsObj (QObj.qcode i sc nm asm len off kvp) =
          i :: wIdsKvp kvp from rfl,
        ← Multiset.cons_coe, ← Multiset.cons_coe]
      rw [idsM_set_fresh e her, add_comm, ← idsM_erase hl, hmid]
  · intro i sc reg rhs hk
    rfl
  · intro i sc p hk
    rfl
  · intro v hk
    rfl
  · intro hk
    rfl
  · intro k v rest hv hrest hk
    rw [keysInKvp] at hk
    simp only [Bool.and_eq_true] at hk
    obtain ⟨⟨hk1, hk2⟩, hk3⟩ := hk
    have hr := hrest hk3
    cases v with
    | qcode a b c d e f g =>
      have hvv := hv hk2
      have heq : updateKeyKvp o1 nid1 (.cons k (.qcode a b c d e f g)
            rest) =
          .cons k (updateKeyObj o1 nid1 (.qcode a b c d e f g))
            (updateKeyKvp o1 nid1 rest) := rfl
      rw [heq, idsM_cons, idsM_cons, hvv, hr]
    | qassign i2 sc2 reg rhs =>
      have heq : updateKeyKvp o1 nid1 (.cons k (.qassign i2 sc2 reg rhs)
            rest) =
          .cons k (.qassign i2 sc2 reg rhs)
            (updateKeyKvp o1 nid1 rest) := rfl
      rw [heq, idsM_cons, idsM_cons, hr]
    | qlabel i2 sc2 p =>
      have heq : updateKeyKvp o1 nid1 (.cons k (.qlabel i2 sc2 p) rest) =
          .cons k (.qlabel i2 sc2 p) (updateKeyKvp o1 nid1 rest) := rfl
      rw [heq, idsM_cons, idsM_cons, hr]
    | qval w =>
      have heq : updateKeyKvp o1 nid1 (.cons k (.qval w) rest) =
          .cons k (.qval w) (updateKeyKvp o1 nid1 rest) := rfl
      rw [heq, idsM_cons, idsM_cons, hr]

/-- The update_key pass over the whole rename table of pairwise
distinct old keys and fresh pairwise distinct new ids establishes key
consistency, preserves key uniqueness, and permutes the walked ids. -/
theorem foldl_update_arr :
    ∀ (lut : List (String × Nat)) (A : List String) (o : QObj),
      ArrObj lut o → keysNodupObj o → keysInObj A o = true →
      (∀ p ∈ lut, A.contains (marker p.2) = false) →
      List.Pairwise (fun p q => p.1 ≠ q.1) lut →
      List.Pairwise (fun p q => p.2 ≠ q.2) lut →
      (∀ p ∈ lut, ∀ q ∈ lut, p.1 ≠ marker q.2) →
      ArrObj [] (lut.foldl (fun c p => updateKeyObj p.1 p.2 c) o) ∧
      keysNodupObj (lut.foldl (fun c p => updateKeyObj p.1 p.2 c) o) ∧
      (↑(wIdsObj (lut.foldl (fun c p => updateKeyObj p.1 p.2 c) o)) :
        Multiset Nat) = ↑(wIdsObj o) := by
  intro lut
  induction lut with
  | nil =>
    intro A o h1 h2 hk hf hp1 hp2 hpm
    exact ⟨h1, h2, rfl⟩
  | cons p rest ih =>
    intro A o h1 h2 hk hf hp1 hp2 hpm
    rw [List.foldl_cons]
    rw [List.pairwise_cons] at hp1 hp2
    have hfp := hf p (List.mem_cons_self _ _)
    have hdn : ∀ q ∈ rest, q.1 ≠ p.1 := fun q hq => (hp1.1 q hq).symm
    have hmk : ∀ q ∈ rest, q.1 ≠ marker p.2 := fun q hq =>
      hpm q (List.mem_cons_of_mem _ hq) p (List.mem_cons_self _ _)
    obtain ⟨ha2, hnd2⟩ := (updateKey_arr p.1 p.2 rest A hfp hdn hmk).1 o
      h1 h2 hk
    have hkeys2 := ((updateKey_pres p.1 p.2 A hfp).1 o hk).2.2
    have hids := (updateKey_idsM p.1 p.2 A hfp).1 o hk
    have hf2 : ∀ q ∈ rest, (A ++ [marker p.2]).contains (marker q.2) =
        false := by
      intro q hq
      exact contains_append_one_false (hf q (List.mem_cons_of_mem _ hq))
        fun he => (hp2.1 q hq) (marker_inj _ _ he).symm
    have hpm2 : ∀ q ∈ rest, ∀ r ∈ rest, q.1 ≠ marker r.2 := fun q hq r hr =>
      hpm q (List.mem_cons_of_mem _ hq) r (List.mem_cons_of_mem _ hr)
    obtain ⟨hA, hN, hI⟩ := ih (A ++ [marker p.2]) (updateKeyObj p.1 p.2 o)
      ha2 hnd2 hkeys2 hf2 hp1.2 hp2.2 hpm2
    exact ⟨hA, hN, hI.trans hids⟩

/-- The update_key pass keeps the keys inside the allowed list extended
by the new markers. -/
theorem foldl_update_keys :
    ∀ (lut : List (String × Nat)) (A : List String) (o : QObj),
      keysInObj A o = true →
      (∀ p ∈ lut, A.contains (marker p.2) = false) →
      List.Pairwise (fun p q => p.2 ≠ q.2) lut →
      keysInObj (A ++ lut.map (fun p => marker p.2))
        (lut.foldl (fun c p => updateKeyObj p.1 p.2 c) o) = true := by
  intro lut
  induction lut with
  | nil =>
    intro A o h _ _
    rw [List.map_nil, List.append_nil]
    exact h
  | cons p rest ih =>
    intro A o h hf hp2
    rw [List.foldl_cons]
    rw [List.pairwise_cons] at hp2
    have hfp := hf p (List.mem_cons_self _ _)
    have hkeys2 := ((updateKey_pres p.1 p.2 A hfp).1 o h).2.2
    have hf2 : ∀ q ∈ rest, (A ++ [marker p.2]).contains (marker q.2) =
        false := by
      intro q hq
      exact contains_append_one_false (hf q (List.mem_cons_of_mem _ hq))
        fun he => (hp2.1 q hq) (marker_inj _ _ he).symm
    have h2 := ih (A ++ [marker p.2]) (updateKeyObj p.1 p.2 o) hkeys2 hf2
      hp2.2
    rw [List.map_cons]
    rw [show A ++ marker p.2 :: List.map (fun p => marker p.2) rest =
      (A ++ [marker p.2]) ++ List.map (fun p => marker p.2) rest from by
        rw [List.append_assoc, List.singleton_append]]
    exact h2

/-- qick_copy of a consistent fragment yields a consistent fragment
carrying the fresh root id, with key-unique tables, keys among the
allocated markers, and duplicate-free walked ids drawn from the
original's ids and the freshly allocated range. -/
theorem qickCopyF_consistent {stack : List Nat} {top : Nat}
    {bi : Nat} {bsc : Option Nat} {bnm : Option String} {basm : String}
    {blen boff : QVal} {bkvp : Kvp} {c : QObj} {n n2 : Nat}
    (hstack : stack.getLast? = some top)
    (hbi : bi ≠ top) (htn : top ≠ n)
    (hcons : consKvp bkvp = true)
    (hknd : keysNodupKvp bkvp)
    (hkeys : keysInKvp (markersBelow n) bkvp = true)
    (hnd : (bi :: wIdsKvp bkvp).Nodup)
    (hb : ∀ j ∈ bi :: wIdsKvp bkvp, j < n)
    (h : qickCopyF stack (.qcode bi bsc bnm basm blen boff bkvp) n =
      .ok (c, n2)) :
    consObj c = true ∧ keysNodupObj c ∧ qidOf c = n ∧
    keysInObj (markersBelow n2) c = true ∧
    (wIdsObj c).Nodup ∧
    (∀ j ∈ wIdsObj c, j < n2) ∧
    (∀ j ∈ wIdsObj c, j ∈ wIdsKvp bkvp ∨ n ≤ j) ∧
    n ≤ n2 := by
  rw [qickCopyF, connectScope_false, hstack] at h
  obtain ⟨sc0, h0, h⟩ := exceptBind_ok h
  obtain rfl : some top = sc0 := by injection h0
  obtain ⟨⟨root2, st⟩, h3, h4⟩ := exceptBind_ok h
  simp only [pure, Except.pure, Except.ok.injEq, Prod.mk.injEq] at h4
  obtain ⟨rfl, rfl⟩ := h4
  rw [walkObj] at h3
  obtain ⟨⟨i2, sc2, st3⟩, h5, h6⟩ := exceptBind_ok h3
  have hfind : (⟨[marker n], [], [(marker bi, n)], n + 1⟩ :
      WSt).lut.find? (fun p => p.1 = marker top) = none := by
    have hne : marker bi ≠ marker top := fun he => hbi (marker_inj _ _ he)
    simp [List.find?, hne]
  have hcont : (⟨[marker n], [], [(marker bi, n)], n + 1⟩ :
      WSt).scopes.contains (marker top) = false := by
    have hne : marker top ≠ marker n := fun he => htn (marker_inj _ _ he)
    simp [hne]
  have hstep : stepIdScope n (some top)
      (⟨[marker n], [], [(marker bi, n)], n + 1⟩ : WSt) =
      .ok (n, some top, ⟨[marker n], [], [(marker bi, n)], n + 1⟩) :=
    stepIdScope_skip hfind hcont
  have h5x : (Except.ok (n, some top,
      (⟨[marker n], [], [(marker bi, n)], n + 1⟩ : WSt)) :
      Except Err (Nat × Option Nat × WSt)) = .ok (i2, sc2, st3) :=
    hstep.symm.trans h5
  obtain ⟨rfl, rfl, rfl⟩ : n = i2 ∧ some top = sc2 ∧
      (⟨[marker n], [], [(marker bi, n)], n + 1⟩ : WSt) = st3 := by
    simp only [Except.ok.injEq, Prod.mk.injEq] at h5x
    exact ⟨h5x.1, h5x.2.1, h5x.2.2⟩
  obtain ⟨⟨kvp2, st4⟩, h7, h8⟩ := exceptBind_ok h6
  simp only [pure, Except.pure, Except.ok.injEq, Prod.mk.injEq] at h8
  obtain ⟨rfl, rfl⟩ := h8
  obtain ⟨-, -, hwkeys⟩ := walk_anchors.2 bkvp _ _ _ h7
  obtain ⟨-, ext0, hlut, hbound, hpair⟩ := walk_stExt.2 bkvp _ _ _ h7
  have hbin : bi ∉ wIdsKvp bkvp := (List.nodup_cons.mp hnd).1
  have hndk : (wIdsKvp bkvp).Nodup := (List.nodup_cons.mp hnd).2
  have hjlt : ∀ j ∈ wIdsKvp bkvp, j < n := fun j hj =>
    hb j (List.mem_cons_of_mem _ hj)
  have hbi_lt : bi < n := hb bi (List.mem_cons_self _ _)
  have hdisj : ∀ j ∈ wIdsKvp bkvp,
      ∀ p ∈ (⟨[marker n], [], [(marker bi, n)], n + 1⟩ : WSt).lut,
        p.1 ≠ marker j := by
    intro j hj p hp
    obtain rfl : p = (marker bi, n) := List.mem_singleton.mp hp
    exact fun he => hbin (marker_inj _ _ he ▸ hj)
  obtain ⟨wsp, hfix, hkn, -⟩ := walk_wspec.2 bkvp _ kvp2 st4 h7 hndk hdisj
    (fun j hj => lt_trans (hjlt j hj) (Nat.lt_succ_self n))
  obtain ⟨hn1, ext, hext, hchar, hpost0, hpnd, hpb, hlnd⟩ := wsp
  have hn1b : n + 1 ≤ st4.n := hn1
  have hpost : ∀ j ∈ wIdsKvp kvp2,
      j ∈ wIdsKvp bkvp ∨ (n + 1 ≤ j ∧ j < st4.n) := hpost0
  have hbound2 : ∀ p ∈ ext0, n + 1 ≤ p.2 ∧ p.2 < st4.n := hbound
  have hlutnd : (st4.lut.map Prod.fst).Nodup := hlnd (by simp)
  have hnpost : n ∉ wIdsKvp kvp2 := by
    intro hmem
    rcases hpost n hmem with hmem2 | ⟨hge, -⟩
    · exact absurd (hjlt n hmem2) (lt_irrefl n)
    · omega
  have hL : ∀ p ∈ st4.lut, ∃ j, p.1 = marker j ∧
      j ∉ (n :: wIdsKvp kvp2) := by
    intro p hp
    rw [hext] at hp
    rcases List.mem_append.mp hp with hm | hm
    · obtain rfl : p = (marker bi, n) := List.mem_singleton.mp hm
      refine ⟨bi, rfl, fun hmem => ?_⟩
      rcases List.mem_cons.mp hmem with h1 | h1
      · omega
      · rcases hpost bi h1 with h2 | ⟨h2, -⟩
        · exact hbin h2
        · omega
    · obtain ⟨j, hj, hpj, hjn⟩ := hchar p hm
      refine ⟨j, hpj, fun hmem => ?_⟩
      rcases List.mem_cons.mp hmem with h1 | h1
      · have := hjlt j hj
        omega
      · exact hjn h1
  have harr : ArrKvp st4.lut kvp2 :=
    (Fixed_to_Arr st4.lut (n :: wIdsKvp kvp2) hL).2 kvp2 (hfix hcons)
      (fun j hj => List.mem_cons_of_mem _ hj)
  have hfl : ∀ p ∈ st4.lut, (markersBelow n).contains (marker p.2) =
      false := by
    intro p hp
    rw [hlut] at hp
    rcases List.mem_append.mp hp with hm | hm
    · obtain rfl : p = (marker bi, n) := List.mem_singleton.mp hm
      exact markersBelow_not_contains (le_refl n)
    · exact markersBelow_not_contains
        (le_trans (Nat.le_succ n) (hbound2 p hm).1)
  have hpl : List.Pairwise (fun p q => p.2 ≠ q.2)
      ((st4.lut : List (String × Nat))) := by
    rw [hlut, List.pairwise_append]
    refine ⟨by simp, List.Pairwise.imp (fun hlt => Nat.ne_of_lt hlt) hpair,
      ?_⟩
    intro p hp q hq
    obtain rfl : p = (marker bi, n) := List.mem_singleton.mp hp
    exact Nat.ne_of_lt (lt_of_lt_of_le (Nat.lt_succ_self n) (hbound2 q hq).1)
  have hpk : List.Pairwise (fun p q => p.1 ≠ q.1)
      ((st4.lut : List (String × Nat))) := by
    rw [List.Nodup, List.pairwise_map] at hlutnd
    exact hlutnd
  have hkey_lt : ∀ p ∈ st4.lut, ∃ j, p.1 = marker j ∧ j < n := by
    intro p hp
    rw [hext] at hp
    rcases List.mem_append.mp hp with hm | hm
    · obtain rfl : p = (marker bi, n) := List.mem_singleton.mp hm
      exact ⟨bi, rfl, hbi_lt⟩
    · obtain ⟨j, hj, hpj, -⟩ := hchar p hm
      exact ⟨j, hpj, hjlt j hj⟩
  have hnid_ge : ∀ q ∈ st4.lut, n ≤ q.2 := by
    intro q hq
    rw [hlut] at hq
    rcases List.mem_append.mp hq with hm | hm
    · obtain rfl : q = (marker bi, n) := List.mem_singleton.mp hm
      exact le_refl n
    · exact le_trans (Nat.le_succ n) (hbound2 q hm).1
  have hnid_lt : ∀ q ∈ st4.lut, q.2 < st4.n := by
    intro q hq
    rw [hlut] at hq
    rcases List.mem_append.mp hq with hm | hm
    · obtain rfl : q = (marker bi, n) := List.mem_singleton.mp hm
      omega
    · exact (hbound2 q hm).2
  have hpm : ∀ p ∈ st4.lut, ∀ q ∈ st4.lut, p.1 ≠ marker q.2 := by
    intro p hp q hq
    obtain ⟨j, hpj, hjl⟩ := hkey_lt p hp
    rw [hpj]
    intro he
    have hje := marker_inj _ _ he
    have := hnid_ge q hq
    omega
  obtain ⟨hA0, hN0, hI0⟩ := foldl_update_arr st4.lut (markersBelow n)
    (.qcode n (some top) bnm basm blen boff kvp2) harr (hkn hknd)
    (hwkeys (markersBelow n) hkeys) hfl hpk hpl hpm
  have hkeysF := foldl_update_keys st4.lut (markersBelow n)
    (.qcode n (some top) bnm basm blen boff kvp2)
    (hwkeys (markersBelow n) hkeys) hfl hpl
  have hI : (↑(wIdsObj (st4.lut.foldl (fun c p => updateKeyObj p.1 p.2 c)
      (.qcode n (some top) bnm basm blen boff kvp2))) : Multiset Nat) =
      ↑(n :: wIdsKvp kvp2) := hI0
  have hmemc : ∀ j ∈ wIdsObj (st4.lut.foldl
      (fun c p => updateKeyObj p.1 p.2 c)
      (.qcode n (some top) bnm basm blen boff kvp2)),
      j ∈ n :: wIdsKvp kvp2 := by
    intro j hj
    have h2 : j ∈ (↑(n :: wIdsKvp kvp2) : Multiset Nat) := by
      rw [← hI]
      exact Multiset.mem_coe.mpr hj
    exact Multiset.mem_coe.mp h2
  refine ⟨Arr_nil.1 _ hA0, hN0, ?_, ?_, ?_, ?_, ?_, ?_⟩
  · rw [(foldl_updateKey_fields st4.lut _).2.2]
    rfl
  · refine (keysIn_mono ?_).1 _ hkeysF
    intro s hs
    rw [List.elem_iff] at hs ⊢
    rcases List.mem_append.mp hs with hm | hm
    · obtain ⟨j, hjr, rfl⟩ := List.mem_map.mp hm
      rw [List.mem_range] at hjr
      exact List.mem_map.mpr ⟨j, List.mem_range.mpr (by omega), rfl⟩
    · obtain ⟨q, hq, rfl⟩ := List.mem_map.mp hm
      exact List.mem_map.mpr ⟨q.2, List.mem_range.mpr (hnid_lt q hq), rfl⟩
  · rw [← Multiset.coe_nodup, hI, Multiset.coe_nodup]
    exact List.nodup_cons.mpr ⟨hnpost, hpnd⟩
  · intro j hj
    rcases List.mem_cons.mp (hmemc j hj) with rfl | h1
    · omega
    · exact hpb j h1
  · intro j hj
    rcases List.mem_cons.mp (hmemc j hj) with rfl | h1
    · exact Or.inr (le_refl _)
    · rcases hpost j h1 with h2 | ⟨h2, -⟩
      · exact Or.inl h2
      · exact Or.inr (by omega)
  · omega

/-- How a counter-threaded rewrite may change a list of ids: surviving
ids come from the old list or the freshly allocated range, bounds are
maintained, and duplicate-freedom is preserved. -/
def ISpec (pre : List Nat) (n : Nat) (post : List Nat) (n2 : Nat) : Prop :=
  n ≤ n2 ∧ (∀ j ∈ post, j ∈ pre ∨ (n ≤ j ∧ j < n2)) ∧
  ((∀ j ∈ pre, j < n) → (∀ j ∈ post, j < n2)) ∧
  (pre.Nodup → (∀ j ∈ pre, j < n) → post.Nodup)

/-- A rewrite that touches nothing. -/
theorem ISpec_refl (pre : List Nat) (n : Nat) : ISpec pre n pre n :=
  ⟨le_refl _, fun j hj => Or.inl hj, fun hb j hj => hb j hj, fun hn _ => hn⟩

/-- A rewrite that replaces the ids by one fresh id. -/
theorem ISpec_fresh (pre : List Nat) (n : Nat) : ISpec pre n [n] (n + 1) := by
  refine ⟨Nat.le_succ _, ?_, ?_, fun _ _ => List.nodup_singleton _⟩
  · intro j hj
    rw [List.mem_singleton.mp hj]
    exact Or.inr ⟨le_refl _, Nat.lt_succ_self _⟩
  · intro hb j hj
    rw [List.mem_singleton.mp hj]
    exact Nat.lt_succ_self _

/-- Sequential composition of counter-threaded rewrites on concatenated
id lists. -/
theorem ISpec_comp {p1 p2 q1 q2 : List Nat} {n nm n2 : Nat}
    (h1 : ISpec p1 n q1 nm) (h2 : ISpec p2 nm q2 n2) :
    ISpec (p1 ++ p2) n (q1 ++ q2) n2 := by
  obtain ⟨hn1, hm1, hb1, hd1⟩ := h1
  obtain ⟨hn2, hm2, hb2, hd2⟩ := h2
  refine ⟨le_trans hn1 hn2, ?_, ?_, ?_⟩
  · intro j hj
    rcases List.mem_append.mp hj with hq | hq
    · rcases hm1 j hq with hp | ⟨hl, hr⟩
      · exact Or.inl (List.mem_append_left _ hp)
      · exact Or.inr ⟨hl, lt_of_lt_of_le hr hn2⟩
    · rcases hm2 j hq with hp | ⟨hl, hr⟩
      · exact Or.inl (List.mem_append_right _ hp)
      · exact Or.inr ⟨le_trans hn1 hl, hr⟩
  · intro hb j hj
    have hbp1 : ∀ j ∈ p1, j < n := fun j hj =>
      hb j (List.mem_append_left _ hj)
    have hbp2 : ∀ j ∈ p2, j < nm := fun j hj =>
      lt_of_lt_of_le (hb j (List.mem_append_right _ hj)) hn1
    rcases List.mem_append.mp hj with hq | hq
    · exact lt_of_lt_of_le (hb1 hbp1 j hq) hn2
    · exact hb2 hbp2 j hq
  · intro hnd hb
    rw [List.nodup_append] at hnd ⊢
    obtain ⟨hn1d, hn2d, hdd⟩ := hnd
    have hbp1 : ∀ j ∈ p1, j < n := fun j hj =>
      hb j (List.mem_append_left _ hj)
    have hbp2lt : ∀ j ∈ p2, j < n := fun j hj =>
      hb j (List.mem_append_right _ hj)
    have hbp2 : ∀ j ∈ p2, j < nm := fun j hj =>
      lt_of_lt_of_le (hbp2lt j hj) hn1
    refine ⟨hd1 hn1d hbp1, hd2 hn2d hbp2, ?_⟩
    intro j hjq1 hjq2
    have hq1b : j < nm := hb1 hbp1 j hjq1
    rcases hm1 j hjq1 with hp | ⟨hl, -⟩
    · rcases hm2 j hjq2 with hp2 | ⟨hl2, -⟩
      · exact hdd hp hp2
      · have := hbp1 j hp
        omega
    · rcases hm2 j hjq2 with hp2 | ⟨hl2, -⟩
      · have := hbp2lt j hp2
        omega
      · omega

/-- epoch_offset with a constant Time offset preserves key consistency,
key uniqueness, the allowed key set, and the anchor check, and only
replaces anchor right-hand-side ids by fresh ones. -/
theorem epoch_wf {li : Nat} {lsc : Option Nat} {lty : QTy} {da : PyRat}
    (hlty : lty.cls = some TyCls.tTime) :
    (∀ o, ∀ n o2 n2, ancOKObj o = true →
      epochOffsetF (.vconst li lsc lty da) o n = .ok (o2, n2) →
      (consObj o = true → consObj o2 = true) ∧
      (keysNodupObj o → keysNodupObj o2) ∧
      (∀ A, keysInObj A o = true → keysInObj A o2 = true) ∧
      ancOKObj o2 = true ∧
      ISpec (wIdsObj o) n (wIdsObj o2) n2) ∧
    (∀ m, ∀ ci n m2 n2, ancOKKvp m = true →
      epochOffsetKvp ci (.vconst li lsc lty da) m n = .ok (m2, n2) →
      topKeys m2 = topKeys m ∧
      (consKvp m = true → consKvp m2 = true) ∧
      (keysNodupKvp m → keysNodupKvp m2) ∧
      (∀ A, keysInKvp A m = true → keysInKvp A m2 = true) ∧
      ancOKKvp m2 = true ∧
      ISpec (wIdsKvp m) n (wIdsKvp m2) n2) := by
  apply objKvpInd
  · intro i sc nm asm len off kvp hq n o2 n2 hok h
    rw [epochOffsetF] at h
    obtain ⟨⟨kvp2, n3⟩, h1, h2⟩ := exceptBind_ok h
    simp only [pure, Except.pure, Except.ok.injEq, Prod.mk.injEq] at h2
    obtain ⟨rfl, rfl⟩ := h2
    obtain ⟨htk, hc, hn, hk, hok2, hisp⟩ := hq i n kvp2 n3 hok h1
    exact ⟨hc, hn, hk, hok2,
      ISpec_comp (ISpec_refl [i] n) hisp⟩
  · intro i sc reg rhs n o2 n2 hok h
    simp only [epochOffsetF, pure, Except.pure, Except.ok.injEq,
      Prod.mk.injEq] at h
    obtain ⟨rfl, rfl⟩ := h
    exact ⟨fun hc => hc, fun hn => hn, fun A hk => hk, hok, ISpec_refl _ _⟩
  · intro i sc p n o2 n2 hok h
    simp only [epochOffsetF, pure, Except.pure, Except.ok.injEq,
      Prod.mk.injEq] at h
    obtain ⟨rfl, rfl⟩ := h
    exact ⟨fun hc => hc, fun hn => hn, fun A hk => hk, hok, ISpec_refl _ _⟩
  · intro v n o2 n2 hok h
    simp only [epochOffsetF, pure, Except.pure, Except.ok.injEq,
      Prod.mk.injEq] at h
    obtain ⟨rfl, rfl⟩ := h
    exact ⟨fun hc => hc, fun hn => hn, fun A hk => hk, hok, ISpec_refl _ _⟩
  · intro ci n m2 n2 hok h
    simp only [epochOffsetKvp, pure, Except.pure, Except.ok.injEq,
      Prod.mk.injEq] at h
    obtain ⟨rfl, rfl⟩ := h
    exact ⟨rfl, fun hc => hc, fun hn => hn, fun A hk => hk, hok,
      ISpec_refl _ _⟩
  · intro k v rest hv hrest ci n m2 n2 hok h
    rw [ancOKKvp_cons] at hok
    simp only [Bool.and_eq_true] at hok
    cases v with
    | qcode a b c d e f g =>
      simp only [epochOffsetKvp] at h
      obtain ⟨⟨v2, n3⟩, h1, h2⟩ := exceptBind_ok h
      obtain ⟨⟨rest2, n4⟩, h3, h4⟩ := exceptBind_ok h2
      simp only [pure, Except.pure, Except.ok.injEq, Prod.mk.injEq] at h4
      obtain ⟨rfl, rfl⟩ := h4
      obtain ⟨kvp2, rfl⟩ := epochOffsetF_qcode_ok h1
      obtain ⟨hvc, hvn, hvk, hvok, hvi⟩ :=
        hv n (QObj.qcode a b c d e f kvp2) n3 hok.1 h1
      obtain ⟨hrt, hrc, hrn, hrk, hrok, hri⟩ :=
        hrest ci n3 rest2 n4 hok.2 h3
      refine ⟨?_, ?_, ?_, ?_, ?_, ?_⟩
      · rw [topKeys, topKeys, hrt]
      · intro hc
        rw [show consKvp (.cons k (QObj.qcode a b c d e f g) rest) =
          ((k == keyOf (QObj.qcode a b c d e f g)) &&
            consObj (QObj.qcode a b c d e f g) && consKvp rest) from rfl]
          at hc
        rw [show consKvp (.cons k (QObj.qcode a b c d e f kvp2) rest2) =
          ((k == keyOf (QObj.qcode a b c d e f kvp2)) &&
            consObj (QObj.qcode a b c d e f kvp2) && consKvp rest2)
          from rfl]
        simp only [Bool.and_eq_true] at hc ⊢
        exact ⟨⟨hc.1.1, hvc hc.1.2⟩, hrc hc.2⟩
      · intro hn
        obtain ⟨hn1, hn2, hn3⟩ := hn
        refine ⟨?_, hvn hn2, hrn hn3⟩
        rw [kvpHasKey_topKeys, hrt, ← kvpHasKey_topKeys]
        exact hn1
      · intro A hk
        rw [keysInKvp] at hk ⊢
        simp only [Bool.and_eq_true] at hk ⊢
        exact ⟨⟨hk.1.1, hvk A hk.1.2⟩, hrk A hk.2⟩
      · rw [ancOKKvp_cons]
        simp only [Bool.and_eq_true]
        exact ⟨hvok, hrok⟩
      · exact ISpec_comp hvi hri
    | qassign i sc2 reg rhs =>
      simp only [epochOffsetKvp] at h
      by_cases hreg : regNameOf reg = some "out_usr_time"
      · rw [if_pos hreg] at h
        have hconst : anchorConst rhs = true := by
          have := hok.1
          rw [entryAncOK, if_pos hreg] at this
          exact this
        cases rhs with
        | vconst ri rsc rty w =>
          have hrty : rty.cls = some TyCls.tTime := by
            rw [anchorConst] at hconst
            exact beq_iff_eq.mp hconst
          rw [pyAddV_const_const (show [ci].getLast? = some ci from rfl)
            ri li rsc lsc hrty hlty w da n] at h
          obtain ⟨⟨rhs2, n3⟩, h1, h2⟩ := exceptBind_ok h
          simp only [Except.ok.injEq, Prod.mk.injEq] at h1
          obtain ⟨rfl, rfl⟩ := h1.symm
          obtain ⟨⟨rest2, n4⟩, h3, h4⟩ := exceptBind_ok h2
          simp only [pure, Except.pure, Except.ok.injEq, Prod.mk.injEq]
            at h4
          obtain ⟨rfl, rfl⟩ := h4
          obtain ⟨hrt, hrc, hrn, hrk, hrok, hri⟩ :=
            hrest ci (n + 1) rest2 n4 hok.2 h3
          refine ⟨?_, ?_, ?_, ?_, ?_, ?_⟩
          · rw [topKeys, topKeys, hrt]
          · intro hc
            rw [show consKvp (.cons k (QObj.qassign i sc2 reg
                (QVal.vconst ri rsc rty w)) rest) =
              ((k == keyOf (QObj.qassign i sc2 reg
                (QVal.vconst ri rsc rty w))) && true && consKvp rest)
              from rfl] at hc
            simp only [Bool.and_eq_true] at hc
            rw [show consKvp (.cons k (QObj.qassign i sc2 reg
                (scopecastVal (some ci) (QVal.vconst n (some ci)
                  ⟨some TyCls.tTime, none, none⟩ (w.padd da)))) rest2) =
              ((k == keyOf (QObj.qassign i sc2 reg
                (scopecastVal (some ci) (QVal.vconst n (some ci)
                  ⟨some TyCls.tTime, none, none⟩ (w.padd da))))) && true &&
                consKvp rest2) from rfl]
            simp only [Bool.and_eq_true]
            exact ⟨⟨hc.1.1, trivial⟩, hrc hc.2⟩
          · intro hn
            obtain ⟨hn1, hn2, hn3⟩ := hn
            refine ⟨?_, trivial, hrn hn3⟩
            rw [kvpHasKey_topKeys, hrt, ← kvpHasKey_topKeys]
            exact hn1
          · intro A hk
            rw [keysInKvp] at hk ⊢
            simp only [Bool.and_eq_true] at hk ⊢
            exact ⟨⟨hk.1.1, rfl⟩, hrk A hk.2⟩
          · rw [ancOKKvp_cons]
            simp only [Bool.and_eq_true]
            refine ⟨?_, hrok⟩
            rw [entryAncOK, if_pos hreg]
            rfl
          · refine ISpec_comp (ISpec_comp (ISpec_refl (i :: wIdsVal reg) n)
              (ISpec_fresh [ri] n)) hri
        | vreg ri rsc rnm rty => simp [anchorConst] at hconst
        | vexpr ri rsc l op r rty => simp [anchorConst] at hconst
      · rw [if_neg hreg] at h
        obtain ⟨⟨rest2, n4⟩, h3, h4⟩ := exceptBind_ok h
        simp only [pure, Except.pure, Except.ok.injEq, Prod.mk.injEq] at h4
        obtain ⟨rfl, rfl⟩ := h4
        obtain ⟨hrt, hrc, hrn, hrk, hrok, hri⟩ := hrest ci n rest2 n4 hok.2 h3
        refine ⟨?_, ?_, ?_, ?_, ?_, ?_⟩
        · rw [topKeys, topKeys, hrt]
        · intro hc
          rw [show consKvp (.cons k (QObj.qassign i sc2 reg rhs) rest) =
            ((k == keyOf (QObj.qassign i sc2 reg rhs)) && true &&
              consKvp rest) from rfl] at hc
          rw [show consKvp (.cons k (QObj.qassign i sc2 reg rhs) rest2) =
            ((k == keyOf (QObj.qassign i sc2 reg rhs)) && true &&
              consKvp rest2) from rfl]
          simp only [Bool.and_eq_true] at hc ⊢
          exact ⟨hc.1, hrc hc.2⟩
        · intro hn
          obtain ⟨hn1, hn2, hn3⟩ := hn
          refine ⟨?_, trivial, hrn hn3⟩
          rw [kvpHasKey_topKeys, hrt, ← kvpHasKey_topKeys]
          exact hn1
        · intro A hk
          rw [keysInKvp] at hk ⊢
          simp only [Bool.and_eq_true] at hk ⊢
          exact ⟨hk.1, hrk A hk.2⟩
        · rw [ancOKKvp_cons]
          simp only [Bool.and_eq_true]
          exact ⟨hok.1, hrok⟩
        · exact ISpec_comp (ISpec_refl _ n) hri
    | qlabel i sc2 p =>
      simp only [epochOffsetKvp] at h
      obtain ⟨⟨rest2, n4⟩, h3, h4⟩ := exceptBind_ok h
      simp only [pure, Except.pure, Except.ok.injEq, Prod.mk.injEq] at h4
      obtain ⟨rfl, rfl⟩ := h4
      obtain ⟨hrt, hrc, hrn, hrk, hrok, hri⟩ := hrest ci n rest2 n4 hok.2 h3
      refine ⟨?_, ?_, ?_, ?_, ?_, ?_⟩
      · rw [topKeys, topKeys, hrt]
      · intro hc
        rw [show consKvp (.cons k (QObj.qlabel i sc2 p) rest) =
          ((k == keyOf (QObj.qlabel i sc2 p)) && true && consKvp rest)
          from rfl] at hc
        rw [show consKvp (.cons k (QObj.qlabel i sc2 p) rest2) =
          ((k == keyOf (QObj.qlabel i sc2 p)) && true && consKvp rest2)
          from rfl]
        simp only [Bool.and_eq_true] at hc ⊢
        exact ⟨hc.1, hrc hc.2⟩
      · intro hn
        obtain ⟨hn1, hn2, hn3⟩ := hn
        refine ⟨?_, trivial, hrn hn3⟩
        rw [kvpHasKey_topKeys, hrt, ← kvpHasKey_topKeys]
        exact hn1
      · intro A hk
        rw [keysInKvp] at hk ⊢
        simp only [Bool.and_eq_true] at hk ⊢
        exact ⟨hk.1, hrk A hk.2⟩
      · rw [ancOKKvp_cons]
        simp only [Bool.and_eq_true]
        exact ⟨hok.1, hrok⟩
      · exact ISpec_comp (ISpec_refl _ n) hri
    | qval w =>
      simp only [epochOffsetKvp] at h
      obtain ⟨⟨rest2, n4⟩, h3, h4⟩ := exceptBind_ok h
      simp only [pure, Except.pure, Except.ok.injEq, Prod.mk.injEq] at h4
      obtain ⟨rfl, rfl⟩ := h4
      obtain ⟨hrt, hrc, hrn, hrk, hrok, hri⟩ := hrest ci n rest2 n4 hok.2 h3
      refine ⟨?_, ?_, ?_, ?_, ?_, ?_⟩
      · rw [topKeys, topKeys, hrt]
      · intro hc
        rw [show consKvp (.cons k (QObj.qval w) rest) =
          ((k == keyOf (QObj.qval w)) && true && consKvp rest)
          from rfl] at hc
        rw [show consKvp (.cons k (QObj.qval w) rest2) =
          ((k == keyOf (QObj.qval w)) && true && consKvp rest2)
          from rfl]
        simp only [Bool.and_eq_true] at hc ⊢
        exact ⟨hc.1, hrc hc.2⟩
      · intro hn
        obtain ⟨hn1, hn2, hn3⟩ := hn
        refine ⟨?_, trivial, hrn hn3⟩
        rw [kvpHasKey_topKeys, hrt, ← kvpHasKey_topKeys]
        exact hn1
      · intro A hk
        rw [keysInKvp] at hk ⊢
        simp only [Bool.and_eq_true] at hk ⊢
        exact ⟨hk.1, hrk A hk.2⟩
      · rw [ancOKKvp_cons]
        simp only [Bool.and_eq_true]
        exact ⟨hok.1, hrok⟩
      · exact ISpec_comp (ISpec_refl _ n) hri

/-- Structurally equal objects carry the same id. -/
theorem qeq_qid {v w : QObj} (h : qeqObj v w = true) :
    qidOf v = qidOf w := by
  cases v with
  | qcode i sc nm asm len off kvp =>
    cases w with
    | qcode j sc2 nm2 asm2 len2 off2 kvp2 =>
      rw [qeqObj] at h
      simp only [Bool.and_eq_true, beq_iff_eq] at h
      exact h.1.1.1.1.1.1
    | qassign j sc2 r rhs => exact absurd h (by rw [qeqObj] <;> simp)
    | qlabel j sc2 p => exact absurd h (by rw [qeqObj] <;> simp)
    | qval w2 => exact absurd h (by rw [qeqObj] <;> simp)
  | qassign i sc r rhs =>
    cases w with
    | qcode j sc2 nm2 asm2 len2 off2 kvp2 =>
      exact absurd h (by rw [qeqObj] <;> simp)
    | qassign j sc2 r2 rhs2 =>
      rw [qeqObj] at h
      simp only [Bool.and_eq_true, beq_iff_eq] at h
      exact h.1.1.1
    | qlabel j sc2 p => exact absurd h (by rw [qeqObj] <;> simp)
    | qval w2 => exact absurd h (by rw [qeqObj] <;> simp)
  | qlabel i sc p =>
    cases w with
    | qcode j sc2 nm2 asm2 len2 off2 kvp2 =>
      exact absurd h (by rw [qeqObj] <;> simp)
    | qassign j sc2 r2 rhs2 => exact absurd h (by rw [qeqObj] <;> simp)
    | qlabel j sc2 p2 =>
      rw [qeqObj] at h
      simp only [Bool.and_eq_true, beq_iff_eq] at h
      exact h.1.1
    | qval w2 => exact absurd h (by rw [qeqObj] <;> simp)
  | qval v2 =>
    cases w with
    | qcode j sc2 nm2 asm2 len2 off2 kvp2 =>
      exact absurd h (by rw [qeqObj] <;> simp)
    | qassign j sc2 r2 rhs2 => exact absurd h (by rw [qeqObj] <;> simp)
    | qlabel j sc2 p2 => exact absurd h (by rw [qeqObj] <;> simp)
    | qval w2 =>
      rw [qeqObj] at h
      rw [show qidOf (QObj.qval v2) = qidOfVal v2 from rfl,
        show qidOf (QObj.qval w2) = qidOfVal w2 from rfl,
        beq_iff_eq.mp h]

/-- The id of a value found in a table is among the table's walked
ids. -/
theorem lookup_qid_mem {k : String} :
    ∀ {m : Kvp} {w : QObj}, kvpLookup m k = some w →
      qidOf w ∈ wIdsKvp m := by
  intro m
  induction m using kvpInd with
  | hnil => intro w h; exact Option.noConfusion h
  | hcons k0 v rest ih =>
    intro w h
    rw [kvpLookup] at h
    rw [show wIdsKvp (.cons k0 v rest) = wIdsObj v ++ wIdsKvp rest
      from rfl]
    by_cases hk : k0 = k
    · rw [if_pos hk] at h
      obtain rfl : v = w := by injection h
      exact List.mem_append_left _ (qid_mem_wIds v)
    · rw [if_neg hk] at h
      exact List.mem_append_right _ (ih h)

/-- Redirecting an object's scope changes none of the observations the
symbol-table invariants make. -/
theorem setScope_props (sc : Option Nat) (v : QObj) :
    qidOf (setScopeObj sc v) = qidOf v ∧
    consObj (setScopeObj sc v) = consObj v ∧
    (keysNodupObj (setScopeObj sc v) ↔ keysNodupObj v) ∧
    wIdsObj (setScopeObj sc v) = wIdsObj v ∧
    (∀ A, keysInObj A (setScopeObj sc v) = keysInObj A v) ∧
    entryAncOK (setScopeObj sc v) = entryAncOK v := by
  cases v with
  | qcode i sc2 nm asm len off kvp =>
    exact ⟨rfl, rfl, Iff.rfl, rfl, fun A => rfl, rfl⟩
  | qassign i sc2 reg rhs =>
    exact ⟨rfl, rfl, Iff.rfl, rfl, fun A => rfl, rfl⟩
  | qlabel i sc2 p =>
    exact ⟨rfl, rfl, Iff.rfl, rfl, fun A => rfl, rfl⟩
  | qval w =>
    cases w with
    | vconst j sc2 ty c =>
      exact ⟨rfl, rfl, Iff.rfl, rfl, fun A => rfl, rfl⟩
    | vreg j sc2 nm ty =>
      exact ⟨rfl, rfl, Iff.rfl, rfl, fun A => rfl, rfl⟩
    | vexpr j sc2 l op r ty =>
      exact ⟨rfl, rfl, Iff.rfl, rfl, fun A => rfl, rfl⟩

/-- Appending a fresh consistent entry under its own key preserves key
consistency. -/
theorem cons_set_fresh {nk : String} {e : QObj} (hke : nk = keyOf e)
    (hce : consObj e = true) :
    ∀ {m : Kvp}, consKvp m = true → kvpHasKey m nk = false →
      consKvp (kvpSet m nk e) = true := by
  intro m
  induction m using kvpInd with
  | hnil =>
    intro h hf
    rw [kvpSet]
    rw [show consKvp (.cons nk e .nil) =
      ((nk == keyOf e) && consObj e && true) from rfl]
    simp [hke, hce]
  | hcons k v rest ih =>
    intro h hf
    rw [kvpHasKey_cons] at hf
    simp only [Bool.or_eq_false_iff, beq_eq_false_iff_ne] at hf
    rw [kvpSet, if_neg hf.1]
    rw [show consKvp (.cons k v rest) =
      ((k == keyOf v) && consObj v && consKvp rest) from rfl] at h
    rw [show consKvp (.cons k v (kvpSet rest nk e)) =
      ((k == keyOf v) && consObj v && consKvp (kvpSet rest nk e))
      from rfl]
    simp only [Bool.and_eq_true] at h ⊢
    exact ⟨h.1, ih h.2 hf.2⟩

/-- merge_kvp of tables with disjoint walked ids: every incoming key is
fresh for the target (a shared key would require a shared id), so the
merge appends the scope-redirected incoming entries, preserving every
invariant and summing the walked ids. -/
theorem mergeKvp_props (selfQid : Nat) (A : List String) :
    ∀ (inc : Kvp), ∀ (target : Kvp) (res : Kvp),
      mergeKvpF selfQid target inc = .ok res →
      consKvp target = true → consKvp inc = true →
      keysNodupKvp target → keysNodupKvp inc →
      (wIdsKvp inc).Nodup →
      keysInKvp A target = true → keysInKvp A inc = true →
      ancOKKvp target = true → ancOKKvp inc = true →
      (∀ j ∈ wIdsKvp inc, j ∉ wIdsKvp target) →
      consKvp res = true ∧ keysNodupKvp res ∧
      keysInKvp A res = true ∧ ancOKKvp res = true ∧
      (↑(wIdsKvp res) : Multiset Nat) =
        ↑(wIdsKvp target) + ↑(wIdsKvp inc) := by
  intro inc
  induction inc using kvpInd with
  | hnil =>
    intro target res h hct hci hnt hni hndi hkt hki hot hoi hdisj
    obtain rfl : target = res := by
      rw [mergeKvpF] at h
      injection h
    refine ⟨hct, hnt, hkt, hot, ?_⟩
    rw [show wIdsKvp Kvp.nil = [] from rfl]
    simp
  | hcons k v rest ih =>
    intro target res h hct hci hnt hni hndi hkt hki hot hoi hdisj
    rw [show consKvp (.cons k v rest) =
      ((k == keyOf v) && consObj v && consKvp rest) from rfl] at hci
    simp only [Bool.and_eq_true, beq_iff_eq] at hci
    obtain ⟨⟨hkeq, hcv⟩, hcr⟩ := hci
    obtain ⟨hhk, hnv, hnr⟩ := hni
    rw [show wIdsKvp (.cons k v rest) = wIdsObj v ++ wIdsKvp rest
      from rfl] at hndi hdisj
    rw [List.nodup_append] at hndi
    obtain ⟨hndv, hndr, hvr⟩ := hndi
    rw [keysInKvp] at hki
    simp only [Bool.and_eq_true] at hki
    obtain ⟨⟨hkk, hkv⟩, hkr⟩ := hki
    rw [ancOKKvp_cons] at hoi
    simp only [Bool.and_eq_true] at hoi
    rw [mergeKvpF] at h
    cases hlook : kvpLookup target k with
    | some w =>
      rw [hlook] at h
      exfalso
      by_cases hq : qeqObj v w = true
      · have hqv : qidOf v ∈ wIdsObj v := qid_mem_wIds v
        have hqw : qidOf w ∈ wIdsKvp target := lookup_qid_mem hlook
        exact hdisj (qidOf v) (List.mem_append_left _ hqv)
          (qeq_qid hq ▸ hqw)
      · have h2 : (if qeqObj v w = true then
            mergeKvpF selfQid
              (kvpSet target k (setScopeObj (some selfQid) v)) rest
          else
            (.error (.runtime "Internal error merging key-value pairs. Key already exists with different value.") :
              Except Err Kvp)) = .ok res := h
        rw [if_neg hq] at h2
        exact Except.noConfusion h2
    | none =>
      rw [hlook] at h
      have h2 : mergeKvpF selfQid
          (kvpSet target k (setScopeObj (some selfQid) v)) rest =
          .ok res := h
      have hfree : kvpHasKey target k = false := by
        rw [kvpHasKey, hlook]
        rfl
      obtain ⟨hq1, hq2, hq3, hq4, hq5, hq6⟩ :=
        setScope_props (some selfQid) v
      have hdisj2 : ∀ j ∈ wIdsKvp rest,
          j ∉ wIdsKvp (kvpSet target k (setScopeObj (some selfQid) v)) := by
        intro j hj hmem
        have hj2 : j ∈ (↑(wIdsKvp target) + ↑(wIdsObj v) :
            Multiset Nat) := by
          rw [← hq4, ← idsM_set_fresh _ hfree]
          exact Multiset.mem_coe.mpr hmem
        rw [Multiset.mem_add] at hj2
        rcases hj2 with hj2 | hj2
        · exact hdisj j (List.mem_append_right _ hj)
            (Multiset.mem_coe.mp hj2)
        · exact hvr (Multiset.mem_coe.mp hj2) hj
      obtain ⟨hc2, hn2, hk2, ho2, hi2⟩ :=
        ih (kvpSet target k (setScopeObj (some selfQid) v)) res h2
        (cons_set_fresh (by rw [keyOf, hq1, ← keyOf, ← hkeq])
          (by rw [hq2]; exact hcv) hct hfree)
        hcr
        (keysNodup_set_fresh (hq3.mpr hnv) hnt hfree)
        hnr hndr
        (keysInKvp_set hkt (by rw [hq5]; exact hkv) hkk)
        hkr
        (by rw [ancOK_set_fresh _ hfree, hq6]
            simp only [Bool.and_eq_true]
            exact ⟨hot, hoi.1⟩)
        hoi.2
        hdisj2
      refine ⟨hc2, hn2, hk2, ho2, ?_⟩
      rw [hi2, idsM_set_fresh _ hfree, hq4]
      rw [show wIdsKvp (.cons k v rest) = wIdsObj v ++ wIdsKvp rest
        from rfl, ← Multiset.coe_add]
      rw [add_assoc]

/-- The marker of an allocated id is an allowed key. -/
theorem markersBelow_contains {j n : Nat} (h : j < n) :
    (markersBelow n).contains (marker j) = true := by
  rw [List.elem_iff]
  exact List.mem_map.mpr ⟨j, List.mem_range.mpr h, rfl⟩

/-- Growing the allocator only enlarges the allowed key list. -/
theorem markersBelow_sub {n n2 : Nat} (h : n ≤ n2) :
    ∀ s, (markersBelow n).contains s = true →
      (markersBelow n2).contains s = true := by
  intro s hs
  rw [List.elem_iff] at hs ⊢
  obtain ⟨j, hj, rfl⟩ := List.mem_map.mp hs
  rw [List.mem_range] at hj
  exact List.mem_map.mpr ⟨j, List.mem_range.mpr (by omega), rfl⟩

/-- In a consistent table every lookup returns an object whose own key
is the looked-up key. -/
theorem cons_lookup : ∀ {m : Kvp}, consKvp m = true →
    ∀ {k : String} {v : QObj}, kvpLookup m k = some v → k = keyOf v := by
  intro m
  induction m using kvpInd with
  | hnil => intro h k v hl; exact Option.noConfusion hl
  | hcons k0 w rest ih =>
    intro h k v hl
    rw [show consKvp (.cons k0 w rest) =
      ((k0 == keyOf w) && consObj w && consKvp rest) from rfl] at h
    simp only [Bool.and_eq_true, beq_iff_eq] at h
    rw [kvpLookup] at hl
    by_cases hk : k0 = k
    · rw [if_pos hk] at hl
      obtain rfl : w = v := by injection hl
      rw [← hk]
      exact h.1.1
    · rw [if_neg hk] at hl
      exact ih h.2 hl

/-- Whether a fragment's duration is a statically known Time
constant. -/
def lenTimeConst (o : QObj) : Prop :=
  ∃ li lsc lty da, lengthOf o = QVal.vconst li lsc lty da ∧
    lty.cls = some TyCls.tTime

/-- Well-formedness of one live fragment at allocator counter n: key
consistency, per-table key uniqueness, keys among the allocated
markers, duplicate-free walked ids below the counter, constant Time
anchors, a statically known Time duration, and code shape. -/
def FragWF (n : Nat) (o : QObj) : Prop :=
  consObj o = true ∧ keysNodupObj o ∧
  keysInObj (markersBelow n) o = true ∧
  (wIdsObj o).Nodup ∧ (∀ j ∈ wIdsObj o, j < n) ∧
  ancOKObj o = true ∧ lenTimeConst o ∧
  ∃ i sc nm asm len off kvp, o = QObj.qcode i sc nm asm len off kvp

/-- Disjointness of the walked ids of two fragments (the tree model
gives each fragment its own objects). -/
def Disj (o o2 : QObj) : Prop := ∀ j ∈ wIdsObj o, j ∉ wIdsObj o2

/-- A world: the global id allocator and the live fragments. -/
structure World where
  n : Nat
  frags : List QObj

/-- The global invariant: every live fragment is well formed and no two
live fragments share an id. -/
def WorldWF (w : World) : Prop :=
  (∀ o ∈ w.frags, FragWF w.n o) ∧ List.Pairwise Disj w.frags

/-- The fragment-building steps of the library: Fragment construction
(QickCode.__init__), registration of a freshly built object under its
own key (QickObject.key), add, parallel (both of which clone, rewrite
and merge via qick_copy, epoch_offset, update_key and merge_kvp), a
bare qick_copy, and reordering of the live list.  add, parallel and
qick_copy consume their operand: the clone shares the ids of unrenamed
grandchildren with the original, as the aliasing semantics of the
source dictates. -/
inductive Step : World → World → Prop where
  | newFrag (n : Nat) (frags : List QObj) (ambient : List Nat)
      (nm : Option String) :
      Step ⟨n, frags⟩
        ⟨(mkCodeF ambient nm n).2, (mkCodeF ambient nm n).1 :: frags⟩
  | registerStep (n n2 i : Nat) (sc : Option Nat) (nm : Option String)
      (asm : String) (len off : QVal) (kvp : Kvp) (rest : List QObj)
      (o : QObj) :
      consObj o = true → keysNodupObj o →
      entryAncOK o = true → ancOKObj o = true →
      keysInObj (markersBelow n2) o = true →
      (wIdsObj o).Nodup → (∀ j ∈ wIdsObj o, n ≤ j ∧ j < n2) → n ≤ n2 →
      Step ⟨n, QObj.qcode i sc nm asm len off kvp :: rest⟩
        ⟨n2, QObj.qcode i sc nm asm len off
          (kvpSet kvp (keyOf o) o) :: rest⟩
  | addStep (n n2 : Nat) (ambient : List Nat) (a b a2 : QObj)
      (rest : List QObj) :
      addH ambient a b n = .ok (a2, n2) →
      Step ⟨n, a :: b :: rest⟩ ⟨n2, a2 :: rest⟩
  | parallelStep (n n2 : Nat) (ambient : List Nat) (auto : Bool)
      (a b a2 : QObj) (rest : List QObj) :
      parallelH ambient a b auto n = .ok (a2, n2) →
      Step ⟨n, a :: b :: rest⟩ ⟨n2, a2 :: rest⟩
  | cloneStep (n n2 : Nat) (stack : List Nat) (top : Nat) (b c : QObj)
      (rest : List QObj) :
      stack.getLast? = some top → qidOf b ≠ top → top ≠ n →
      qickCopyF stack b n = .ok (c, n2) →
      Step ⟨n, b :: rest⟩ ⟨n2, c :: rest⟩
  | permStep (n : Nat) (frags frags2 : List QObj) :
      frags.Perm frags2 → Step ⟨n, frags⟩ ⟨n, frags2⟩

/-- Fragment well-formedness is monotone in the allocator. -/
theorem FragWF_mono {n n2 : Nat} (h : n ≤ n2) {o : QObj}
    (hf : FragWF n o) : FragWF n2 o := by
  obtain ⟨h1, h2, h3, h4, h5, h6, h7, h8⟩ := hf
  exact ⟨h1, h2, (keysIn_mono (markersBelow_sub h)).1 o h3, h4,
    fun j hj => lt_of_lt_of_le (h5 j hj) h, h6, h7, h8⟩

/-- Fragment id disjointness is symmetric. -/
theorem Disj_symm : Symmetric Disj := by
  intro o o2 h j hj hj2
  exact h j hj2 hj

/-- Introduction form of the world invariant. -/
theorem WorldWF_mk (n : Nat) (frags : List QObj)
    (h1 : ∀ o ∈ frags, FragWF n o) (h2 : List.Pairwise Disj frags) :
    WorldWF ⟨n, frags⟩ := ⟨h1, h2⟩

/-- A fresh Fragment preserves the world invariant. -/
theorem newFrag_wf {n : Nat} {frags : List QObj} (ambient : List Nat)
    (nm : Option String) (hwf : WorldWF ⟨n, frags⟩) :
    WorldWF ⟨(mkCodeF ambient nm n).2,
      (mkCodeF ambient nm n).1 :: frags⟩ := by
  obtain ⟨hall0, hpair0⟩ := hwf
  have hall : ∀ o ∈ frags, FragWF n o := hall0
  have hpair : List.Pairwise Disj frags := hpair0
  show (∀ o ∈ (mkCodeF ambient nm n).1 :: frags,
      FragWF (mkCodeF ambient nm n).2 o) ∧
    List.Pairwise Disj ((mkCodeF ambient nm n).1 :: frags)
  constructor
  · intro o ho
    rcases List.mem_cons.mp ho with rfl | ho2
    · refine ⟨rfl, trivial, rfl, ?_, ?_, rfl, ?_, ?_⟩
      · exact List.nodup_singleton n
      · intro j hj
        have hje : j = n := List.mem_singleton.mp hj
        show j < n + 3
        omega
      · exact ⟨n + 1, some n, timeTy, .ofInt 0, rfl, rfl⟩
      · exact ⟨n, ambient.getLast?, nm, "",
          .vconst (n + 1) (some n) timeTy (.ofInt 0),
          .vconst (n + 2) (some n) timeTy (.ofInt 0), .nil, rfl⟩
    · exact FragWF_mono (show n ≤ n + 3 by omega) (hall o ho2)
  · refine List.pairwise_cons.mpr ⟨?_, hpair⟩
    intro o ho j hj hjo
    have hje : j = n := List.mem_singleton.mp hj
    have hb := (hall o ho).2.2.2.2.1 j hjo
    omega

/-- Registration of a fresh, self-consistent object under its own key
preserves the world invariant. -/
theorem register_wf {n n2 i : Nat} {sc : Option Nat} {nm : Option String}
    {asm : String} {len off : QVal} {kvp : Kvp} {rest : List QObj}
    {o : QObj}
    (hco : consObj o = true) (hno : keysNodupObj o)
    (heo : entryAncOK o = true)
    (hko : keysInObj (markersBelow n2) o = true)
    (hdo : (wIdsObj o).Nodup)
    (hbo : ∀ j ∈ wIdsObj o, n ≤ j ∧ j < n2) (hnn : n ≤ n2)
    (hwf : WorldWF ⟨n, QObj.qcode i sc nm asm len off kvp :: rest⟩) :
    WorldWF ⟨n2, QObj.qcode i sc nm asm len off
      (kvpSet kvp (keyOf o) o) :: rest⟩ := by
  obtain ⟨hall0, hpair0⟩ := hwf
  have hall : ∀ f ∈ QObj.qcode i sc nm asm len off kvp :: rest,
      FragWF n f := hall0
  have hpair : List.Pairwise Disj
      (QObj.qcode i sc nm asm len off kvp :: rest) := hpair0
  show (∀ f ∈ QObj.qcode i sc nm asm len off
      (kvpSet kvp (keyOf o) o) :: rest, FragWF n2 f) ∧
    List.Pairwise Disj (QObj.qcode i sc nm asm len off
      (kvpSet kvp (keyOf o) o) :: rest)
  have hf := hall _ (List.mem_cons_self _ _)
  obtain ⟨h1, h2, h3, h4, h5, h6, h7, -⟩ := hf
  have h1k : consKvp kvp = true := h1
  have h2k : keysNodupKvp kvp := h2
  have h3k : keysInKvp (markersBelow n) kvp = true := h3
  have h4k : (i :: wIdsKvp kvp).Nodup := h4
  have h5k : ∀ j ∈ i :: wIdsKvp kvp, j < n := h5
  have h6k : ancOKKvp kvp = true := h6
  have hqo : n ≤ qidOf o := (hbo _ (qid_mem_wIds o)).1
  have hqo2 : qidOf o < n2 := (hbo _ (qid_mem_wIds o)).2
  have hfree : kvpHasKey kvp (keyOf o) = false := by
    refine hasKey_false_of_keysIn h3k ?_
    rw [keyOf]
    exact markersBelow_not_contains hqo
  rw [List.nodup_cons] at h4k
  have hbk : ∀ j ∈ wIdsKvp kvp, j < n := fun j hj =>
    h5k j (List.mem_cons_of_mem _ hj)
  have hmem2 : ∀ j, j ∈ wIdsKvp (kvpSet kvp (keyOf o) o) →
      j ∈ wIdsKvp kvp ∨ j ∈ wIdsObj o := by
    intro j hj
    have hj2 : j ∈ (↑(wIdsKvp kvp) + ↑(wIdsObj o) : Multiset Nat) := by
      rw [← idsM_set_fresh _ hfree]
      exact Multiset.mem_coe.mpr hj
    rw [Multiset.mem_add] at hj2
    rcases hj2 with hj2 | hj2
    · exact Or.inl (Multiset.mem_coe.mp hj2)
    · exact Or.inr (Multiset.mem_coe.mp hj2)
  constructor
  · intro f hfm
    rcases List.mem_cons.mp hfm with rfl | hfm2
    · refine ⟨?_, ?_, ?_, ?_, ?_, ?_, ?_, ?_⟩
      · show consKvp (kvpSet kvp (keyOf o) o) = true
        exact cons_set_fresh rfl hco h1k hfree
      · show keysNodupKvp (kvpSet kvp (keyOf o) o)
        exact keysNodup_set_fresh hno h2k hfree
      · show keysInKvp (markersBelow n2) (kvpSet kvp (keyOf o) o) = true
        refine keysInKvp_set ((keysIn_mono (markersBelow_sub hnn)).2 kvp
          h3k) hko ?_
        rw [keyOf]
        exact markersBelow_contains hqo2
      · show (i :: wIdsKvp (kvpSet kvp (keyOf o) o)).Nodup
        rw [List.nodup_cons]
        constructor
        · intro hmem
          rcases hmem2 i hmem with hx | hx
          · exact h4k.1 hx
          · have := (hbo i hx).1
            have := h5k i (List.mem_cons_self _ _)
            omega
        · rw [← Multiset.coe_nodup, idsM_set_fresh _ hfree]
          refine Multiset.nodup_add.mpr ⟨Multiset.coe_nodup.mpr h4k.2,
            Multiset.coe_nodup.mpr hdo,
            Multiset.disjoint_left.mpr (fun hj hj2 => ?_)⟩
          have hx1 := hbk _ (Multiset.mem_coe.mp hj)
          have hx2 := (hbo _ (Multiset.mem_coe.mp hj2)).1
          omega
      · show ∀ j ∈ i :: wIdsKvp (kvpSet kvp (keyOf o) o), j < n2
        intro j hj
        rcases List.mem_cons.mp hj with rfl | hj2
        · have := h5k j (List.mem_cons_self _ _)
          omega
        · rcases hmem2 j hj2 with hx | hx
          · have := hbk j hx
            omega
          · exact (hbo j hx).2
      · show ancOKKvp (kvpSet kvp (keyOf o) o) = true
        rw [ancOK_set_fresh _ hfree]
        simp only [Bool.and_eq_true]
        exact ⟨h6k, heo⟩
      · exact h7
      · exact ⟨i, sc, nm, asm, len, off, kvpSet kvp (keyOf o) o, rfl⟩
    · exact FragWF_mono hnn (hall f (List.mem_cons_of_mem _ hfm2))
  · rw [List.pairwise_cons] at hpair ⊢
    refine ⟨?_, hpair.2⟩
    intro r hr j hj hjr
    have hbr := (hall r (List.mem_cons_of_mem _ hr)).2.2.2.2.1 j hjr
    rcases List.mem_cons.mp hj with rfl | hj2
    · exact hpair.1 r hr j (List.mem_cons_self _ _) hjr
    · rcases hmem2 j hj2 with hx | hx
      · exact hpair.1 r hr j (List.mem_cons_of_mem _ hx) hjr
      · have := (hbo j hx).1
        omega

/-- A bare qick_copy preserves the world invariant, consuming its
operand. -/
theorem clone_wf {n n2 : Nat} {stack : List Nat} {top : Nat} {b c : QObj}
    {rest : List QObj}
    (hstack : stack.getLast? = some top) (hbt : qidOf b ≠ top)
    (htn : top ≠ n) (hcp : qickCopyF stack b n = .ok (c, n2))
    (hwf : WorldWF ⟨n, b :: rest⟩) : WorldWF ⟨n2, c :: rest⟩ := by
  obtain ⟨hall0, hpair0⟩ := hwf
  have hall : ∀ f ∈ b :: rest, FragWF n f := hall0
  have hpair : List.Pairwise Disj (b :: rest) := hpair0
  show (∀ f ∈ c :: rest, FragWF n2 f) ∧ List.Pairwise Disj (c :: rest)
  have hfb := hall b (List.mem_cons_self _ _)
  obtain ⟨h1, h2, h3, h4, h5, h6, h7, i0, sc0, nm0, asm0, len0, off0,
    kvp0, rfl⟩ := hfb
  obtain ⟨hc1, hc2, hc3, hc4, hc5, hc6, hc7, hc8⟩ :=
    qickCopyF_consistent hstack (show i0 ≠ top from hbt) htn
      (show consKvp kvp0 = true from h1)
      (show keysNodupKvp kvp0 from h2)
      (show keysInKvp (markersBelow n) kvp0 = true from h3)
      (show (i0 :: wIdsKvp kvp0).Nodup from h4)
      (show ∀ j ∈ i0 :: wIdsKvp kvp0, j < n from h5) hcp
  obtain ⟨-, -, hok⟩ := qickCopyF_anchors hstack
    (show i0 ≠ top from hbt) htn
    (show keysInKvp (markersBelow n) kvp0 = true from h3) hcp
  obtain ⟨ci, csc, casm, ckvp, rfl⟩ := qickCopyF_code_shape hcp
  rw [List.pairwise_cons] at hpair
  constructor
  · intro f hfm
    rcases List.mem_cons.mp hfm with rfl | hfm2
    · refine ⟨hc1, hc2, hc4, hc5, hc6, ?_, ?_, ?_⟩
      · rw [hok]
        exact h6
      · obtain ⟨li, lsc, lty, da, hlen, hcls⟩ := h7
        exact ⟨li, lsc, lty, da, hlen, hcls⟩
      · exact ⟨ci, csc, nm0, casm, len0, off0, ckvp, rfl⟩
    · exact FragWF_mono hc8 (hall f (List.mem_cons_of_mem _ hfm2))
  · rw [List.pairwise_cons]
    refine ⟨?_, hpair.2⟩
    intro r hr j hj hjr
    have hbr := (hall r (List.mem_cons_of_mem _ hr)).2.2.2.2.1 j hjr
    rcases hc7 j hj with hx | hx
    · exact hpair.1 r hr j (List.mem_cons_of_mem _ hx) hjr
    · omega

/-- Reordering the live fragments preserves the world invariant. -/
theorem perm_wf {n : Nat} {frags frags2 : List QObj}
    (hp : frags.Perm frags2) (hwf : WorldWF ⟨n, frags⟩) :
    WorldWF ⟨n, frags2⟩ := by
  obtain ⟨hall0, hpair0⟩ := hwf
  have hall : ∀ o ∈ frags, FragWF n o := hall0
  have hpair : List.Pairwise Disj frags := hpair0
  show (∀ o ∈ frags2, FragWF n o) ∧ List.Pairwise Disj frags2
  exact ⟨fun o ho => hall o (hp.mem_iff.mpr ho),
    (hp.pairwise_iff (fun h2 => Disj_symm h2)).mp hpair⟩

/-- add preserves the world invariant, consuming its operand. -/
theorem add_wf {n n2 : Nat} {ambient : List Nat} {a b a2 : QObj}
    {rest : List QObj} (h : addH ambient a b n = .ok (a2, n2))
    (hwf : WorldWF ⟨n, a :: b :: rest⟩) : WorldWF ⟨n2, a2 :: rest⟩ := by
  obtain ⟨hall0, hpair0⟩ := hwf
  have hall : ∀ f ∈ a :: b :: rest, FragWF n f := hall0
  have hpair : List.Pairwise Disj (a :: b :: rest) := hpair0
  have hfa := hall a (List.mem_cons_self _ _)
  have hfb := hall b (List.mem_cons_of_mem _ (List.mem_cons_self _ _))
  obtain ⟨ha1, ha2, ha3, ha4, ha5, ha6, ha7, ai, asc, anm, aasm, alen,
    aoff, akvp, rfl⟩ := hfa
  obtain ⟨hb1, hb2, hb3, hb4, hb5, hb6, hb7, bi, bsc, bnm, basm, blen,
    boff, bkvp, rfl⟩ := hfb
  obtain ⟨li, lsc, lty, da, hlen, hlty⟩ := ha7
  have halen : alen = QVal.vconst li lsc lty da := hlen
  subst halen
  obtain ⟨mi, msc, mty, db, hblen, hmty⟩ := hb7
  have hblen2 : blen = QVal.vconst mi msc mty db := hblen
  subst hblen2
  have ha1k : consKvp akvp = true := ha1
  have ha2k : keysNodupKvp akvp := ha2
  have ha3k : keysInKvp (markersBelow n) akvp = true := ha3
  have ha4k : (ai :: wIdsKvp akvp).Nodup := ha4
  have ha5k : ∀ j ∈ ai :: wIdsKvp akvp, j < n := ha5
  have ha6k : ancOKKvp akvp = true := ha6
  have hb1k : consKvp bkvp = true := hb1
  have hb2k : keysNodupKvp bkvp := hb2
  have hb3k : keysInKvp (markersBelow n) bkvp = true := hb3
  have hb4k : (bi :: wIdsKvp bkvp).Nodup := hb4
  have hb5k : ∀ j ∈ bi :: wIdsKvp bkvp, j < n := hb5
  have hb6k : ancOKKvp bkvp = true := hb6
  rw [List.pairwise_cons] at hpair
  obtain ⟨hda, hpair2⟩ := hpair
  rw [List.pairwise_cons] at hpair2
  obtain ⟨hdb, hpr⟩ := hpair2
  have hwa : ∀ j ∈ ai :: wIdsKvp akvp, j ∉ bi :: wIdsKvp bkvp :=
    hda _ (List.mem_cons_self _ _)
  have hstack : (ambient ++ [ai]).getLast? = some ai :=
    List.getLast?_concat _
  have hbt : bi ≠ ai := by
    intro he
    exact hwa ai (List.mem_cons_self _ _)
      (by rw [← he]; exact List.mem_cons_self _ _)
  have htn : ai ≠ n := Nat.ne_of_lt (ha5k ai (List.mem_cons_self _ _))
  rw [addH] at h
  obtain ⟨⟨clone, n3⟩, h1, h⟩ := exceptBind_ok h
  obtain ⟨⟨clone2, n4⟩, h2, h⟩ := exceptBind_ok h
  obtain ⟨⟨len2, n5⟩, h3, h⟩ := exceptBind_ok h
  simp only [pure, Except.pure, Except.ok.injEq, Prod.mk.injEq] at h
  obtain ⟨rfl, rfl⟩ := h
  obtain ⟨hc1, hc2, hc3, hc4, hc5, hc6, hc7, hc8⟩ :=
    qickCopyF_consistent hstack hbt htn hb1k hb2k hb3k hb4k hb5k h1
  obtain ⟨-, -, hanc⟩ := qickCopyF_anchors hstack hbt htn hb3k h1
  obtain ⟨ci, csc, casm, ckvp, rfl⟩ := qickCopyF_code_shape h1
  obtain rfl : n = ci := (show ci = n from hc3).symm
  have hancc : ancOKObj (QObj.qcode n csc bnm casm
      (QVal.vconst mi msc mty db) boff ckvp) = true := by
    rw [hanc]
    exact hb6k
  obtain ⟨hec, hen, hek, heok, hei⟩ := (epoch_wf hlty).1 _ n3 clone2 n4
    hancc h2
  obtain ⟨ekvp, rfl⟩ := epochOffsetF_qcode_ok h2
  have h3b : pyAddV (ambient ++ [ai]) (QVal.vconst li lsc lty da)
      (QVal.vconst mi msc mty db) n4 = .ok (len2, n5) := h3
  rw [pyAddV_const_const hstack li mi lsc msc hlty hmty da db n4] at h3b
  simp only [Except.ok.injEq, Prod.mk.injEq] at h3b
  obtain ⟨rfl, rfl⟩ := h3b.symm
  have hn3 : n ≤ n3 := hc8
  have hn4 : n3 ≤ n4 := hei.1
  have hfree0 : kvpHasKey akvp (marker n) = false :=
    hasKey_false_of_keysIn ha3k (markersBelow_not_contains (le_refl n))
  have hfneg : ¬ (kvpHasKey akvp (keyOf (QObj.qcode n csc bnm casm
      (QVal.vconst mi msc mty db) boff ekvp)) = true) := by
    rw [show keyOf (QObj.qcode n csc bnm casm
      (QVal.vconst mi msc mty db) boff ekvp) = marker n from rfl, hfree0]
    simp
  rw [if_neg hfneg]
  -- facts about the offset clone
  have hcons2 : consKvp ekvp = true := hec hc1
  have hknd2 : keysNodupKvp ekvp := hen hc2
  have hkeys2 : keysInKvp (markersBelow n3) ekvp = true := hek _ hc4
  have heik : ISpec (n :: wIdsKvp ckvp) n3 (n :: wIdsKvp ekvp) n4 := hei
  have hnd2 : (n :: wIdsKvp ekvp).Nodup := heik.2.2.2 hc5 hc6
  have hb2e : ∀ j ∈ n :: wIdsKvp ekvp, j < n4 := heik.2.2.1 hc6
  have hmem2 : ∀ j ∈ n :: wIdsKvp ekvp, j ∈ wIdsKvp bkvp ∨ n ≤ j := by
    intro j hj
    rcases heik.2.1 j hj with hx | ⟨hx, -⟩
    · exact hc7 j hx
    · exact Or.inr (le_trans hn3 hx)
  have hfree2 : kvpHasKey akvp (keyOf (QObj.qcode n csc bnm casm
      (QVal.vconst mi msc mty db) boff ekvp)) = false := hfree0
  have hmemset : ∀ j, j ∈ wIdsKvp (kvpSet akvp (keyOf (QObj.qcode n csc
      bnm casm (QVal.vconst mi msc mty db) boff ekvp))
      (QObj.qcode n csc bnm casm (QVal.vconst mi msc mty db) boff ekvp)) →
      j ∈ wIdsKvp akvp ∨ j ∈ n :: wIdsKvp ekvp := by
    intro j hj
    have hj2 : j ∈ (↑(wIdsKvp akvp) + ↑(wIdsObj (QObj.qcode n csc bnm
        casm (QVal.vconst mi msc mty db) boff ekvp)) : Multiset Nat) := by
      rw [← idsM_set_fresh _ hfree2]
      exact Multiset.mem_coe.mpr hj
    rw [Multiset.mem_add] at hj2
    rcases hj2 with hj2 | hj2
    · exact Or.inl (Multiset.mem_coe.mp hj2)
    · exact Or.inr (Multiset.mem_coe.mp hj2)
  have hdisjk : ∀ j ∈ n :: wIdsKvp ekvp, j ∉ wIdsKvp akvp := by
    intro j hj hja
    rcases hmem2 j hj with hx | hx
    · exact hwa j (List.mem_cons_of_mem _ hja)
        (List.mem_cons_of_mem _ hx)
    · have := ha5k j (List.mem_cons_of_mem _ hja)
      omega
  have hn5 : n ≤ n4 + 1 := by omega
  refine WorldWF_mk _ _ ?_ ?_
  · intro f hfm
    rcases List.mem_cons.mp hfm with rfl | hfm2
    · refine ⟨?_, ?_, ?_, ?_, ?_, ?_, ?_, ?_⟩
      · show consKvp _ = true
        exact cons_set_fresh rfl
          (show consObj (QObj.qcode n csc bnm casm
            (QVal.vconst mi msc mty db) boff ekvp) = true from hcons2)
          ha1k hfree2
      · show keysNodupKvp _
        exact keysNodup_set_fresh
          (show keysNodupObj (QObj.qcode n csc bnm casm
            (QVal.vconst mi msc mty db) boff ekvp) from hknd2)
          ha2k hfree2
      · show keysInKvp (markersBelow (n4 + 1)) _ = true
        refine keysInKvp_set
          ((keysIn_mono (markersBelow_sub hn5)).2 akvp ha3k)
          (show keysInObj (markersBelow (n4 + 1)) (QObj.qcode n csc bnm
            casm (QVal.vconst mi msc mty db) boff ekvp) = true from
            (keysIn_mono (markersBelow_sub
              (show n3 ≤ n4 + 1 by omega))).2 _ hkeys2) ?_
        show (markersBelow (n4 + 1)).contains (marker n) = true
        exact markersBelow_contains (show n < n4 + 1 by omega)
      · show (ai :: wIdsKvp _).Nodup
        rw [List.nodup_cons]
        rw [List.nodup_cons] at ha4k
        constructor
        · intro hmem
          rcases hmemset ai hmem with hx | hx
          · exact ha4k.1 hx
          · rcases hmem2 ai hx with hy | hy
            · exact hwa ai (List.mem_cons_self _ _)
                (List.mem_cons_of_mem _ hy)
            · have := ha5k ai (List.mem_cons_self _ _)
              omega
        · rw [← Multiset.coe_nodup, idsM_set_fresh _ hfree2]
          refine Multiset.nodup_add.mpr ⟨Multiset.coe_nodup.mpr ha4k.2,
            Multiset.coe_nodup.mpr hnd2,
            Multiset.disjoint_left.mpr (fun hj hj2 => ?_)⟩
          exact hdisjk _ (Multiset.mem_coe.mp hj2)
            (Multiset.mem_coe.mp hj)
      · show ∀ j ∈ ai :: wIdsKvp _, j < n4 + 1
        intro j hj
        rcases List.mem_cons.mp hj with rfl | hj2
        · have := ha5k j (List.mem_cons_self _ _)
          omega
        · rcases hmemset j hj2 with hx | hx
          · have := ha5k j (List.mem_cons_of_mem _ hx)
            omega
          · have := hb2e j hx
            omega
      · show ancOKKvp _ = true
        rw [ancOK_set_fresh _ hfree2]
        simp only [Bool.and_eq_true]
        exact ⟨ha6k, heok⟩
      · exact ⟨n4, some ai, ⟨some TyCls.tTime, none, none⟩, da.padd db,
          rfl, rfl⟩
      · exact ⟨ai, asc, _, _, _, aoff, _, rfl⟩
    · exact FragWF_mono (show n ≤ n4 + 1 by omega)
        (hall f (List.mem_cons_of_mem _ (List.mem_cons_of_mem _ hfm2)))
  · rw [List.pairwise_cons]
    refine ⟨?_, hpr⟩
    intro r hr j hj hjr
    have hbr := (hall r (List.mem_cons_of_mem _
      (List.mem_cons_of_mem _ hr))).2.2.2.2.1 j hjr
    rcases List.mem_cons.mp hj with rfl | hj2
    · exact hda r (List.mem_cons_of_mem _ hr) j
        (List.mem_cons_self _ _) hjr
    · rcases hmemset j hj2 with hx | hx
      · exact hda r (List.mem_cons_of_mem _ hr) j
          (List.mem_cons_of_mem _ hx) hjr
      · rcases hmem2 j hx with hy | hy
        · exact hdb r hr j (List.mem_cons_of_mem _ hy) hjr
        · omega

/-- parallel preserves the world invariant, consuming its operand. -/
theorem parallel_wf {n n2 : Nat} {ambient : List Nat} {auto : Bool}
    {a b a2 : QObj} {rest : List QObj}
    (h : parallelH ambient a b auto n = .ok (a2, n2))
    (hwf : WorldWF ⟨n, a :: b :: rest⟩) : WorldWF ⟨n2, a2 :: rest⟩ := by
  obtain ⟨hall0, hpair0⟩ := hwf
  have hall : ∀ f ∈ a :: b :: rest, FragWF n f := hall0
  have hpair : List.Pairwise Disj (a :: b :: rest) := hpair0
  have hfa := hall a (List.mem_cons_self _ _)
  have hfb := hall b (List.mem_cons_of_mem _ (List.mem_cons_self _ _))
  obtain ⟨ha1, ha2, ha3, ha4, ha5, ha6, ha7, ai, asc, anm, aasm, alen,
    aoff, akvp, rfl⟩ := hfa
  obtain ⟨hb1, hb2, hb3, hb4, hb5, hb6, hb7, bi, bsc, bnm, basm, blen,
    boff, bkvp, rfl⟩ := hfb
  obtain ⟨li, lsc, lty, da, hlen, hlty⟩ := ha7
  have halen : alen = QVal.vconst li lsc lty da := hlen
  subst halen
  obtain ⟨mi, msc, mty, db, hblen, hmty⟩ := hb7
  have hblen2 : blen = QVal.vconst mi msc mty db := hblen
  subst hblen2
  have ha1k : consKvp akvp = true := ha1
  have ha2k : keysNodupKvp akvp := ha2
  have ha3k : keysInKvp (markersBelow n) akvp = true := ha3
  have ha4k : (ai :: wIdsKvp akvp).Nodup := ha4
  have ha5k : ∀ j ∈ ai :: wIdsKvp akvp, j < n := ha5
  have ha6k : ancOKKvp akvp = true := ha6
  have hb1k : consKvp bkvp = true := hb1
  have hb2k : keysNodupKvp bkvp := hb2
  have hb3k : keysInKvp (markersBelow n) bkvp = true := hb3
  have hb4k : (bi :: wIdsKvp bkvp).Nodup := hb4
  have hb5k : ∀ j ∈ bi :: wIdsKvp bkvp, j < n := hb5
  have hb6k : ancOKKvp bkvp = true := hb6
  rw [List.pairwise_cons] at hpair
  obtain ⟨hda, hpair2⟩ := hpair
  rw [List.pairwise_cons] at hpair2
  obtain ⟨hdb, hpr⟩ := hpair2
  have hwa : ∀ j ∈ ai :: wIdsKvp akvp, j ∉ bi :: wIdsKvp bkvp :=
    hda _ (List.mem_cons_self _ _)
  have hstack : (ambient ++ [ai]).getLast? = some ai :=
    List.getLast?_concat _
  have hbt : bi ≠ ai := by
    intro he
    exact hwa ai (List.mem_cons_self _ _)
      (by rw [← he]; exact List.mem_cons_self _ _)
  have htn : ai ≠ n := Nat.ne_of_lt (ha5k ai (List.mem_cons_self _ _))
  rw [parallelH] at h
  obtain ⟨⟨clone, n3⟩, h1, h⟩ := exceptBind_ok h
  obtain ⟨akvp2, h2, h⟩ := exceptBind_ok h
  simp only [pure, Except.pure, Except.ok.injEq, Prod.mk.injEq] at h
  obtain ⟨rfl, rfl⟩ := h
  obtain ⟨hc1, hc2, hc3, hc4, hc5, hc6, hc7, hc8⟩ :=
    qickCopyF_consistent hstack hbt htn hb1k hb2k hb3k hb4k hb5k h1
  obtain ⟨-, -, hanc⟩ := qickCopyF_anchors hstack hbt htn hb3k h1
  obtain ⟨ci, csc, casm, ckvp, rfl⟩ := qickCopyF_code_shape h1
  obtain rfl : n = ci := (show ci = n from hc3).symm
  have hc1k : consKvp ckvp = true := hc1
  have hc2k : keysNodupKvp ckvp := hc2
  have hc4k : keysInKvp (markersBelow n3) ckvp = true := hc4
  have hanck : ancOKKvp ckvp = true := by
    rw [show ancOKKvp ckvp = ancOKObj (QObj.qcode n csc bnm casm
      (QVal.vconst mi msc mty db) boff ckvp) from rfl, hanc]
    exact hb6k
  have hcnd : (n :: wIdsKvp ckvp).Nodup := hc5
  rw [List.nodup_cons] at hcnd
  have hckb : ∀ j ∈ n :: wIdsKvp ckvp, j < n3 := hc6
  have hckm : ∀ j ∈ n :: wIdsKvp ckvp, j ∈ wIdsKvp bkvp ∨ n ≤ j := hc7
  have hdisjk : ∀ j ∈ wIdsKvp ckvp, j ∉ wIdsKvp akvp := by
    intro j hj hja
    rcases hckm j (List.mem_cons_of_mem _ hj) with hx | hx
    · exact hwa j (List.mem_cons_of_mem _ hja)
        (List.mem_cons_of_mem _ hx)
    · have := ha5k j (List.mem_cons_of_mem _ hja)
      omega
  have h2b : mergeKvpF ai akvp ckvp = .ok akvp2 := h2
  obtain ⟨hm1, hm2, hm3, hm4, hm5⟩ := mergeKvp_props ai (markersBelow n3)
    ckvp akvp akvp2 h2b ha1k hc1k ha2k hc2k hcnd.2
    ((keysIn_mono (markersBelow_sub hc8)).2 akvp ha3k) hc4k
    ha6k hanck hdisjk
  have hmemset : ∀ j, j ∈ wIdsKvp akvp2 →
      j ∈ wIdsKvp akvp ∨ j ∈ wIdsKvp ckvp := by
    intro j hj
    have hj2 : j ∈ (↑(wIdsKvp akvp) + ↑(wIdsKvp ckvp) : Multiset Nat) := by
      rw [← hm5]
      exact Multiset.mem_coe.mpr hj
    rw [Multiset.mem_add] at hj2
    rcases hj2 with hj2 | hj2
    · exact Or.inl (Multiset.mem_coe.mp hj2)
    · exact Or.inr (Multiset.mem_coe.mp hj2)
  refine WorldWF_mk _ _ ?_ ?_
  · intro f hfm
    rcases List.mem_cons.mp hfm with rfl | hfm2
    · refine ⟨?_, ?_, ?_, ?_, ?_, ?_, ?_, ?_⟩
      · show consKvp akvp2 = true
        exact hm1
      · show keysNodupKvp akvp2
        exact hm2
      · show keysInKvp (markersBelow n3) akvp2 = true
        exact hm3
      · show (ai :: wIdsKvp akvp2).Nodup
        rw [List.nodup_cons]
        rw [List.nodup_cons] at ha4k
        constructor
        · intro hmem
          rcases hmemset ai hmem with hx | hx
          · exact ha4k.1 hx
          · rcases hckm ai (List.mem_cons_of_mem _ hx) with hy | hy
            · exact hwa ai (List.mem_cons_self _ _)
                (List.mem_cons_of_mem _ hy)
            · have := ha5k ai (List.mem_cons_self _ _)
              omega
        · rw [← Multiset.coe_nodup, hm5]
          refine Multiset.nodup_add.mpr ⟨Multiset.coe_nodup.mpr ha4k.2,
            Multiset.coe_nodup.mpr hcnd.2,
            Multiset.disjoint_left.mpr (fun hj hj2 => ?_)⟩
          exact hdisjk _ (Multiset.mem_coe.mp hj2)
            (Multiset.mem_coe.mp hj)
      · show ∀ j ∈ ai :: wIdsKvp akvp2, j < n3
        intro j hj
        rcases List.mem_cons.mp hj with rfl | hj2
        · have := ha5k j (List.mem_cons_self _ _)
          omega
        · rcases hmemset j hj2 with hx | hx
          · have := ha5k j (List.mem_cons_of_mem _ hx)
            omega
          · exact hckb j (List.mem_cons_of_mem _ hx)
      · show ancOKKvp akvp2 = true
        exact hm4
      · cases auto with
        | false => exact ⟨li, lsc, lty, da, rfl, hlty⟩
        | true =>
          by_cases hplt : da.plt db = true
          · refine ⟨mi, some ai, mty, db, ?_, hmty⟩
            show (if da.plt db = true then scopecastVal (some ai)
              (lengthOf (QObj.qcode n csc bnm casm
                (QVal.vconst mi msc mty db) boff ckvp))
              else QVal.vconst li lsc lty da) =
              QVal.vconst mi (some ai) mty db
            rw [if_pos hplt]
            rfl
          · refine ⟨li, lsc, lty, da, ?_, hlty⟩
            show (if da.plt db = true then scopecastVal (some ai)
              (lengthOf (QObj.qcode n csc bnm casm
                (QVal.vconst mi msc mty db) boff ckvp))
              else QVal.vconst li lsc lty da) =
              QVal.vconst li lsc lty da
            rw [if_neg hplt]
      · exact ⟨ai, asc, _, _, _, aoff, akvp2, rfl⟩
    · exact FragWF_mono hc8
        (hall f (List.mem_cons_of_mem _ (List.mem_cons_of_mem _ hfm2)))
  · rw [List.pairwise_cons]
    refine ⟨?_, hpr⟩
    intro r hr j hj hjr
    have hbr := (hall r (List.mem_cons_of_mem _
      (List.mem_cons_of_mem _ hr))).2.2.2.2.1 j hjr
    rcases List.mem_cons.mp hj with rfl | hj2
    · exact hda r (List.mem_cons_of_mem _ hr) j
        (List.mem_cons_self _ _) hjr
    · rcases hmemset j hj2 with hx | hx
      · exact hda r (List.mem_cons_of_mem _ hr) j
          (List.mem_cons_of_mem _ hx) hjr
      · rcases hckm j (List.mem_cons_of_mem _ hx) with hy | hy
        · exact hdb r hr j (List.mem_cons_of_mem _ hy) hjr
        · omega

/-! ## Claim C2 -/

/-- C2: absolute-time anchor rewriting (type.py QickCode.epoch_offset
lines 1242-1256 and QickCode.add lines 1258-1277).  When a has a
statically known constant Time duration da and every anchor (epoch
out_usr_time assignment) of b is a Time constant, a successful a.add(b)
stores the appended copy of b in a's symbol table under the fresh
marker key, and the multiset of the copy's anchor values (nested
fragments included) is exactly b's anchor multiset shifted by da.  The
freshness side conditions say that the id counter n dominates the
existing symbol-table keys and ids, as the allocator guarantees. -/
theorem C2_anchor_rewrite (ambient : List Nat)
    (ai li bi : Nat) (asc lsc bsc : Option Nat) (anm bnm : Option String)
    (aasm basm : String) (aoff blen boff : QVal) (akvp bkvp : Kvp)
    (lty : QTy) (da : PyRat) (a2 : QObj) (n n2 : Nat)
    (hlty : lty.cls = some .tTime)
    (hanc : ancOKKvp bkvp = true)
    (hbkeys : keysInKvp (markersBelow n) bkvp = true)
    (hakeys : keysInKvp (markersBelow n) akvp = true)
    (hbi : bi ≠ ai) (hai : ai < n)
    (h : addH ambient
        (.qcode ai asc anm aasm (.vconst li lsc lty da) aoff akvp)
        (.qcode bi bsc bnm basm blen boff bkvp) n = .ok (a2, n2)) :
    ∃ clone, kvpLookup (kvpOf a2) (marker n) = some clone ∧
      Multiset.map PyRat.toRat (ancMObj clone) =
        Multiset.map (fun t => t.toRat + da.toRat) (ancMKvp bkvp) := by
  rw [addH] at h
  obtain ⟨⟨clone, n3⟩, h1, h2⟩ := exceptBind_ok h
  obtain ⟨⟨clone2, n4⟩, h3, h4⟩ := exceptBind_ok h2
  have hstack : (ambient ++ [ai]).getLast? = some ai :=
    List.getLast?_concat ambient
  obtain ⟨hqid, hanc2, hok2⟩ :=
    qickCopyF_anchors hstack hbi (Nat.ne_of_lt hai) hbkeys h1
  obtain ⟨ci, csc, casm, ckvp, rfl⟩ := qickCopyF_code_shape h1
  have hci : ci = n := hqid
  subst hci
  obtain ⟨ckvp2, rfl⟩ := epochOffsetF_qcode_ok h3
  have hanc3 : ancMObj (QObj.qcode ci csc bnm casm blen boff ckvp2) =
      Multiset.map (fun t => t.padd da)
        (ancMObj (QObj.qcode ci csc bnm casm blen boff ckvp)) :=
    (epoch_anchors hlty).1 _ n3 _ n4 (hok2.trans hanc) h3
  obtain ⟨⟨len2, n5⟩, h5, h6⟩ := exceptBind_ok h4
  simp only [pure, Except.pure, Except.ok.injEq, Prod.mk.injEq] at h6
  obtain ⟨rfl, -⟩ := h6
  have hfree : kvpHasKey akvp (marker ci) = false :=
    hasKey_false_of_keysIn hakeys (markersBelow_not_contains (le_refl ci))
  refine ⟨.qcode ci csc bnm casm blen boff ckvp2, ?_, ?_⟩
  · rw [show keyOf (QObj.qcode ci csc bnm casm blen boff ckvp2) = marker ci
      from rfl, show kvpOf (QObj.qcode ai asc
        (mergeNames "+" anm (nameOf (QObj.qcode ci csc bnm casm blen boff
          ckvp2)))
        (aasm ++ marker ci) len2 aoff
        (if kvpHasKey akvp (marker ci) then akvp
          else kvpSet akvp (marker ci)
            (QObj.qcode ci csc bnm casm blen boff ckvp2))) =
        (if kvpHasKey akvp (marker ci) then akvp
          else kvpSet akvp (marker ci)
            (QObj.qcode ci csc bnm casm blen boff ckvp2)) from rfl]
    rw [hfree]
    simp only [Bool.false_eq_true, if_false]
    exact kvpLookup_set_self _ hfree
  · rw [hanc3, hanc2, Multiset.map_map]
    exact Multiset.map_congr rfl (fun t _ => PyRat.toRat_padd t da)

/-! ## Claim C5 -/

/-- C5: sequential duration law (type.py QickCode.add lines 1258-1277
and QickConstType.__add__ lines 320-334).  When a and b both carry
statically known constant Time durations da and db, a successful
a.add(b) leaves a with the single folded constant duration da + db of
kind Time (a fresh QickTime constant, not an Expression), whose value
is the rational sum of the two durations. -/
theorem C5_add_duration_folds (ambient : List Nat)
    (ai li bi mi : Nat) (asc lsc bsc msc : Option Nat)
    (anm bnm : Option String) (aasm basm : String) (aoff boff : QVal)
    (akvp bkvp : Kvp) (a2 : QObj) (lty mty : QTy) (da db : PyRat)
    (n n2 : Nat)
    (hlty : lty.cls = some .tTime) (hmty : mty.cls = some .tTime)
    (h : addH ambient
        (.qcode ai asc anm aasm (.vconst li lsc lty da) aoff akvp)
        (.qcode bi bsc bnm basm (.vconst mi msc mty db) boff bkvp) n =
      .ok (a2, n2)) :
    ∃ i2, lengthOf a2 =
        .vconst i2 (some ai) ⟨some .tTime, none, none⟩ (da.padd db) ∧
      (da.padd db).toRat = da.toRat + db.toRat := by
  rw [addH] at h
  obtain ⟨⟨clone, n3⟩, h1, h2⟩ := exceptBind_ok h
  obtain ⟨⟨clone2, n4⟩, h3, h4⟩ := exceptBind_ok h2
  obtain ⟨ci, csc, casm, ckvp, rfl⟩ := qickCopyF_code_shape h1
  obtain ⟨ckvp2, rfl⟩ := epochOffsetF_qcode_ok h3
  obtain ⟨⟨len2, n5⟩, h5, h6⟩ := exceptBind_ok h4
  rw [show lengthOf (.qcode ci csc bnm casm (.vconst mi msc mty db) boff ckvp2) =
      .vconst mi msc mty db from rfl] at h5
  rw [pyAddV_const_const (List.getLast?_concat ambient) li mi lsc msc hlty hmty
      da db n4] at h5
  simp only [Except.ok.injEq, Prod.mk.injEq] at h5
  obtain ⟨rfl, rfl⟩ := h5.symm
  simp only [pure, Except.pure, Except.ok.injEq, Prod.mk.injEq] at h6
  obtain ⟨rfl, rfl⟩ := h6
  exact ⟨n4, rfl, PyRat.toRat_padd da db⟩

/-! ## Claim C6 -/

/-- C6: parallel duration (type.py QickCode.parallel lines 1279-1308).
When a and b both carry statically known constant durations da and db,
a successful a.parallel(b) (with the default auto_length) leaves a with
a constant duration whose value is max(da, db): the clone's length is
taken exactly when its value is strictly larger. -/
theorem C6_parallel_duration_max (ambient : List Nat)
    (ai li bi mi : Nat) (asc lsc bsc msc : Option Nat)
    (anm bnm : Option String) (aasm basm : String) (aoff boff : QVal)
    (akvp bkvp : Kvp) (a2 : QObj) (lty mty : QTy) (da db : PyRat)
    (n n2 : Nat)
    (h : parallelH ambient
        (.qcode ai asc anm aasm (.vconst li lsc lty da) aoff akvp)
        (.qcode bi bsc bnm basm (.vconst mi msc mty db) boff bkvp) true n =
      .ok (a2, n2)) :
    ∃ i2 sc2 ty2 v, lengthOf a2 = .vconst i2 sc2 ty2 v ∧
      v.toRat = max da.toRat db.toRat := by
  rw [parallelH] at h
  obtain ⟨⟨clone, n3⟩, h1, h2⟩ := exceptBind_ok h
  obtain ⟨ci, csc, casm, ckvp, rfl⟩ := qickCopyF_code_shape h1
  obtain ⟨akvp2, h3, h4⟩ := exceptBind_ok h2
  simp only [pure, Except.pure, Except.ok.injEq, Prod.mk.injEq] at h4
  obtain ⟨rfl, rfl⟩ := h4
  by_cases hplt : da.plt db = true
  · refine ⟨mi, some ai, mty, db, ?_, ?_⟩
    · simp [lengthOf, hplt, scopecastVal]
    · have := PyRat.plt_iff da db |>.mp hplt
      exact (max_eq_right this.le).symm
  · have hplt2 : da.plt db = false := by
      cases hq : da.plt db
      · rfl
      · exact absurd hq hplt
    refine ⟨li, lsc, lty, da, ?_, ?_⟩
    · simp [lengthOf, hplt2, scopecastVal]
    · have : ¬ da.toRat < db.toRat := by
        rw [← PyRat.plt_iff]
        simp [hplt2]
      exact (max_eq_left (not_lt.mp this)).symm

/-- Witness for C5 at a concrete pair of code fragments with constant
Time durations 2 and 3. -/
theorem C5_add_duration_folds_witness :
    QPC.timeTy.cls = some QPC.TyCls.tTime ∧
    ∃ i2, QPC.lengthOf
        (.qcode 0 none none "A*100*"
          (.vconst 101 (some 0) QPC.timeTy ⟨5, 0⟩)
          (.vconst 2 (some 0) QPC.timeTy ⟨0, 0⟩)
          (.cons "*100*"
            (.qcode 100 (some 0) none "B"
              (.vconst 11 (some 10) QPC.timeTy ⟨3, 0⟩)
              (.vconst 12 (some 10) QPC.timeTy ⟨0, 0⟩) .nil) .nil)) =
        .vconst i2 (some 0) ⟨some .tTime, none, none⟩
          ((QPC.PyRat.ofInt 2).padd (QPC.PyRat.ofInt 3)) ∧
      ((QPC.PyRat.ofInt 2).padd (QPC.PyRat.ofInt 3)).toRat =
        (QPC.PyRat.ofInt 2).toRat + (QPC.PyRat.ofInt 3).toRat :=
  ⟨rfl, C5_add_duration_folds [] 0 1 10 11 none (some 0) none (some 10)
    none none "A" "B"
    (.vconst 2 (some 0) QPC.timeTy (.ofInt 0))
    (.vconst 12 (some 10) QPC.timeTy (.ofInt 0)) .nil .nil _
    QPC.timeTy QPC.timeTy (.ofInt 2) (.ofInt 3) 100 102 rfl rfl (by rfl)⟩

/-- Witness for C2 at a concrete pair of fragments: a has constant Time
duration 2, b carries one absolute-time anchor at 7; the appended copy
holds the anchor at 9. -/
theorem C2_anchor_rewrite_witness :
    ∃ clone, QPC.kvpLookup
        (QPC.kvpOf (.qcode 0 none none "A*20*"
          (.vconst 25 (some 0) QPC.timeTy ⟨5, 0⟩)
          (.vconst 2 (some 0) QPC.timeTy ⟨0, 0⟩)
          (.cons "*20*"
            (.qcode 20 (some 0) none "B"
              (.vconst 11 (some 10) QPC.timeTy ⟨3, 0⟩)
              (.vconst 12 (some 10) QPC.timeTy ⟨0, 0⟩)
              (.cons "*21*"
                (.qassign 21 (some 20)
                  (.vreg 22 (some 20) (some "out_usr_time") QPC.timeTy)
                  (.vconst 24 (some 20) QPC.timeTy ⟨9, 0⟩)) .nil)) .nil)))
        (QPC.marker 20) = some clone ∧
      Multiset.map QPC.PyRat.toRat (QPC.ancMObj clone) =
        Multiset.map (fun t => t.toRat + (QPC.PyRat.ofInt 2).toRat)
          (QPC.ancMKvp (.cons "*13*"
            (.qassign 13 (some 10)
              (.vreg 14 (some 10) (some "out_usr_time") QPC.timeTy)
              (.vconst 15 (some 10) QPC.timeTy (.ofInt 7))) .nil)) :=
  C2_anchor_rewrite [] 0 1 10 none (some 0) none none none "A" "B"
    (.vconst 2 (some 0) QPC.timeTy (.ofInt 0))
    (.vconst 11 (some 10) QPC.timeTy (.ofInt 3))
    (.vconst 12 (some 10) QPC.timeTy (.ofInt 0)) .nil
    (.cons "*13*"
      (.qassign 13 (some 10)
        (.vreg 14 (some 10) (some "out_usr_time") QPC.timeTy)
        (.vconst 15 (some 10) QPC.timeTy (.ofInt 7))) .nil)
    QPC.timeTy (.ofInt 2) _ 20 26 rfl (by decide) (by decide) (by decide)
    (by decide) (by decide) (by rfl)

/-- Witness for C6 at a concrete pair of code fragments with constant
durations 2 and 3: the parallel composite keeps duration 3. -/
theorem C6_parallel_duration_max_witness :
    ∃ i2 sc2 ty2 v, QPC.lengthOf
        (.qcode 0 none none "AB"
          (.vconst 11 (some 0) QPC.timeTy ⟨3, 0⟩)
          (.vconst 2 (some 0) QPC.timeTy ⟨0, 0⟩) .nil) =
        .vconst i2 sc2 ty2 v ∧
      v.toRat = max (QPC.PyRat.ofInt 2).toRat (QPC.PyRat.ofInt 3).toRat :=
  C6_parallel_duration_max [] 0 1 10 11 none (some 0) none (some 10)
    none none "A" "B"
    (.vconst 2 (some 0) QPC.timeTy (.ofInt 0))
    (.vconst 12 (some 10) QPC.timeTy (.ofInt 0)) .nil .nil _
    QPC.timeTy QPC.timeTy (.ofInt 2) (.ofInt 3) 100 101 (by rfl)


/-! ## Claim C3 -/

/-- C3: the identity-remap clone is side-effect-free on the original
(type.py QickCode.qick_copy lines 1042-1064, QickObject._qick_copy
lines 90-129).  qick_copy starts from deepcopy(self) and then mutates
only the copy: the copy root is a fresh address, the fresh region is
closed under children pointers (so the clone's owned registers and
symbol tables are all fresh objects), and after any sequence of
in-place mutations of fresh objects the byte rendering of the original
fragment (its text and symbol table) is unchanged. -/
theorem C3_qick_copy_frame (h : Heap) (a a2 : Nat) (h2 : Heap)
    (memo2 : List (Nat × Nat)) (fuel sfuel : Nat) (t : String)
    (ws : List (Nat × String × List Nat))
    (hwf : heapWF h = true)
    (hcopy : deepcopyH fuel h [] a = some (a2, h2, memo2))
    (hser : serializeH sfuel h a = some t)
    (hws : ∀ w ∈ ws, h.next ≤ w.1) :
    serializeH sfuel (applyWrites h2 ws) a = some t ∧
    h.next ≤ a2 ∧
    (∀ x s kids, lookupH h2 x = some (s, kids) → h.next ≤ x →
      ∀ b ∈ kids, h.next ≤ b) := by
  have hinv0 : InvH h.next h [] := by
    refine ⟨le_refl _, fun p hp => absurd hp (List.not_mem_nil p), ?_⟩
    intro x s kids hx hlox b hb
    exact absurd (lookupH_lt hwf hx) (not_lt.mpr hlox)
  obtain ⟨hinv2, hop, hla2, -⟩ :=
    (deepcopy_inv h.next fuel).1 h [] a a2 h2 memo2 hcopy hinv0
  refine ⟨?_, hla2,
    fun x s kids hx hlox b hb => hinv2.2.2 x s kids hx hlox b hb⟩
  refine (serialize_frame sfuel h (applyWrites h2 ws) ?_).1 a t hser
  intro x o hx
  have hxlt : x < h.next := lookupH_lt hwf hx
  exact lookupH_applyWrites hws hxlt (hop.1 x o hxlt hx)

/-! ## Claim C4 -/

/-- C4 counterexample.  Two concrete refutations of the claim as
stated, at explicit inputs inside an active scope (fragment 9):

First, an unbound register plus the Integer constant 0 has compatible
Kinds (one side Unbound), and indeed succeeds, but the result is the
register itself, not an Expression node: the sympy round trip in
QickVarType.__add__ collapses `reg + 0` to the bare symbol and
_from_sympy returns the register object.

Second, a Time-typed register plus a fresh unbound register has
compatible Kinds (one side Unbound), yet raises the KindMismatch
TypeError: QickReg.typecastable is checked with the typed register as
self, and a typed register is never castable into an unbound one. -/
theorem C4_add_counterexample :
    (pyAddV [9] (.vreg 1 (some 9) none ⟨none, none, none⟩)
        (.vconst 2 (some 9) ⟨some .tInt, none, none⟩ (.ofInt 0)) 100 =
      .ok (.vreg 1 (some 9) none ⟨some .tInt, none, none⟩, 101) ∧
     isExprB (.vreg 1 (some 9) none (⟨some .tInt, none, none⟩ : QTy)) = false) ∧
    (qickTypeOf (.vreg 1 (some 9) none ⟨some .tTime, none, none⟩)).cls = some .tTime ∧
    (qickTypeOf (.vreg 2 (some 9) none ⟨none, none, none⟩)).cls = none ∧
    pyAddV [9] (.vreg 1 (some 9) none ⟨some .tTime, none, none⟩)
        (.vreg 2 (some 9) none ⟨none, none, none⟩) 100 =
      .error .kindMismatch := by
  refine ⟨⟨by decide, rfl⟩, rfl, rfl, by decide⟩

/-- C4 (amended): atom-level behaviour of + (type.py
QickConstType.__add__ lines 320-334, QickVarType.__add__ lines 478-486,
QickObject.typecastable lines 207-219, QickReg.typecastable lines
537-557, QickExpression.simplify lines 831-849).  Incompatible type
tags error with KindMismatch: a register left operand is judged by the
strict register rule, while an expression left operand is judged by the
base rule (QickExpression inherits QickObject.typecastable).  A
register plus a constant of the identical fully bound type succeeds:
the result keeps that Kind and is an Expression node, except that the
sympy round trip collapses reg + 0 back to the bare register. -/
theorem C4_amended_typed_atoms (stack : List Nat) (top : Nat)
    (hstack : stack.getLast? = some top)
    (ri ci ci2 : Nat) (rsc csc csc2 : Option Nat) (rnm : Option String)
    (el er : QVal) (eop : Op)
    (ta tb : QTy) (k : TyCls) (v w : PyRat) (n : Nat) :
    (baseCastable ta tb = false →
      pyAddV stack (.vconst ci csc ta v) (.vconst ci2 csc2 tb w) n =
        .error .kindMismatch) ∧
    (regCastable ta tb = false →
      pyAddV stack (.vreg ri rsc rnm ta) (.vconst ci csc tb w) n =
        .error .kindMismatch) ∧
    (castableV (.vexpr ri rsc el eop er ta) (.vconst ci csc tb w) =
      baseCastable ta tb) ∧
    (baseCastable ta tb = false →
      pyAddV stack (.vexpr ri rsc el eop er ta) (.vconst ci csc tb w) n =
        .error .kindMismatch) ∧
    (∃ r n2, pyAddV stack (.vreg ri rsc rnm ⟨some k, none, none⟩)
        (.vconst ci csc ⟨some k, none, none⟩ w) n = .ok (r, n2) ∧
      qickTypeOf r = ⟨some k, none, none⟩ ∧
      (isExprB r = true ∨ isRegB r = true) ∧
      (w.peq (.ofInt 0) = false → isExprB r = true)) := by
  refine ⟨?_, ?_, ?_, ?_, ?_⟩
  · intro hb
    simp [pyAddV, qickTypeOf, hb]
  · intro hr
    simp [pyAddV, varAdd, castableV, qickTypeOf, hr]
  · rfl
  · intro hb
    simp [pyAddV, varAdd, castableV, qickTypeOf, hb]
  have hcs := connectScope_some hstack true
  have hcast : castableV (.vreg ri rsc rnm ⟨some k, none, none⟩)
      (.vconst ci csc ⟨some k, none, none⟩ w) = true := by
    simp [castableV, regCastable, qickTypeOf]
  have htc : runJob 7 stack
      (.tc (.vconst ci csc ⟨some k, none, none⟩ w)
        (.vreg ri rsc rnm ⟨some k, none, none⟩)) (n + 1) =
      .ok (.vconst (n + 1) (some top) ⟨some k, none, none⟩ w, n + 2) := by
    rw [show (7 : Nat) = 6 + 1 from rfl, runJob]
    simp only [qickTypeOf, baseCastable, beq_self_eq_true, if_true,
      mkConstF, hcs, bind, Except.bind, pure, Except.pure]
  have hmk : runJob 8 stack
      (.mk (.vreg ri rsc rnm ⟨some k, none, none⟩) .add
        (.vconst ci csc ⟨some k, none, none⟩ w)) n =
      .ok (.vexpr n (some top) (.vreg ri rsc rnm ⟨some k, none, none⟩) .add
        (.vconst (n + 1) (some top) ⟨some k, none, none⟩ w)
        ⟨some k, none, none⟩, n + 2) := by
    rw [show (8 : Nat) = 7 + 1 from rfl, runJob]
    simp only [hcs, bind, Except.bind, htc, qickTypeOf]
  have hts : toSympy (.vexpr n (some top)
      (.vreg ri rsc rnm ⟨some k, none, none⟩) .add
      (.vconst (n + 1) (some top) ⟨some k, none, none⟩ w)
      ⟨some k, none, none⟩) [] =
      some (⟨(PyRat.ofInt 0).padd w,
        [(PyRat.ofInt 1, marker ri ++ toString 0)]⟩,
        [(marker ri ++ toString 0,
          .vreg ri rsc rnm ⟨some k, none, none⟩)]) := by
    simp only [toSympy, freshSuffix, List.range, List.map, List.contains,
      List.find?, linAdd, Option.bind]
    rfl
  have hrebt : rebuildArg 8 stack
      [(marker ri ++ toString 0, .vreg ri rsc rnm ⟨some k, none, none⟩)]
      ⟨some k, none, none⟩
      (.term (PyRat.ofInt 1) (marker ri ++ toString 0)) =
      fun m => .ok (.vreg ri rsc rnm ⟨some k, none, none⟩, m) := by
    funext m
    simp only [rebuildArg, List.find?, decide_eq_true_eq]
    rfl
  by_cases hw : ((PyRat.ofInt 0).padd w).peq (.ofInt 0) = true
  · refine ⟨.vreg ri rsc rnm ⟨some k, none, none⟩, n + 2, ?_, rfl,
      Or.inr rfl, ?_⟩
    · show varAdd stack _ _ n = _
      simp only [varAdd, hcast, if_true, ampleFuel, sizeV, mkExprF, bind,
        Except.bind]
      rw [show 2 * (1 + 1) + 4 = 8 from rfl, hmk]
      simp only [simplifyF, hts, qickTypeOf, fromSympy, hw, if_true, hrebt]
    · intro hwf
      rw [peq_zero_ofInt_padd, hwf] at hw
      simp at hw
  · have hwf : ((PyRat.ofInt 0).padd w).peq (.ofInt 0) = false :=
      Bool.not_eq_true _ ▸ (by simpa using hw)
    refine ⟨.vexpr (n + 3) (some top)
      (.vconst (n + 2) (some top) ⟨some k, none, none⟩
        ((PyRat.ofInt 0).padd w)) .add
      (.vreg ri rsc rnm ⟨some k, none, none⟩) ⟨some k, none, none⟩,
      n + 4, ?_, rfl, Or.inl rfl, fun _ => rfl⟩
    have hmk2 : runJob 8 stack
        (.mk (.vconst (n + 2) (some top) ⟨some k, none, none⟩
          ((PyRat.ofInt 0).padd w)) .add
          (.vreg ri rsc rnm ⟨some k, none, none⟩)) (n + 3) =
        .ok (.vexpr (n + 3) (some top)
          (.vconst (n + 2) (some top) ⟨some k, none, none⟩
            ((PyRat.ofInt 0).padd w)) .add
          (.vreg ri rsc rnm ⟨some k, none, none⟩)
          ⟨some k, none, none⟩, n + 4) := by
      rw [show (8 : Nat) = 7 + 1 from rfl, runJob]
      have htc2 : runJob 7 stack
          (.tc (.vreg ri rsc rnm ⟨some k, none, none⟩)
            (.vconst (n + 2) (some top) ⟨some k, none, none⟩
              ((PyRat.ofInt 0).padd w))) (n + 4) =
          .ok (.vreg ri rsc rnm ⟨some k, none, none⟩, n + 4) := by
        rw [show (7 : Nat) = 6 + 1 from rfl, runJob]
        simp [qickTypeOf, regCastable]
      simp only [hcs, bind, Except.bind, htc2, qickTypeOf]
    have hnum : rebuildArgs 2 8 stack
        [(marker ri ++ toString 0, .vreg ri rsc rnm ⟨some k, none, none⟩)]
        ⟨some k, none, none⟩ [SymArg.num ((PyRat.ofInt 0).padd w)]
        (n + 2) =
        .ok (.vconst (n + 2) (some top) ⟨some k, none, none⟩
          ((PyRat.ofInt 0).padd w), n + 3) := by
      rw [show (2 : Nat) = 1 + 1 from rfl, rebuildArgs]
      simp only [rebuildArg, mkConstF, hcs, bind, Except.bind, pure,
        Except.pure]
    have hterm : rebuildArgs 2 8 stack
        [(marker ri ++ toString 0, .vreg ri rsc rnm ⟨some k, none, none⟩)]
        ⟨some k, none, none⟩
        [SymArg.term (PyRat.ofInt 1) (marker ri ++ toString 0)] (n + 3) =
        .ok (.vreg ri rsc rnm ⟨some k, none, none⟩, n + 3) := by
      rw [show (2 : Nat) = 1 + 1 from rfl, rebuildArgs, hrebt]
    have hra : rebuildArgs 3 8 stack
        [(marker ri ++ toString 0, .vreg ri rsc rnm ⟨some k, none, none⟩)]
        ⟨some k, none, none⟩
        [SymArg.num ((PyRat.ofInt 0).padd w),
          SymArg.term (PyRat.ofInt 1) (marker ri ++ toString 0)] (n + 2) =
        .ok (.vexpr (n + 3) (some top)
          (.vconst (n + 2) (some top) ⟨some k, none, none⟩
            ((PyRat.ofInt 0).padd w)) .add
          (.vreg ri rsc rnm ⟨some k, none, none⟩)
          ⟨some k, none, none⟩, n + 4) := by
      rw [show (3 : Nat) = 2 + 1 from rfl, rebuildArgs]
      rw [show List.take (pyHalf (List.length
          [SymArg.num ((PyRat.ofInt 0).padd w),
            SymArg.term (PyRat.ofInt 1) (marker ri ++ toString 0)]))
          [SymArg.num ((PyRat.ofInt 0).padd w),
            SymArg.term (PyRat.ofInt 1) (marker ri ++ toString 0)] =
          [SymArg.num ((PyRat.ofInt 0).padd w)] from by
        simp [pyHalf, List.take]]
      rw [show List.drop (pyHalf (List.length
          [SymArg.num ((PyRat.ofInt 0).padd w),
            SymArg.term (PyRat.ofInt 1) (marker ri ++ toString 0)]))
          [SymArg.num ((PyRat.ofInt 0).padd w),
            SymArg.term (PyRat.ofInt 1) (marker ri ++ toString 0)] =
          [SymArg.term (PyRat.ofInt 1) (marker ri ++ toString 0)] from by
        simp [pyHalf, List.drop]]
      simp only [bind, Except.bind, hnum, hterm, mkExprF, hmk2]
      all_goals simp
    have hfs : fromSympy 8 stack
        [(marker ri ++ toString 0, .vreg ri rsc rnm ⟨some k, none, none⟩)]
        ⟨some k, none, none⟩
        ⟨(PyRat.ofInt 0).padd w,
          [(PyRat.ofInt 1, marker ri ++ toString 0)]⟩ (n + 2) =
        .ok (.vexpr (n + 3) (some top)
          (.vconst (n + 2) (some top) ⟨some k, none, none⟩
            ((PyRat.ofInt 0).padd w)) .add
          (.vreg ri rsc rnm ⟨some k, none, none⟩)
          ⟨some k, none, none⟩, n + 4) := by
      simp only [fromSympy]
      rw [if_neg (by simp [hwf])]
      rw [show linArgs ⟨(PyRat.ofInt 0).padd w,
          [(PyRat.ofInt 1, marker ri ++ toString 0)]⟩ =
          [SymArg.num ((PyRat.ofInt 0).padd w),
            SymArg.term (PyRat.ofInt 1) (marker ri ++ toString 0)] from
        by simp [linArgs, hwf]]
      exact hra
    show varAdd stack _ _ n = _
    simp only [varAdd, hcast, if_true, ampleFuel, sizeV, mkExprF, bind,
      Except.bind]
    rw [show 2 * (1 + 1) + 4 = 8 from rfl, hmk]
    simp only [simplifyF, hts, qickTypeOf]
    exact hfs

/-- Witness for the amended C4 at Time atoms on a concrete scope stack,
with an incompatible Frequency tag for the failure parts. -/
theorem C4_amended_typed_atoms_witness :
    ([5].getLast? = some 5) ∧
    ((baseCastable ⟨some .tTime, none, none⟩ ⟨some .tFreq, none, none⟩ =
        false →
      pyAddV [5] (.vconst 30 none ⟨some .tTime, none, none⟩ (.ofInt 1))
        (.vconst 31 none ⟨some .tFreq, none, none⟩ (.ofInt 3)) 40 =
        .error .kindMismatch) ∧
    (regCastable ⟨some .tTime, none, none⟩ ⟨some .tFreq, none, none⟩ =
        false →
      pyAddV [5] (.vreg 32 none none ⟨some .tTime, none, none⟩)
        (.vconst 30 none ⟨some .tFreq, none, none⟩ (.ofInt 3)) 40 =
        .error .kindMismatch) ∧
    (castableV (.vexpr 32 none
        (.vreg 33 none none ⟨some .tTime, none, none⟩) .add
        (.vconst 34 none ⟨some .tTime, none, none⟩ (.ofInt 2))
        ⟨some .tTime, none, none⟩)
      (.vconst 30 none ⟨some .tFreq, none, none⟩ (.ofInt 3)) =
      baseCastable ⟨some .tTime, none, none⟩ ⟨some .tFreq, none, none⟩) ∧
    (baseCastable ⟨some .tTime, none, none⟩ ⟨some .tFreq, none, none⟩ =
        false →
      pyAddV [5] (.vexpr 32 none
          (.vreg 33 none none ⟨some .tTime, none, none⟩) .add
          (.vconst 34 none ⟨some .tTime, none, none⟩ (.ofInt 2))
          ⟨some .tTime, none, none⟩)
        (.vconst 30 none ⟨some .tFreq, none, none⟩ (.ofInt 3)) 40 =
        .error .kindMismatch) ∧
    (∃ r n2, pyAddV [5] (.vreg 32 none none ⟨some QPC.TyCls.tTime, none,
          none⟩)
        (.vconst 30 none ⟨some .tTime, none, none⟩ (.ofInt 3)) 40 =
        .ok (r, n2) ∧
      qickTypeOf r = ⟨some .tTime, none, none⟩ ∧
      (isExprB r = true ∨ isRegB r = true) ∧
      ((PyRat.ofInt 3).peq (.ofInt 0) = false → isExprB r = true))) :=
  ⟨rfl, C4_amended_typed_atoms [5] 5 rfl 32 30 31 none none none none
    (.vreg 33 none none ⟨some .tTime, none, none⟩)
    (.vconst 34 none ⟨some .tTime, none, none⟩ (.ofInt 2)) .add
    ⟨some .tTime, none, none⟩ ⟨some .tFreq, none, none⟩ .tTime
    (.ofInt 1) (.ofInt 3) 40⟩

/-- Witness for C3: a two-object fragment (code with one register) is
cloned; mutating the clone's register leaves the original's rendering
unchanged. -/
theorem C3_qick_copy_frame_witness :
    serializeH 4 (applyWrites
      ⟨[(0, ("code|asm=PULSE;", [1])), (1, ("reg|out_usr_time", [])),
        (2, ("code|asm=PULSE;", [3])), (3, ("reg|out_usr_time", []))], 4⟩
      [(3, ("reg|mutated", []))]) 0 =
      some "(code|asm=PULSE;(reg|out_usr_time))" ∧
    (⟨[(0, ("code|asm=PULSE;", [1])), (1, ("reg|out_usr_time", []))], 2⟩ :
      Heap).next ≤ 2 ∧
    (∀ x s kids, lookupH
        ⟨[(0, ("code|asm=PULSE;", [1])), (1, ("reg|out_usr_time", [])),
          (2, ("code|asm=PULSE;", [3])),
          (3, ("reg|out_usr_time", []))], 4⟩ x = some (s, kids) →
      (⟨[(0, ("code|asm=PULSE;", [1])), (1, ("reg|out_usr_time", []))],
        2⟩ : Heap).next ≤ x → ∀ b ∈ kids, 2 ≤ b) :=
  C3_qick_copy_frame
    ⟨[(0, ("code|asm=PULSE;", [1])), (1, ("reg|out_usr_time", []))], 2⟩
    0 2
    ⟨[(0, ("code|asm=PULSE;", [1])), (1, ("reg|out_usr_time", [])),
      (2, ("code|asm=PULSE;", [3])), (3, ("reg|out_usr_time", []))], 4⟩
    [(0, 2), (1, 3)] 5 4 "(code|asm=PULSE;(reg|out_usr_time))"
    [(3, ("reg|mutated", []))]
    (by decide) (by decide) (by decide) (by decide)

/-! ## Claim C7 -/

/-- C7: register kind monotonicity (type.py QickReg.typecastable /
typecast / _assign, lines 537-581).  Assigning a typed value to a fresh
unbound register succeeds and fixes the register held type to the
value's type (the Kind is fixed on first assignment).  A second
assignment is checked against the strict register rule: when the new
value's type is not register-castable (different Kind, or different
generator/readout channel), the assignment raises KindMismatch; when it
is castable (same Kind and channels), the assignment succeeds and the
held type is unchanged. -/
theorem C7_register_monotonic_kind (stack : List Nat) (top i : Nat)
    (sc : Option Nat) (nm : Option String) (v1 v2 : QVal) (n m : Nat)
    (hstack : stack.getLast? = some top)
    (h1 : (qickTypeOf v1).cls.isSome) :
    regAssignF stack (.vreg i sc nm ⟨none, none, none⟩) v1 n =
      .ok (.vreg i sc nm (qickTypeOf v1), n, n + 1) ∧
    (regCastable (qickTypeOf v1) (qickTypeOf v2) = false →
      regAssignF stack (.vreg i sc nm (qickTypeOf v1)) v2 m =
        .error .kindMismatch) ∧
    (regCastable (qickTypeOf v1) (qickTypeOf v2) = true →
      regAssignF stack (.vreg i sc nm (qickTypeOf v1)) v2 m =
        .ok (.vreg i sc nm (qickTypeOf v2), m, m + 1)) := by
  refine ⟨?_, ?_, ?_⟩
  · simp [regAssignF, castableV, regCastable, typecastF, ampleFuel, sizeV,
      runJob, connectScope, hstack, bind, Except.bind, pure, Except.pure]
  · intro hbad
    simp [regAssignF, castableV, hbad]
  · intro hgood
    simp [regAssignF, castableV, hgood, typecastF, ampleFuel, sizeV,
      runJob, connectScope, hstack, bind, Except.bind, pure, Except.pure]

/-- Witness for C7 at concrete inputs: a register in fragment scope 9,
first assigned a Time constant, then reassigned a Frequency constant
(KindMismatch) and a Time constant (success). -/
theorem C7_register_monotonic_kind_witness :
    ([9] : List Nat).getLast? = some 9 ∧
    (qickTypeOf (.vconst 3 (some 9) ⟨some .tTime, none, none⟩ (.ofInt 1))).cls.isSome ∧
    (regAssignF [9] (.vreg 1 (some 9) none ⟨none, none, none⟩)
        (.vconst 3 (some 9) ⟨some .tTime, none, none⟩ (.ofInt 1)) 10 =
      .ok (.vreg 1 (some 9) none
            (qickTypeOf (.vconst 3 (some 9) ⟨some .tTime, none, none⟩ (.ofInt 1))), 10, 11) ∧
    (regCastable
        (qickTypeOf (.vconst 3 (some 9) ⟨some .tTime, none, none⟩ (.ofInt 1)))
        (qickTypeOf (.vconst 4 (some 9) ⟨some .tFreq, none, none⟩ (.ofInt 2))) = false →
      regAssignF [9]
          (.vreg 1 (some 9) none
            (qickTypeOf (.vconst 3 (some 9) ⟨some .tTime, none, none⟩ (.ofInt 1))))
          (.vconst 4 (some 9) ⟨some .tFreq, none, none⟩ (.ofInt 2)) 20 =
        .error .kindMismatch)) := by
  refine ⟨rfl, rfl, ?_⟩
  have h := C7_register_monotonic_kind [9] 9 1 (some 9) none
    (.vconst 3 (some 9) ⟨some .tTime, none, none⟩ (.ofInt 1))
    (.vconst 4 (some 9) ⟨some .tFreq, none, none⟩ (.ofInt 2)) 10 20 rfl rfl
  exact ⟨h.1, h.2.1⟩

/-! ## Claim C1 -/

/-- Evaluation of the demo SoC time conversion at 1000 us (the setup
inc_ref in load). -/
theorem demoSoc_us2cycles_1000 : demoSoc.us2cycles none 1000 = 500 := by
  show (⌊(1000 : ℚ) / 2 + 1 / 2⌋ : ℤ) = 500
  rw [Int.floor_eq_iff] <;> norm_num

/-- Evaluation of the demo SoC time conversion at 1.2 us: it rounds up
to 1 cycle (2 us), a 67% error. -/
theorem demoSoc_us2cycles_12 :
    demoSoc.us2cycles none ((12 / 10000000 : ℚ) * 1000000) = 1 := by
  show (⌊((12 / 10000000 : ℚ) * 1000000) / 2 + 1 / 2⌋ : ℤ) = 1
  rw [Int.floor_eq_iff] <;> norm_num

/-- C1 counterexample: a fragment whose text contains the placeholder
marker `*7*` but whose symbol table has no entry for it is lowered by
preprocess and load without any error, and the emitted assembly text
still contains the marker.  The claim that lowering either removes all
markers or fails with an internal UnresolvedPlaceholder error is
therefore false: compiler.py performs no final marker check. -/
theorem C1_marker_survives_counterexample :
    loadC demoBoard demoSoc ⟨"JUMP *7*\n", []⟩ =
      .ok "NOP\nTIME inc_ref #500\nJUMP *7*\n\nJUMP HERE\n" ∧
    containsStr "*7*" "NOP\nTIME inc_ref #500\nJUMP *7*\n\nJUMP HERE\n" = true := by
  constructor
  · simp only [loadC, preprocessC, setupAsm, List.foldlM, bind, Except.bind, pure,
      Except.pure, demoSoc_us2cycles_1000]
    decide
  · decide

/-- C1 amended: lowering performs no final placeholder check.  For any
board, SoC, and assembly text, preprocessing a fragment with an empty
symbol table leaves the text unchanged and raises no error, and load
emits it (per-line left-stripped, between the fixed setup and teardown
assembly) as is - markers and all. -/
theorem C1_no_final_marker_check (b : Board) (s : Soc) (asm : String) :
    preprocessC b s ⟨asm, []⟩ = .ok ⟨asm, []⟩ ∧
    loadC b s ⟨asm, []⟩ = .ok (setupAsm s ++ lstripLines asm ++ "JUMP HERE\n") := by
  constructor <;>
    simp only [loadC, preprocessC, List.foldlM, bind, Except.bind, pure, Except.pure]

/-! ## Claim C8 -/

/-- Evaluation of convert_cycles on the 1.2 us input under the demo SoC:
the relative error after rounding to 2 us is 67%, above the 5% budget,
so the sweep-endpoint checker rejects it. -/
theorem demoSoc_convert_12 :
    convertCycles demoSoc (12 / 10000000) true none =
      .error (.value "After rounding QickSweepArange to the nearest clock cycle, error is > max_error") := by
  simp only [convertCycles, demoSoc_us2cycles_12]
  rw [if_pos]
  show (5 : ℚ) / 100 < _
  rw [lt_div_iff (by norm_num), lt_abs]
  left
  show (5 : ℚ) / 100 * (12 / 10000000) < ((1 : ℤ) : ℚ) * demoSoc.cycles2us none 1 / 1000000 - 12 / 10000000
  norm_num [demoSoc]

/-- C8 counterexample: a Time constant placeholder of 1.2 us under the
2 us demo clock rounds to 1 cycle (2 us), a 67% relative error; the
very same value is rejected by convert_cycles (the sweep-endpoint
checker), yet preprocess substitutes the rounded integer 1 for the
plain constant and succeeds.  The claim that lowering raises a PrecisionError for any
Time/Frequency/Phase constant whose rounding error exceeds the budget
is therefore false: the budget check exists only for sweep endpoints. -/
theorem C8_no_precision_check_counterexample :
    preprocessC demoBoard demoSoc
        ⟨"REG_WR r0 imm #*3*\n", [("*3*", .ctime 3 (12 / 10000000))]⟩ =
      .ok ⟨"REG_WR r0 imm #1\n", [("*3*", .ctime 3 (12 / 10000000))]⟩ ∧
    convertCycles demoSoc (12 / 10000000) true none =
      .error (.value "After rounding QickSweepArange to the nearest clock cycle, error is > max_error") := by
  constructor
  · simp only [preprocessC, preprocessEntry, List.foldlM, bind, Except.bind, pure,
      Except.pure, demoSoc_us2cycles_12]
    rw [if_neg (not_ne_iff.mpr
      (by decide : ("*3*" : String) = marker (CVal.ctime 3 (12 / 10000000)).pyidOf))]
    rfl
  · exact demoSoc_convert_12

/-- C8 amended: the relative-error budget is enforced only for
QickSweepArange endpoints.  A plain Time constant placeholder is always
replaced by its converted integer, whatever the rounding error, and a
plain Frequency constant placeholder likewise by its converted
register value, with no error check in either branch; a sweep whose
start endpoint (time or frequency) fails the convert_cycles budget
check makes preprocess fail with that error. -/
theorem C8_budget_only_for_sweeps (b : Board) (s : Soc) (asm k : String)
    (pid : Nat) (t f : ℚ) (hk : k = marker pid) :
    (preprocessC b s ⟨asm, [(k, .ctime pid t)]⟩ =
      .ok ⟨pyReplace asm k (toString (s.us2cycles none (t * 1000000))),
           [(k, .ctime pid t)]⟩) ∧
    (preprocessC b s ⟨asm, [(k, .cfreq pid f)]⟩ =
      .ok ⟨pyReplace asm k
             (toString (s.freq2reg none (f * (1 / 1000000)))),
           [(k, .cfreq pid f)]⟩) ∧
    (∀ e, convertCycles s t true none = .error e →
      preprocessC b s
          ⟨asm, [(k, .csweep pid (.stime t) (.sint 0) (.sint 1) none)]⟩ =
        .error e) ∧
    (∀ e, convertCycles s f false none = .error e →
      preprocessC b s
          ⟨asm, [(k, .csweep pid (.sfreq f) (.sint 0) (.sint 1) none)]⟩ =
        .error e) := by
  subst hk
  refine ⟨?_, ?_, ?_, ?_⟩
  · simp [preprocessC, preprocessEntry, CVal.pyidOf, List.foldlM, bind, Except.bind,
      pure, Except.pure]
  · simp [preprocessC, preprocessEntry, CVal.pyidOf, List.foldlM, bind, Except.bind,
      pure, Except.pure]
  · intro e he
    simp [preprocessC, preprocessEntry, CVal.pyidOf, List.foldlM, bind, Except.bind,
      pure, Except.pure, sweepEndCycles, he, Except.map]
  · intro e he
    simp [preprocessC, preprocessEntry, CVal.pyidOf, List.foldlM, bind, Except.bind,
      pure, Except.pure, sweepEndCycles, he, Except.map]

/-- Witness for C8 amended at a concrete input. -/
theorem C8_budget_only_for_sweeps_witness :
    ("*3*" : String) = marker 3 ∧
    ((preprocessC demoBoard demoSoc
        ⟨"W *3*\n", [("*3*", .ctime 3 (2 / 1000000))]⟩ =
      .ok ⟨pyReplace "W *3*\n" "*3*"
             (toString (demoSoc.us2cycles none ((2 / 1000000) * 1000000))),
           [("*3*", .ctime 3 (2 / 1000000))]⟩) ∧
    (preprocessC demoBoard demoSoc
        ⟨"W *3*\n", [("*3*", .cfreq 3 7)]⟩ =
      .ok ⟨pyReplace "W *3*\n" "*3*"
             (toString (demoSoc.freq2reg none (7 * (1 / 1000000)))),
           [("*3*", .cfreq 3 7)]⟩) ∧
    (∀ e, convertCycles demoSoc (2 / 1000000) true none = .error e →
      preprocessC demoBoard demoSoc
          ⟨"W *3*\n", [("*3*", .csweep 3 (.stime (2 / 1000000)) (.sint 0) (.sint 1) none)]⟩ =
        .error e) ∧
    (∀ e, convertCycles demoSoc 7 false none = .error e →
      preprocessC demoBoard demoSoc
          ⟨"W *3*\n", [("*3*", .csweep 3 (.sfreq 7) (.sint 0) (.sint 1) none)]⟩ =
        .error e)) :=
  ⟨rfl, C8_budget_only_for_sweeps demoBoard demoSoc "W *3*\n" "*3*" 3
    (2 / 1000000) 7 rfl⟩

/-! ## Claim C9 -/

/-- C9: constructing a scope-requiring Value/Label with an empty scope
stack raises the UnscopedCreation error (RuntimeError in type.py line
86), and constructing it with a non-empty stack binds the object to the
fragment on top of the stack (the last frame pushed). -/
theorem C9_unscoped_creation (stack : List Nat) (top : Nat)
    (h : stack.getLast? = some top) :
    QPC.connectScope [] true = .error .unscoped ∧
    QPC.connectScope stack true = .ok (some top) := by
  constructor
  · rfl
  · simp [QPC.connectScope, h]

/-- Witness for C9 at a concrete stack. -/
theorem C9_unscoped_creation_witness :
    QPC.connectScope [] true = .error .unscoped ∧
    QPC.connectScope [4, 7] true = .ok (some 7) :=
  C9_unscoped_creation [4, 7] 7 (by rfl)

/-! ## Claim C10 -/

/-- A step preserves the world invariant. -/
theorem step_wf {w w2 : World} (h : Step w w2) (hwf : WorldWF w) :
    WorldWF w2 := by
  cases h with
  | newFrag n frags ambient nm => exact newFrag_wf ambient nm hwf
  | registerStep n n2 i sc nm asm len off kvp rest o hco hno heo hoo
      hko hdo hbo hnn =>
    exact register_wf hco hno heo hko hdo hbo hnn hwf
  | addStep n n2 ambient a b a2 rest hadd => exact add_wf hadd hwf
  | parallelStep n n2 ambient auto a b a2 rest hpar =>
    exact parallel_wf hpar hwf
  | cloneStep n n2 stack top b c rest hs hbt htn hcp =>
    exact clone_wf hs hbt htn hcp hwf
  | permStep n frags frags2 hp => exact perm_wf hp hwf

/-- Worlds reachable by the fragment-building steps. -/
def Reach : World → World → Prop := Relation.ReflTransGen Step

/-- Reachability preserves the world invariant. -/
theorem reach_wf {w w2 : World} (h : Reach w w2) (hwf : WorldWF w) :
    WorldWF w2 := by
  induction h with
  | refl => exact hwf
  | tail h1 h2 ih => exact step_wf h2 ih

/-- C10: symbol-table key consistency.  Along any sequence of Fragment
construction (QickCode.__init__), registration of freshly built objects
under their own keys (QickObject.key, type.py lines 137-157),
add/parallel composition (which clone via _qick_copy, rewrite keys via
update_key lines 996-1021 and merge via merge_kvp lines 971-985), and
bare qick_copy cloning — the Step/Reach relation over worlds of live
fragments — every reachable live fragment's symbol table maps each key
string k to an object whose own placeholder key `*id*` equals k,
recursively through nested fragments. -/
theorem C10_key_consistency_reachable {w w2 : World}
    (hreach : Reach w w2) (hwf : WorldWF w) :
    ∀ o ∈ w2.frags, consObj o = true ∧
      ∀ k v, kvpLookup (kvpOf o) k = some v → k = keyOf v := by
  have hwf2 := reach_wf hreach hwf
  intro o ho
  have hf := hwf2.1 o ho
  obtain ⟨h1, -, -, -, -, -, -, i, sc, nm, asm, len, off, kvp, rfl⟩ := hf
  refine ⟨h1, fun k v hl => ?_⟩
  exact cons_lookup (show consKvp kvp = true from h1) hl

/-- Witness for C10: a world reached by creating a Fragment and
registering a label keeps a consistent symbol table. -/
theorem C10_key_consistency_reachable_witness :
    consObj (QObj.qcode 0 none none ""
      (QVal.vconst 1 (some 0) timeTy (PyRat.ofInt 0))
      (QVal.vconst 2 (some 0) timeTy (PyRat.ofInt 0))
      (kvpSet Kvp.nil (keyOf (QObj.qlabel 3 (some 0) "L"))
        (QObj.qlabel 3 (some 0) "L"))) = true :=
  (C10_key_consistency_reachable
    (Relation.ReflTransGen.tail
      (Relation.ReflTransGen.tail Relation.ReflTransGen.refl
        (Step.newFrag 0 [] [] none))
      (Step.registerStep 3 4 0 none none ""
        (QVal.vconst 1 (some 0) timeTy (PyRat.ofInt 0))
        (QVal.vconst 2 (some 0) timeTy (PyRat.ofInt 0)) Kvp.nil []
        (QObj.qlabel 3 (some 0) "L") rfl trivial rfl rfl rfl
        (List.nodup_singleton 3) (by decide) (by decide)))
    ⟨fun o ho => absurd ho (List.not_mem_nil o), List.Pairwise.nil⟩
    _ (List.mem_singleton_self _)).1
